import Mathlib

/-!
# Verification of the yasniy toolchain specification

A shallow embedding, in Lean 4, of the parts of the yasniy language toolchain
(lexer, type checker, optimizer, bytecode container, virtual machine) that the
specification's testable claims are about.  Each Python construct is translated
into an executable Lean definition; theorems then settle the claims.

Conventions used throughout:
* Python exceptions are modelled with `Option`/`Except` result types.
* Python `dict`s (insertion ordered, unique keys) are modelled as association
  lists; `set`s as lists with membership semantics.
* Python `str` is modelled by Lean `String`/`List Char`.
* Arbitrary-precision Python integers are `Int`; IEEE doubles are modelled
  exactly where a claim needs them (see the binary64 rounding model below) and
  as opaque canonical-repr text elsewhere.
-/

set_option maxHeartbeats 1600000
set_option maxRecDepth 8192
set_option exponentiation.threshold 2000

namespace Yasny

/-! ## Types (src/build/lib/yasn/types.py)

`Type` is a frozen dataclass `{name, args}` with `args` a tuple of types.
-/

inductive Ty where
  | mk (name : String) (args : List Ty)

mutual

def tyBeq : Ty → Ty → Bool
  | .mk n a, .mk m b => n == m && tyBeqList a b

def tyBeqList : List Ty → List Ty → Bool
  | [], [] => true
  | x :: xs, y :: ys => tyBeq x y && tyBeqList xs ys
  | _, _ => false

end

mutual

theorem tyBeq_iff : ∀ (t u : Ty), tyBeq t u = true ↔ t = u
  | .mk n a, .mk m b => by
    simp only [tyBeq, Bool.and_eq_true, beq_iff_eq, tyBeqList_iff a b, Ty.mk.injEq]

theorem tyBeqList_iff : ∀ (xs ys : List Ty), tyBeqList xs ys = true ↔ xs = ys
  | [], [] => by simp [tyBeqList]
  | [], _ :: _ => by simp [tyBeqList]
  | _ :: _, [] => by simp [tyBeqList]
  | x :: xs, y :: ys => by
    simp only [tyBeqList, Bool.and_eq_true, tyBeq_iff x y, tyBeqList_iff xs ys, List.cons.injEq]

end

instance : DecidableEq Ty := fun t u => decidable_of_iff _ (tyBeq_iff t u)

def Ty.name : Ty → String
  | .mk n _ => n

def Ty.args : Ty → List Ty
  | .mk _ a => a

def INT : Ty := .mk "Цел" []
def FLOAT : Ty := .mk "Дроб" []
def BOOL : Ty := .mk "Лог" []
def STRING : Ty := .mk "Строка" []
def VOID : Ty := .mk "Пусто" []
def ANY : Ty := .mk "Любой" []
def TASK : Ty := .mk "Задача" []
def UNION : String := "Объединение"

def list_of (element : Ty) : Ty := .mk "Список" [element]

def dict_of (key value : Ty) : Ty := .mk "Словарь" [key, value]

/-- The flattening loop of `union_of`: each variant named `Объединение`
contributes its argument list, every other variant contributes itself. -/
def unionFlatten : List Ty → List Ty
  | [] => []
  | v :: rest =>
    (if v.name = UNION then v.args else [v]) ++ unionFlatten rest

/-- The deduplication loop of `union_of`: `uniq` starts empty and each element
of `flat` is appended unless already present. -/
def unionDedup (flat : List Ty) : List Ty :=
  flat.foldl (fun uniq t => if t ∈ uniq then uniq else uniq ++ [t]) []

/-- `union_of(*variants)` from types.py: flatten direct `Union` arguments one
level, deduplicate keeping first occurrences, then collapse: `Any` wins, the
empty list is `Void`, a single variant is returned unwrapped. -/
def union_of (variants : List Ty) : Ty :=
  let flat := unionFlatten variants
  let uniq := unionDedup flat
  if ANY ∈ uniq then ANY
  else if uniq = [] then VOID
  else if h : uniq.length = 1 then uniq.head (by intro hn; simp [hn] at h)
  else .mk UNION uniq

def is_union (t : Ty) : Bool := t.name = UNION

def variants_of (t : Ty) : List Ty :=
  if is_union t then t.args else [t]

/-! ### Normalization facts about `union_of` (claim C5) -/

/-- The textbook first-occurrence deduplication, used as the specification that
the accumulator loop in `union_of` is measured against. -/
def dedupFirst : List Ty → List Ty
  | [] => []
  | x :: xs => x :: dedupFirst (xs.filter (fun y => y ≠ x))
termination_by l => l.length
decreasing_by
  simp only [List.length_cons]
  exact Nat.lt_succ_of_le (List.length_filter_le _ _)

theorem mem_dedupFirst (x : Ty) : ∀ (l : List Ty), x ∈ dedupFirst l ↔ x ∈ l := by
  intro l
  induction l using dedupFirst.induct with
  | case1 => simp [dedupFirst]
  | case2 y ys ih =>
    simp only [dedupFirst, List.mem_cons, ih, List.mem_filter, decide_eq_true_eq]
    constructor
    · rintro (rfl | ⟨h, _⟩)
      · exact Or.inl rfl
      · exact Or.inr h
    · rintro (rfl | h)
      · exact Or.inl rfl
      · by_cases hxy : x = y
        · exact Or.inl hxy
        · exact Or.inr ⟨h, hxy⟩

theorem dedupFirst_nodup : ∀ (l : List Ty), (dedupFirst l).Nodup := by
  intro l
  induction l using dedupFirst.induct with
  | case1 => simp [dedupFirst]
  | case2 y ys ih =>
    simp only [dedupFirst, List.nodup_cons]
    refine ⟨fun hmem => ?_, ih⟩
    rw [mem_dedupFirst] at hmem
    simp at hmem

theorem unionDedup_go (l : List Ty) :
    ∀ (acc : List Ty),
      l.foldl (fun uniq t => if t ∈ uniq then uniq else uniq ++ [t]) acc =
        acc ++ dedupFirst (l.filter (fun y => y ∉ acc)) := by
  induction l with
  | nil => simp [dedupFirst]
  | cons x xs ih =>
    intro acc
    rw [List.foldl_cons]
    by_cases hx : x ∈ acc
    · rw [if_pos hx, ih acc]
      congr 2
      rw [List.filter_cons]
      simp [hx]
    · have hfilter :
          (xs.filter (fun y => y ∉ acc)).filter (fun y => y ≠ x) =
            xs.filter (fun y => y ∉ acc ++ [x]) := by
        rw [List.filter_filter]
        apply List.filter_congr
        intro a _
        by_cases hax : a = x <;> by_cases hacc : a ∈ acc <;>
          simp [hax, hacc]
      rw [if_neg hx, ih (acc ++ [x])]
      have hcons : (x :: xs).filter (fun y => y ∉ acc) =
          x :: xs.filter (fun y => y ∉ acc) := by
        rw [List.filter_cons]
        simp [hx]
      rw [hcons]
      have hstep : dedupFirst (x :: xs.filter (fun y => y ∉ acc)) =
          x :: dedupFirst ((xs.filter (fun y => y ∉ acc)).filter (fun y => y ≠ x)) := by
        simp [dedupFirst]
      rw [hstep, hfilter]
      simp

theorem unionDedup_eq_dedupFirst (l : List Ty) : unionDedup l = dedupFirst l := by
  have h := unionDedup_go l []
  simpa [unionDedup] using h

theorem mem_unionFlatten (x : Ty) :
    ∀ (ts : List Ty), x ∈ unionFlatten ts ↔
      ∃ t ∈ ts, (t.name = UNION ∧ x ∈ t.args) ∨ (t.name ≠ UNION ∧ x = t) := by
  intro ts
  induction ts with
  | nil => simp [unionFlatten]
  | cons t rest ih =>
    by_cases ht : t.name = UNION
    · simp [unionFlatten, ht, ih, or_assoc]
    · simp [unionFlatten, ht, ih]

/-- **C5, counterexample.**  `union_of` flattens `Union` arguments one level
only, so an argument that is itself a `Union` with a nested `Union` variant
survives: the returned `Union` has an argument that is a `Union`, refuting the
claim's "no argument of a returned Union value is itself a Union" for
arbitrary argument lists. -/
theorem union_of_nested_union_counterexample :
    union_of [Ty.mk UNION [Ty.mk UNION [INT, BOOL]], STRING] =
        Ty.mk UNION [Ty.mk UNION [INT, BOOL], STRING] ∧
      Ty.mk UNION [INT, BOOL] ∈
        (union_of [Ty.mk UNION [Ty.mk UNION [INT, BOOL]], STRING]).args ∧
      is_union (Ty.mk UNION [INT, BOOL]) = true := by
  refine ⟨by decide, ?_, by decide⟩
  have h : union_of [Ty.mk UNION [Ty.mk UNION [INT, BOOL]], STRING] =
      Ty.mk UNION [Ty.mk UNION [INT, BOOL], STRING] := by decide
  rw [h]
  decide

/-- **C5, amended.**  `union_of` returns a normalized type — the variant list is
flattened one level, deduplicated by first occurrence, `Any` collapses the
result to `Any`, an empty flattened list yields `Void`, and a single remaining
variant is returned unwrapped — and, *provided no `Union` argument itself
carries a nested `Union` argument* (which is the case for every union the
toolchain builds through `union_of`), no argument of a returned `Union` is a
`Union`. -/
theorem union_of_normalizes (ts : List Ty) :
    (unionDedup (unionFlatten ts)).Nodup ∧
    (∀ x, x ∈ unionDedup (unionFlatten ts) ↔ x ∈ unionFlatten ts) ∧
    unionDedup (unionFlatten ts) = dedupFirst (unionFlatten ts) ∧
    (ANY ∈ unionFlatten ts → union_of ts = ANY) ∧
    (unionFlatten ts = [] → union_of ts = VOID) ∧
    (∀ t, unionDedup (unionFlatten ts) = [t] → union_of ts = t) ∧
    ((∀ t ∈ ts, t.name = UNION → ∀ a ∈ t.args, a.name ≠ UNION) →
      (union_of ts).name = UNION → ∀ u ∈ (union_of ts).args, u.name ≠ UNION) := by
  have hdedup := unionDedup_eq_dedupFirst (unionFlatten ts)
  have hmem : ∀ x, x ∈ unionDedup (unionFlatten ts) ↔ x ∈ unionFlatten ts := by
    intro x; rw [hdedup]; exact mem_dedupFirst x _
  have hnodup : (unionDedup (unionFlatten ts)).Nodup := by
    rw [hdedup]; exact dedupFirst_nodup _
  refine ⟨hnodup, hmem, hdedup, ?_, ?_, ?_, ?_⟩
  · intro hany
    unfold union_of
    simp only [if_pos ((hmem ANY).mpr hany)]
  · intro hflat
    unfold union_of
    simp only [hflat]
    have h0 : unionDedup ([] : List Ty) = [] := by decide
    simp [h0]
  · intro t ht
    unfold union_of
    simp only [ht]
    have hne : ANY ∈ ([t] : List Ty) → ANY ∈ unionDedup (unionFlatten ts) := by
      intro h; rw [ht]; exact h
    by_cases hany : ANY ∈ ([t] : List Ty)
    · simp at hany
      simp [← hany]
    · simp at hany
      simp [Ne.symm hany, List.head]
  · intro honelevel hres u hu
    intro huname
    -- every element of the flattened list is union-free
    have hflat : ∀ v ∈ unionFlatten ts, v.name ≠ UNION := by
      intro v hv
      rcases (mem_unionFlatten v ts).mp hv with ⟨t, htmem, hcase⟩
      rcases hcase with ⟨hun, hvarg⟩ | ⟨hnun, rfl⟩
      · exact honelevel t htmem hun v hvarg
      · exact hnun
    -- the result's argument list is a subset of the flattened list
    unfold union_of at hu hres
    by_cases hany : ANY ∈ unionDedup (unionFlatten ts)
    · simp only [if_pos hany] at hres
      exact absurd hres (by decide)
    · simp only [if_neg hany] at hu hres
      by_cases hempty : unionDedup (unionFlatten ts) = []
      · simp only [if_pos hempty] at hres
        exact absurd hres (by decide)
      · simp only [if_neg hempty] at hu hres
        by_cases hone : (unionDedup (unionFlatten ts)).length = 1
        · simp only [dif_pos hone] at hu hres
          -- the single remaining variant is itself an element of the flattened list
          have hhead : (unionDedup (unionFlatten ts)).head (fun hn => by simp [hn] at hone) ∈
              unionDedup (unionFlatten ts) := List.head_mem _
          have := hflat _ ((hmem _).mp hhead)
          -- its name is UNION by hres, contradiction
          exact absurd hres this
        · simp only [dif_neg hone] at hu hres
          simp only [Ty.args] at hu
          exact (hflat u ((hmem u).mp hu)) huname

/-- Witness for `union_of_normalizes`: the one-level hypothesis is satisfiable
and discharged at a concrete argument list. -/
theorem union_of_normalizes_witness :
    (∀ t ∈ [INT, Ty.mk UNION [BOOL, INT]], t.name = UNION → ∀ a ∈ t.args, a.name ≠ UNION) ∧
    ((union_of [INT, Ty.mk UNION [BOOL, INT]]).name = UNION →
      ∀ u ∈ (union_of [INT, Ty.mk UNION [BOOL, INT]]).args, u.name ≠ UNION) :=
  ⟨by decide, fun hres =>
    (union_of_normalizes [INT, Ty.mk UNION [BOOL, INT]]).2.2.2.2.2.2 (by decide) hres⟩

/-! ## AST (src/build/lib/yasny/ast.py, plus `is_async`/`AwaitExpr` used by
src/yasny/parser.py and src/yasny/checker.py)

Source positions (`line`, `col`) feed only error messages and are omitted.
Literal nodes carry `value` (a Python constant) and `kind` exactly as in the
source.  IEEE-double literal values are represented by their canonical repr
text (floats never influence the claims below beyond identity).
-/

inductive PyConst where
  | pcNull
  | pcBool (b : Bool)
  | pcInt (n : Int)
  | pcFloat (reprText : String)
  | pcStr (s : String)
deriving DecidableEq, Repr

inductive TypeNode where
  | prim (name : String)
  | listT (element : TypeNode)
  | dictT (key value : TypeNode)
  | unionT (variants : List TypeNode)

structure Param where
  name : String
  typeNode : TypeNode

structure ImportItem where
  name : String
  aliasName : Option String

inductive Expr where
  | ident (name : String)
  | lit (value : PyConst) (kind : String)
  | listLit (elements : List Expr)
  | dictLit (entries : List (Expr × Expr))
  | indexE (target index : Expr)
  | memberE (target : Expr) (member : String)
  | unaryOp (op : String) (operand : Expr)
  | binOp (left : Expr) (op : String) (right : Expr)
  | call (callee : Expr) (args : List Expr)
  | awaitE (operand : Expr)

inductive Stmt where
  | varDecl (name : String) (annot : Option TypeNode) (value : Expr) (exported : Bool)
  | assign (name : String) (value : Expr)
  | indexAssign (target index value : Expr)
  | funcDecl (name : String) (params : List Param) (returnType : TypeNode)
      (body : List Stmt) (exported : Bool) (isAsync : Bool)
  | ifS (condition : Expr) (thenBody : List Stmt) (elseBody : Option (List Stmt))
  | whileS (condition : Expr) (body : List Stmt)
  | forS (varName : String) (iterable : Expr) (body : List Stmt)
  | returnS (value : Expr)
  | exprS (expr : Expr)
  | importAll (modulePath : String) (aliasName : Option String)
  | importFrom (modulePath : String) (items : List ImportItem)
  | breakS
  | continueS

/-! ## Definite-return analysis of the type checker (src/yasny/checker.py,
`_check_function`, `_check_block`, `_check_stmt`) — claim C2

`_check_stmt` returns the definite-return flag of a statement and raises on
control-flow violations.  The skeleton below mirrors exactly the returned flag
and the control-flow error paths of `_check_stmt` (`None` = raise): import
statements inside a checked program, nested function declarations, `break`/
`continue` with `loop_depth <= 0` and `return` outside a function context are
fatal.  The *type*-checking parts of `_check_stmt` (expression typing,
assignability) are elided: they can only reject additional programs and never
change the returned flag, so every program accepted by the full checker is
accepted by this skeleton with the same flags.  `inFunction` models
`current_return_type is not None`.
-/

mutual

def checkStmtR : Stmt → Nat → Bool → Option Bool
  | .importAll _ _, _, _ => none
  | .importFrom _ _, _, _ => none
  | .varDecl _ _ _ _, _, _ => some false
  | .assign _ _, _, _ => some false
  | .indexAssign _ _ _, _, _ => some false
  | .ifS _ thenBody elseBody, d, inF => do
    let thenReturns ← checkBlockR thenBody d inF
    let elseReturns ←
      match elseBody with
      | none => some false
      | some els => checkBlockR els d inF
    some (thenReturns && elseReturns && elseBody.isSome)
  | .whileS _ body, d, inF => do
    let _ ← checkBlockR body (d + 1) inF
    some false
  | .forS _ _ body, d, inF => do
    let _ ← checkBlockR body (d + 1) inF
    some false
  | .breakS, d, _ => if d = 0 then none else some false
  | .continueS, d, _ => if d = 0 then none else some false
  | .returnS _, _, inF => if inF then some true else none
  | .exprS _, _, _ => some false
  | .funcDecl _ _ _ _ _ _, _, _ => none

def checkBlockR : List Stmt → Nat → Bool → Option Bool
  | [], _, _ => some false
  | s :: rest, d, inF => do
    let returns ← checkStmtR s d inF
    if returns then some true else checkBlockR rest d inF

end

/-- `_check_function`'s definite-return gate: the body is checked at loop
depth 0 inside a function context; a non-`Void` declared return type whose body
is not guaranteed to return is fatal. -/
def checkFunctionReturns (body : List Stmt) (returnTypeIsVoid : Bool) : Option Unit := do
  let mustReturn ← checkBlockR body 0 true
  if !returnTypeIsVoid && !mustReturn then none else some ()

/-- Outcome of one static control path through a statement list: it runs off
the end, returns, breaks, or continues. -/
inductive BOut where
  | ret
  | fall
  | brk
  | cont
deriving DecidableEq, Repr

/-- `BPath body o` — some static control path through `body` has outcome `o`.
At an `if` the path picks the then-arm, the else-arm when present, or skips
only when there is no else; a `while`/`for` may be skipped or iterated any
finite number of times, a `break` in the loop body exits the loop, a
`continue` re-enters it; a `return` ends the path immediately. -/
inductive BPath : List Stmt → BOut → Prop where
  | nil : BPath [] .fall
  | varDecl : BPath rest o → BPath (Stmt.varDecl n a v ex :: rest) o
  | assign : BPath rest o → BPath (Stmt.assign n v :: rest) o
  | indexAssign : BPath rest o → BPath (Stmt.indexAssign t i v :: rest) o
  | exprS : BPath rest o → BPath (Stmt.exprS e :: rest) o
  | funcDecl : BPath rest o → BPath (Stmt.funcDecl n ps rt b ex ia :: rest) o
  | importAll : BPath rest o → BPath (Stmt.importAll m al :: rest) o
  | importFrom : BPath rest o → BPath (Stmt.importFrom m its :: rest) o
  | retP : BPath (Stmt.returnS v :: rest) .ret
  | brkP : BPath (Stmt.breakS :: rest) .brk
  | contP : BPath (Stmt.continueS :: rest) .cont
  | ifThenTerm : BPath thenBody o → o ≠ .fall → BPath (Stmt.ifS c thenBody e :: rest) o
  | ifThenFall : BPath thenBody .fall → BPath rest o → BPath (Stmt.ifS c thenBody e :: rest) o
  | ifElseTerm : BPath els o → o ≠ .fall → BPath (Stmt.ifS c thenBody (some els) :: rest) o
  | ifElseFall : BPath els .fall → BPath rest o → BPath (Stmt.ifS c thenBody (some els) :: rest) o
  | ifSkip : BPath rest o → BPath (Stmt.ifS c thenBody none :: rest) o
  | whileSkip : BPath rest o → BPath (Stmt.whileS c b :: rest) o
  | whileRet : BPath b .ret → BPath (Stmt.whileS c b :: rest) .ret
  | whileBrk : BPath b .brk → BPath rest o → BPath (Stmt.whileS c b :: rest) o
  | whileFall : BPath b .fall → BPath (Stmt.whileS c b :: rest) o → BPath (Stmt.whileS c b :: rest) o
  | whileCont : BPath b .cont → BPath (Stmt.whileS c b :: rest) o → BPath (Stmt.whileS c b :: rest) o
  | forSkip : BPath rest o → BPath (Stmt.forS x it b :: rest) o
  | forRet : BPath b .ret → BPath (Stmt.forS x it b :: rest) .ret
  | forBrk : BPath b .brk → BPath rest o → BPath (Stmt.forS x it b :: rest) o
  | forFall : BPath b .fall → BPath (Stmt.forS x it b :: rest) o → BPath (Stmt.forS x it b :: rest) o
  | forCont : BPath b .cont → BPath (Stmt.forS x it b :: rest) o → BPath (Stmt.forS x it b :: rest) o

theorem checkBlockR_cons {s : Stmt} {rest : List Stmt} {d : Nat} {inF : Bool} {r : Bool}
    (h : checkBlockR (s :: rest) d inF = some r) :
    ∃ r0, checkStmtR s d inF = some r0 ∧
      ((r0 = true ∧ r = true) ∨ (r0 = false ∧ checkBlockR rest d inF = some r)) := by
  simp only [checkBlockR] at h
  cases hcs : checkStmtR s d inF with
  | none => rw [hcs] at h; simp at h
  | some r0 =>
    rw [hcs] at h
    cases r0 with
    | false => exact ⟨false, rfl, Or.inr ⟨rfl, by simpa using h⟩⟩
    | true => exact ⟨true, rfl, Or.inl ⟨rfl, by simpa using h⟩⟩

theorem checkStmtR_if {c : Expr} {t : List Stmt} {e : Option (List Stmt)} {d : Nat}
    {inF : Bool} {r : Bool} (h : checkStmtR (.ifS c t e) d inF = some r) :
    ∃ tb eb, checkBlockR t d inF = some tb ∧
      (match e with
        | none => eb = false
        | some els => checkBlockR els d inF = some eb) ∧
      r = (tb && eb && e.isSome) := by
  cases e with
  | none =>
    cases hct : checkBlockR t d inF with
    | none => simp [checkStmtR, hct] at h
    | some tb =>
      simp only [checkStmtR, hct] at h
      simp at h
      exact ⟨tb, false, rfl, rfl, by simp [← h]⟩
  | some els =>
    cases hct : checkBlockR t d inF with
    | none => simp [checkStmtR, hct] at h
    | some tb =>
      cases hce : checkBlockR els d inF with
      | none => simp [checkStmtR, hct, hce] at h
      | some eb =>
        simp only [checkStmtR, hct, hce] at h
        simp at h
        exact ⟨tb, eb, rfl, hce, by simp [← h]⟩

theorem checkStmtR_while {c : Expr} {b : List Stmt} {d : Nat} {inF : Bool} {r : Bool}
    (h : checkStmtR (.whileS c b) d inF = some r) :
    (∃ mb, checkBlockR b (d + 1) inF = some mb) ∧ r = false := by
  cases hcb : checkBlockR b (d + 1) inF with
  | none => simp [checkStmtR, hcb] at h
  | some mb =>
    simp only [checkStmtR, hcb] at h
    simp at h
    exact ⟨⟨mb, rfl⟩, h⟩

theorem checkStmtR_for {x : String} {it : Expr} {b : List Stmt} {d : Nat} {inF : Bool}
    {r : Bool} (h : checkStmtR (.forS x it b) d inF = some r) :
    (∃ mb, checkBlockR b (d + 1) inF = some mb) ∧ r = false := by
  cases hcb : checkBlockR b (d + 1) inF with
  | none => simp [checkStmtR, hcb] at h
  | some mb =>
    simp only [checkStmtR, hcb] at h
    simp at h
    exact ⟨⟨mb, rfl⟩, h⟩

theorem BOut.ne_fall {o : BOut} (h : o ≠ .fall) :
    o = .ret ∨ o = .brk ∨ o = .cont := by
  cases o <;> simp_all

/-- If the checker judged a block definitely-returning, no static control path
through it falls off the end. -/
theorem bpath_no_fall {b : List Stmt} {o : BOut} (hp : BPath b o) :
    ∀ (d : Nat), checkBlockR b d true = some true → o ≠ .fall := by
  induction hp with
  | nil =>
    intro d h
    simp [checkBlockR] at h
  | varDecl _ ih | assign _ ih | indexAssign _ ih | exprS _ ih =>
    intro d h
    obtain ⟨r0, hcs, hrest⟩ := checkBlockR_cons h
    simp only [checkStmtR] at hcs
    rcases hrest with ⟨hr0, _⟩ | ⟨_, hrec⟩
    · rw [hr0] at hcs; simp at hcs
    · exact ih d hrec
  | funcDecl _ _ =>
    intro d h
    obtain ⟨r0, hcs, _⟩ := checkBlockR_cons h
    simp [checkStmtR] at hcs
  | importAll _ _ =>
    intro d h
    obtain ⟨r0, hcs, _⟩ := checkBlockR_cons h
    simp [checkStmtR] at hcs
  | importFrom _ _ =>
    intro d h
    obtain ⟨r0, hcs, _⟩ := checkBlockR_cons h
    simp [checkStmtR] at hcs
  | retP => intro d h; simp
  | brkP => intro d h; simp
  | contP => intro d h; simp
  | ifThenTerm hpt hne iht => intro d h; exact hne
  | ifThenFall hpt hprest iht ihrest =>
    intro d h
    obtain ⟨r0, hcs, hrest⟩ := checkBlockR_cons h
    obtain ⟨tb, eb, hct, hce, hr0⟩ := checkStmtR_if hcs
    rcases hrest with ⟨hr0t, _⟩ | ⟨_, hrec⟩
    · rw [hr0t] at hr0
      have htb : tb = true := by
        cases tb
        · simp at hr0
        · rfl
      exact absurd rfl (iht d (htb ▸ hct))
    · exact ihrest d hrec
  | ifElseTerm hpe hne ihe => intro d h; exact hne
  | ifElseFall hpe hprest ihe ihrest =>
    intro d h
    obtain ⟨r0, hcs, hrest⟩ := checkBlockR_cons h
    obtain ⟨tb, eb, hct, hce, hr0⟩ := checkStmtR_if hcs
    rcases hrest with ⟨hr0t, _⟩ | ⟨_, hrec⟩
    · rw [hr0t] at hr0
      have heb : eb = true := by
        cases eb
        · simp at hr0
        · rfl
      exact absurd rfl (ihe d (heb ▸ hce))
    · exact ihrest d hrec
  | ifSkip hprest ihrest =>
    intro d h
    obtain ⟨r0, hcs, hrest⟩ := checkBlockR_cons h
    obtain ⟨tb, eb, hct, hce, hr0⟩ := checkStmtR_if hcs
    rcases hrest with ⟨hr0t, _⟩ | ⟨_, hrec⟩
    · rw [hr0t] at hr0; simp at hr0
    · exact ihrest d hrec
  | whileSkip hprest ihrest =>
    intro d h
    obtain ⟨r0, hcs, hrest⟩ := checkBlockR_cons h
    obtain ⟨_, hr0⟩ := checkStmtR_while hcs
    rcases hrest with ⟨hr0t, _⟩ | ⟨_, hrec⟩
    · rw [hr0t] at hr0; simp at hr0
    · exact ihrest d hrec
  | whileRet hpb => intro d h; simp
  | whileBrk hpb hprest ihb ihrest =>
    intro d h
    obtain ⟨r0, hcs, hrest⟩ := checkBlockR_cons h
    obtain ⟨_, hr0⟩ := checkStmtR_while hcs
    rcases hrest with ⟨hr0t, _⟩ | ⟨_, hrec⟩
    · rw [hr0t] at hr0; simp at hr0
    · exact ihrest d hrec
  | whileFall hpb hprec ihb ihrec => intro d h; exact ihrec d h
  | whileCont hpb hprec ihb ihrec => intro d h; exact ihrec d h
  | forSkip hprest ihrest =>
    intro d h
    obtain ⟨r0, hcs, hrest⟩ := checkBlockR_cons h
    obtain ⟨_, hr0⟩ := checkStmtR_for hcs
    rcases hrest with ⟨hr0t, _⟩ | ⟨_, hrec⟩
    · rw [hr0t] at hr0; simp at hr0
    · exact ihrest d hrec
  | forRet hpb => intro d h; simp
  | forBrk hpb hprest ihb ihrest =>
    intro d h
    obtain ⟨r0, hcs, hrest⟩ := checkBlockR_cons h
    obtain ⟨_, hr0⟩ := checkStmtR_for hcs
    rcases hrest with ⟨hr0t, _⟩ | ⟨_, hrec⟩
    · rw [hr0t] at hr0; simp at hr0
    · exact ihrest d hrec
  | forFall hpb hprec ihb ihrec => intro d h; exact ihrec d h
  | forCont hpb hprec ihb ihrec => intro d h; exact ihrec d h

/-- A static control path can only break or continue at positive loop depth:
the checker rejects `break`/`continue` outside loops, and loop bodies are
checked at depth `d + 1`. -/
theorem bpath_depth {b : List Stmt} {o : BOut} (hp : BPath b o) :
    ∀ (d : Nat) (r : Bool), checkBlockR b d true = some r →
      (o = .brk ∨ o = .cont) → 0 < d := by
  induction hp with
  | nil => intro d r h ho; simp at ho
  | varDecl _ ih | assign _ ih | indexAssign _ ih | exprS _ ih =>
    intro d r h ho
    obtain ⟨r0, hcs, hrest⟩ := checkBlockR_cons h
    simp only [checkStmtR] at hcs
    rcases hrest with ⟨hr0, _⟩ | ⟨_, hrec⟩
    · rw [hr0] at hcs; simp at hcs
    · exact ih d r hrec ho
  | funcDecl _ _ =>
    intro d r h ho
    obtain ⟨r0, hcs, _⟩ := checkBlockR_cons h
    simp [checkStmtR] at hcs
  | importAll _ _ =>
    intro d r h ho
    obtain ⟨r0, hcs, _⟩ := checkBlockR_cons h
    simp [checkStmtR] at hcs
  | importFrom _ _ =>
    intro d r h ho
    obtain ⟨r0, hcs, _⟩ := checkBlockR_cons h
    simp [checkStmtR] at hcs
  | retP => intro d r h ho; simp at ho
  | brkP =>
    intro d r h ho
    obtain ⟨r0, hcs, _⟩ := checkBlockR_cons h
    simp only [checkStmtR] at hcs
    by_cases hd : d = 0
    · rw [if_pos hd] at hcs; simp at hcs
    · omega
  | contP =>
    intro d r h ho
    obtain ⟨r0, hcs, _⟩ := checkBlockR_cons h
    simp only [checkStmtR] at hcs
    by_cases hd : d = 0
    · rw [if_pos hd] at hcs; simp at hcs
    · omega
  | ifThenTerm hpt hne iht =>
    intro d r h ho
    obtain ⟨r0, hcs, _⟩ := checkBlockR_cons h
    obtain ⟨tb, eb, hct, hce, hr0⟩ := checkStmtR_if hcs
    exact iht d tb hct ho
  | ifThenFall hpt hprest iht ihrest =>
    intro d r h ho
    obtain ⟨r0, hcs, hrest⟩ := checkBlockR_cons h
    obtain ⟨tb, eb, hct, hce, hr0⟩ := checkStmtR_if hcs
    rcases hrest with ⟨hr0t, _⟩ | ⟨_, hrec⟩
    · rw [hr0t] at hr0
      have htb : tb = true := by
        cases tb
        · simp at hr0
        · rfl
      exact absurd rfl (bpath_no_fall hpt d (htb ▸ hct))
    · exact ihrest d r hrec ho
  | ifElseTerm hpe hne ihe =>
    intro d r h ho
    obtain ⟨r0, hcs, _⟩ := checkBlockR_cons h
    obtain ⟨tb, eb, hct, hce, hr0⟩ := checkStmtR_if hcs
    exact ihe d eb hce ho
  | ifElseFall hpe hprest ihe ihrest =>
    intro d r h ho
    obtain ⟨r0, hcs, hrest⟩ := checkBlockR_cons h
    obtain ⟨tb, eb, hct, hce, hr0⟩ := checkStmtR_if hcs
    rcases hrest with ⟨hr0t, _⟩ | ⟨_, hrec⟩
    · rw [hr0t] at hr0
      have heb : eb = true := by
        cases eb
        · simp at hr0
        · rfl
      exact absurd rfl (bpath_no_fall hpe d (heb ▸ hce))
    · exact ihrest d r hrec ho
  | ifSkip hprest ihrest =>
    intro d r h ho
    obtain ⟨r0, hcs, hrest⟩ := checkBlockR_cons h
    obtain ⟨tb, eb, hct, hce, hr0⟩ := checkStmtR_if hcs
    rcases hrest with ⟨hr0t, _⟩ | ⟨_, hrec⟩
    · rw [hr0t] at hr0; simp at hr0
    · exact ihrest d r hrec ho
  | whileSkip hprest ihrest =>
    intro d r h ho
    obtain ⟨r0, hcs, hrest⟩ := checkBlockR_cons h
    obtain ⟨_, hr0⟩ := checkStmtR_while hcs
    rcases hrest with ⟨hr0t, _⟩ | ⟨_, hrec⟩
    · rw [hr0t] at hr0; simp at hr0
    · exact ihrest d r hrec ho
  | whileRet hpb ihb => intro d r h ho; simp at ho
  | whileBrk hpb hprest ihb ihrest =>
    intro d r h ho
    obtain ⟨r0, hcs, hrest⟩ := checkBlockR_cons h
    obtain ⟨_, hr0⟩ := checkStmtR_while hcs
    rcases hrest with ⟨hr0t, _⟩ | ⟨_, hrec⟩
    · rw [hr0t] at hr0; simp at hr0
    · exact ihrest d r hrec ho
  | whileFall hpb hprec ihb ihrec => intro d r h ho; exact ihrec d r h ho
  | whileCont hpb hprec ihb ihrec => intro d r h ho; exact ihrec d r h ho
  | forSkip hprest ihrest =>
    intro d r h ho
    obtain ⟨r0, hcs, hrest⟩ := checkBlockR_cons h
    obtain ⟨_, hr0⟩ := checkStmtR_for hcs
    rcases hrest with ⟨hr0t, _⟩ | ⟨_, hrec⟩
    · rw [hr0t] at hr0; simp at hr0
    · exact ihrest d r hrec ho
  | forRet hpb ihb => intro d r h ho; simp at ho
  | forBrk hpb hprest ihb ihrest =>
    intro d r h ho
    obtain ⟨r0, hcs, hrest⟩ := checkBlockR_cons h
    obtain ⟨_, hr0⟩ := checkStmtR_for hcs
    rcases hrest with ⟨hr0t, _⟩ | ⟨_, hrec⟩
    · rw [hr0t] at hr0; simp at hr0
    · exact ihrest d r hrec ho
  | forFall hpb hprec ihb ihrec => intro d r h ho; exact ihrec d r h ho
  | forCont hpb hprec ihb ihrec => intro d r h ho; exact ihrec d r h ho

/-- The block flag computed by `_check_block` is exactly "the last statement
the checker meaningfully examines definitely returns": the block is judged
definitely-returning iff it decomposes as a prefix of statements judged
non-returning followed by one statement judged returning (later statements are
never examined). -/
theorem checkBlockR_true_iff {body : List Stmt} {d : Nat} {inF : Bool} {r : Bool}
    (h : checkBlockR body d inF = some r) :
    r = true ↔ ∃ pre s post, body = pre ++ s :: post ∧
      (∀ u ∈ pre, checkStmtR u d inF = some false) ∧
      checkStmtR s d inF = some true := by
  induction body generalizing r with
  | nil =>
    simp only [checkBlockR] at h
    constructor
    · intro ht; rw [ht] at h; simp at h
    · rintro ⟨pre, s, post, habs, -, -⟩
      exact absurd habs (by simp)
  | cons s rest ih =>
    obtain ⟨r0, hcs, hrest⟩ := checkBlockR_cons h
    rcases hrest with ⟨hr0, hr⟩ | ⟨hr0, hrec⟩
    · subst hr0
      constructor
      · intro _
        exact ⟨[], s, rest, rfl, by simp, hcs⟩
      · intro _; exact hr
    · subst hr0
      rw [ih hrec]
      constructor
      · rintro ⟨pre, s', post, hsplit, hprefix, hs'⟩
        exact ⟨s :: pre, s', post, by simp [hsplit], by
          intro u hu
          rcases List.mem_cons.mp hu with rfl | hu
          · exact hcs
          · exact hprefix u hu, hs'⟩
      · rintro ⟨pre, s', post, hsplit, hprefix, hs'⟩
        cases pre with
        | nil =>
          simp only [List.nil_append, List.cons.injEq] at hsplit
          rw [hsplit.1] at hcs
          rw [hcs] at hs'
          simp at hs'
        | cons p ps =>
          simp only [List.cons_append, List.cons.injEq] at hsplit
          exact ⟨ps, s', post, hsplit.2, fun u hu => hprefix u (by simp [hu]),
            hs'⟩

/-- **C2.**  Definite-return analysis of the checker.  (a) The decision rule:
`_check_block` judges a block definitely-returning precisely when the last
meaningfully examined statement definitely returns by the per-statement rule —
`return` returns, an `if` with an `else` returns when both arms do
(`checkStmtR`), and `while`/`for` never return.  (b) Soundness: if a function
body whose declared return type is not `Void` passes `_check_function`'s
definite-return gate, then every static control path through the body ends in
a `return`. -/
theorem checker_definite_return (body : List Stmt) :
    (∀ (d : Nat) (inF : Bool) (r : Bool), checkBlockR body d inF = some r →
      (r = true ↔ ∃ pre s post, body = pre ++ s :: post ∧
        (∀ u ∈ pre, checkStmtR u d inF = some false) ∧
        checkStmtR s d inF = some true)) ∧
    (checkFunctionReturns body false = some () →
      ∀ o, BPath body o → o = BOut.ret) := by
  constructor
  · intro d inF r h
    exact checkBlockR_true_iff h
  · intro hgate o hpath
    have hblock : checkBlockR body 0 true = some true := by
      simp only [checkFunctionReturns] at hgate
      cases hcb : checkBlockR body 0 true with
      | none => rw [hcb] at hgate; simp at hgate
      | some mr =>
        rw [hcb] at hgate
        cases mr with
        | false => simp at hgate
        | true => rfl
    have hnf := bpath_no_fall hpath 0 hblock
    rcases BOut.ne_fall hnf with h1 | h1 | h1
    · exact h1
    · exact absurd (bpath_depth hpath 0 true hblock (Or.inl h1)) (by simp)
    · exact absurd (bpath_depth hpath 0 true hblock (Or.inr h1)) (by simp)

/-- Witness for `checker_definite_return`: a concrete accepted non-`Void` body
(`if c: return 1 else: return 2`), with both hypotheses discharged. -/
theorem checker_definite_return_witness :
    (checkBlockR [Stmt.ifS (.ident "c") [.returnS (.lit (.pcInt 1) "int")]
        (some [.returnS (.lit (.pcInt 2) "int")])] 0 true = some true) ∧
    (checkFunctionReturns [Stmt.ifS (.ident "c") [.returnS (.lit (.pcInt 1) "int")]
        (some [.returnS (.lit (.pcInt 2) "int")])] false = some ()) ∧
    (∀ o, BPath [Stmt.ifS (.ident "c") [.returnS (.lit (.pcInt 1) "int")]
        (some [.returnS (.lit (.pcInt 2) "int")])] o → o = BOut.ret) :=
  ⟨rfl, rfl,
    (checker_definite_return [Stmt.ifS (.ident "c") [.returnS (.lit (.pcInt 1) "int")]
        (some [.returnS (.lit (.pcInt 2) "int")])]).2 rfl⟩

/-! ## Virtual machine runtime values (src/yasny/vm.py)

Runtime values are the closed set from the data model: `None`, `bool`, the
arbitrary-precision `int`, the IEEE double (every finite double is a rational,
so doubles are carried as `ℚ`; no double arithmetic beyond what a claim needs
is modelled), `str`, `list`, `dict`, task handle.  CPython's `bool` is a
subclass of `int`, which `pyIsInstInt` reflects. -/

inductive PyVal where
  | vNone
  | vBool (b : Bool)
  | vInt (n : Int)
  | vFloat (q : ℚ)
  | vStr (s : String)
  | vList (items : List PyVal)
  | vDict (entries : List (PyVal × PyVal))
  | vTask (taskId : Nat)

mutual

def pyValBeq : PyVal → PyVal → Bool
  | .vNone, .vNone => true
  | .vBool a, .vBool b => a == b
  | .vInt a, .vInt b => a == b
  | .vFloat a, .vFloat b => a == b
  | .vStr a, .vStr b => a == b
  | .vList a, .vList b => pyValListBeq a b
  | .vDict a, .vDict b => pyValEntriesBeq a b
  | .vTask a, .vTask b => a == b
  | _, _ => false

def pyValListBeq : List PyVal → List PyVal → Bool
  | [], [] => true
  | x :: xs, y :: ys => pyValBeq x y && pyValListBeq xs ys
  | _, _ => false

def pyValEntriesBeq : List (PyVal × PyVal) → List (PyVal × PyVal) → Bool
  | [], [] => true
  | (k1, v1) :: xs, (k2, v2) :: ys =>
    pyValBeq k1 k2 && pyValBeq v1 v2 && pyValEntriesBeq xs ys
  | _, _ => false

end

mutual

theorem pyValBeq_iff : ∀ (a b : PyVal), pyValBeq a b = true ↔ a = b
  | .vNone, b => by cases b <;> simp [pyValBeq]
  | .vBool x, b => by cases b <;> simp [pyValBeq]
  | .vInt x, b => by cases b <;> simp [pyValBeq]
  | .vFloat x, b => by cases b <;> simp [pyValBeq]
  | .vStr x, b => by cases b <;> simp [pyValBeq]
  | .vTask x, b => by cases b <;> simp [pyValBeq]
  | .vList xs, b => by
    cases b <;> simp only [pyValBeq, PyVal.vList.injEq] <;>
      simp [pyValListBeq_iff xs]
  | .vDict xs, b => by
    cases b <;> simp only [pyValBeq, PyVal.vDict.injEq] <;>
      simp [pyValEntriesBeq_iff xs]

theorem pyValListBeq_iff : ∀ (xs ys : List PyVal), pyValListBeq xs ys = true ↔ xs = ys
  | [], [] => by simp [pyValListBeq]
  | [], _ :: _ => by simp [pyValListBeq]
  | _ :: _, [] => by simp [pyValListBeq]
  | x :: xs, y :: ys => by
    simp only [pyValListBeq, Bool.and_eq_true, pyValBeq_iff x y, pyValListBeq_iff xs ys,
      List.cons.injEq]

theorem pyValEntriesBeq_iff :
    ∀ (xs ys : List (PyVal × PyVal)), pyValEntriesBeq xs ys = true ↔ xs = ys
  | [], [] => by simp [pyValEntriesBeq]
  | [], _ :: _ => by simp [pyValEntriesBeq]
  | _ :: _, [] => by simp [pyValEntriesBeq]
  | (k1, v1) :: xs, (k2, v2) :: ys => by
    simp only [pyValEntriesBeq, Bool.and_eq_true, pyValBeq_iff k1 k2, pyValBeq_iff v1 v2,
      pyValEntriesBeq_iff xs ys, List.cons.injEq, Prod.mk.injEq, and_assoc]

end

instance : DecidableEq PyVal := fun a b => decidable_of_iff _ (pyValBeq_iff a b)

/-- CPython `isinstance(v, int)`: `bool` is a subclass of `int`. -/
def pyIsInstInt : PyVal → Bool
  | .vInt _ => true
  | .vBool _ => true
  | _ => false

def pyIsInstBool : PyVal → Bool
  | .vBool _ => true
  | _ => false

/-- Whitespace for `str.strip()` (the ASCII whitespace class; the claims never
exercise the non-ASCII whitespace Python additionally strips). -/
def pyIsSpace (c : Char) : Bool :=
  c = ' ' || c = '\t' || c = '\n' || c = '\r' || c = '\x0b' || c = '\x0c'

/-- Python `str.strip()`. -/
def pyStrip (s : String) : String :=
  ⟨((s.data.dropWhile pyIsSpace).reverse.dropWhile pyIsSpace).reverse⟩

def digitsVal (l : List Char) : Nat :=
  l.foldl (fun acc c => acc * 10 + (c.toNat - '0'.toNat)) 0

/-- Python `int(s)` on an already-stripped string: an optional sign followed by
at least one ASCII digit (Python's digit-grouping underscores and non-ASCII
digits are not exercised by any claim), `ValueError` otherwise. -/
def pyIntOfString (s : String) : Option Int :=
  match s.data with
  | [] => none
  | '+' :: rest =>
    if rest ≠ [] ∧ rest.all Char.isDigit then some (digitsVal rest) else none
  | '-' :: rest =>
    if rest ≠ [] ∧ rest.all Char.isDigit then some (-(digitsVal rest : Int)) else none
  | l => if l.all Char.isDigit then some (digitsVal l) else none

/-- Truncation of a rational toward zero (what Python `int(float)` does to a
finite double). -/
def ratTrunc (q : ℚ) : Int := q.num.tdiv q.den

/-- `VirtualMachine._builtin_to_int` (`число`).  The `isinstance(val, int)`
test precedes the `isinstance(val, bool)` test, and CPython bools are ints, so
a boolean argument is returned unchanged and the bool branch is dead code.
`int()` of a float truncates; of any other remaining shape it raises
`TypeError` (an uncaught crash, modelled as an error). -/
def builtinToInt (args : List PyVal) : Except String PyVal :=
  match args with
  | [val] =>
    if pyIsInstInt val then .ok val
    else if pyIsInstBool val then .ok (if val = .vBool true then .vInt 1 else .vInt 0)
    else
      match val with
      | .vStr s =>
        let cleaned := pyStrip s
        if cleaned = "" then .ok (.vInt 0)
        else
          match pyIntOfString cleaned with
          | some n => .ok (.vInt n)
          | none => .error "Невозможно преобразовать в число"
      | .vFloat q => .ok (.vInt (ratTrunc q))
      | _ => .error "TypeError"
  | _ => .error "число(x) принимает ровно 1 аргумент"

/-- **C7.**  `_builtin_to_int` behaviour: strings are stripped before
conversion, a string empty after stripping yields `0`, a non-numeric string is
a fatal error — but a boolean argument is returned *unchanged* (the boolean
itself, not the integer 0/1): since CPython bools are ints, the
`isinstance(val, int)` branch catches `True`/`False` first and the
`isinstance(val, bool)` branch of the source is dead code.  The spec's
"Bools → 0/1" is the evident intent of that dead branch, refuted here at the
concrete inputs `истина`/`ложь`. -/
theorem builtin_to_int_eval :
    builtinToInt [PyVal.vBool true] = .ok (.vBool true) ∧
    builtinToInt [PyVal.vBool false] = .ok (.vBool false) ∧
    PyVal.vBool true ≠ PyVal.vInt 1 ∧
    PyVal.vBool false ≠ PyVal.vInt 0 ∧
    builtinToInt [PyVal.vStr "  42  "] = .ok (.vInt 42) ∧
    builtinToInt [PyVal.vStr "   "] = .ok (.vInt 0) ∧
    builtinToInt [PyVal.vStr "abc"] = .error "Невозможно преобразовать в число" :=
  ⟨rfl, rfl, by decide, by decide, rfl, rfl, rfl⟩

/-! ## Integer division: VM `DIV` and the optimizer's constant fold (claim C4)

vm.py executes `DIV` on two ints as `int(a / b)` and optimizer.py folds
`/` on two int literals as `int(int(lv) / int(rv))` — the same expression.
CPython's true division of two ints produces the *correctly rounded* binary64
double of the exact quotient (round to nearest, ties to even; quotients at or
beyond `2^1024` raise `OverflowError`), and `int()` then truncates that double
toward zero.  The model below reproduces that rounding exactly with integer
arithmetic. -/

/-- Largest `e ≤ fuel` with `d·2^e ≤ n` (call with `d ≤ n`; `fuel = 1100`
exceeds every binary64-relevant exponent, and exponents beyond the fuel land
in the overflow branch regardless). -/
def ilog2Down (n : ℕ) : ℕ → ℕ → ℕ
  | _, 0 => 0
  | d, f + 1 => if n < 2 * d then 0 else ilog2Down n (2 * d) f + 1

/-- Least `k ≤ fuel` with `d ≤ n·2^k` (call with `n < d`). -/
def ilog2Up (d : ℕ) : ℕ → ℕ → ℕ
  | _, 0 => 0
  | n, f + 1 => if d ≤ n then 0 else ilog2Up d (2 * n) f + 1

/-- Round `num/den` (with `den ≠ 0`) to the nearest integer, ties to even. -/
def roundHalfEven (num den : ℕ) : ℕ :=
  let f := num / den
  let r := num % den
  if 2 * r < den then f
  else if den < 2 * r then f + 1
  else if f % 2 = 0 then f else f + 1

/-- Round-half-even of `(n/d)·2^(52 − e)` computed in integer arithmetic. -/
def roundQuotientAtExp (n d : ℕ) (e : Int) : ℕ :=
  roundHalfEven (n * 2 ^ ((52 - e).toNat)) (d * 2 ^ ((e - 52).toNat))

/-- `int(n / d)` for positive Python ints: the exact quotient is rounded to
binary64 (normals use a 53-bit significand at exponent `e`, subnormals are
rounded at the fixed quantum `2^(-1074)`, i.e. at clamped exponent `-1022`;
a rounded value `≥ 2^1024` raises `OverflowError`, modelled as `none`), and
the resulting double is truncated toward zero. -/
def pyTrueDivIntAbs (n d : ℕ) : Option ℕ :=
  if n = 0 then some 0
  else
    let e : Int := if d ≤ n then (ilog2Down n d 1100 : Int) else -(ilog2Up d n 1100 : Int)
    let eClamped := max e (-1022)
    let q := roundQuotientAtExp n d eClamped
    if 52 ≤ eClamped then
      let v := q * 2 ^ (eClamped - 52).toNat
      if 2 ^ 1024 ≤ v then none else some v
    else
      some (q / 2 ^ ((52 - eClamped).toNat))

/-- `int(a / b)` for Python ints (`b = 0` is an uncaught `ZeroDivisionError`,
overflow an uncaught `OverflowError`; both modelled as `none`).  Truncation
toward zero commutes with the sign, so the magnitude is computed on absolute
values. -/
def pyIntTrueDivToInt (a b : Int) : Option Int :=
  if b = 0 then none
  else
    (pyTrueDivIntAbs a.natAbs b.natAbs).map fun r =>
      if (a < 0) ≠ (b < 0) then -(r : Int) else (r : Int)

/-- The `DIV` opcode of `_execute_function` on two integer operands:
`stack.append(int(a / b))` (vm.py). -/
def vmDivInt (a b : Int) : Option Int := pyIntTrueDivToInt a b

/-- The `/` case of `_fold_binary` on two int literals (optimizer.py): folds
only when the right literal is non-zero, producing the literal value
`int(int(lv) / int(rv))`.  `none` = the fold is skipped and the expression is
left for runtime. -/
def foldBinaryDivInt (lv rv : Int) : Option (Option Int) :=
  if rv = 0 then none else some (pyIntTrueDivToInt lv rv)

/-- **C4.**  (a) The folder and the VM agree on `/` for all integer inputs:
whenever the folder folds (non-zero divisor), the folded literal is exactly
the value the VM's `DIV` would push — both compute the identical expression
`int(a / b)`.  (b) But `DIV` does *not* truncate the exact quotient toward
zero: `int(a / b)` goes through a binary64 double, and at
`a = 2^62 + 1, b = 1` the VM pushes `2^62 = 4611686018427387904`, not the
truncated exact quotient `2^62 + 1`.  The spec's exact-truncation reading
(and its big-integer folding semantics) is the evident intent; the float
round-trip is the slip. -/
theorem vm_div_fold_agree_not_exact_trunc :
    (∀ a b : Int, foldBinaryDivInt a b =
      if b = 0 then none else some (vmDivInt a b)) ∧
    vmDivInt 4611686018427387905 1 = some 4611686018427387904 ∧
    (4611686018427387905 : Int).tdiv 1 = 4611686018427387905 ∧
    (4611686018427387904 : Int) ≠ 4611686018427387905 := by
  refine ⟨?_, by decide, by decide, by decide⟩
  intro a b
  by_cases hb : b = 0 <;> simp [foldBinaryDivInt, vmDivInt, hb]

/-! ## Module resolver: the alias rewriter (src/yasny/module_loader.py,
`_AliasRewriter.rewrite_expr`) — claim C6

`_AliasRewriter` carries `name_map` (imported name → mangled name),
`namespace_map` (alias → {member → mangled name}) and a stack of local scopes.
`rewrite_expr` renames free identifiers through `name_map` and turns
`alias.member` into a direct identifier (a missing member is fatal); a member
access whose (rewritten) target is *not* a namespace-alias identifier is
returned as a `MemberExpr` with the rewritten target — no error. -/

def alookup {α : Type} (assoc : List (String × α)) (k : String) : Option α :=
  (assoc.find? (fun p => p.1 == k)).map (fun p => p.2)

structure AliasMaps where
  nameMap : List (String × String)
  namespaceMap : List (String × List (String × String))

/-- `_is_local`: any scope on the stack binds the name. -/
def aliasIsLocal (scopes : List (List String)) (name : String) : Bool :=
  scopes.any (fun scope => name ∈ scope)

/-- The member-access handling of `rewrite_expr`: if the rewritten target is
an identifier naming a namespace alias, the access resolves through the alias
map (a missing member is fatal); otherwise the `MemberExpr` is returned with
the rewritten target — no error. -/
def rewriteMemberTarget (m : AliasMaps) (t : Expr) (member : String) : Except String Expr :=
  match t with
  | .ident tname =>
    match alookup m.namespaceMap tname with
    | some ns =>
      match alookup ns member with
      | none => .error "Модуль не содержит символ"
      | some mangled => .ok (.ident mangled)
    | none => .ok (.memberE (.ident tname) member)
  | .lit v k => .ok (.memberE (.lit v k) member)
  | .listLit es => .ok (.memberE (.listLit es) member)
  | .dictLit entries => .ok (.memberE (.dictLit entries) member)
  | .indexE a b => .ok (.memberE (.indexE a b) member)
  | .memberE a b => .ok (.memberE (.memberE a b) member)
  | .unaryOp a b => .ok (.memberE (.unaryOp a b) member)
  | .binOp a b c => .ok (.memberE (.binOp a b c) member)
  | .call a b => .ok (.memberE (.call a b) member)
  | .awaitE a => .ok (.memberE (.awaitE a) member)

mutual

def rewriteExpr (m : AliasMaps) (scopes : List (List String)) : Expr → Except String Expr
  | .ident name =>
    if !aliasIsLocal scopes name then
      match alookup m.nameMap name with
      | some mangled => .ok (.ident mangled)
      | none => .ok (.ident name)
    else .ok (.ident name)
  | .memberE target member => do
    let t ← rewriteExpr m scopes target
    rewriteMemberTarget m t member
  | .lit v k => .ok (.lit v k)
  | .listLit es => do
    let es' ← rewriteExprList m scopes es
    .ok (.listLit es')
  | .dictLit entries => do
    let entries' ← rewriteExprEntries m scopes entries
    .ok (.dictLit entries')
  | .unaryOp op operand => do
    let operand' ← rewriteExpr m scopes operand
    .ok (.unaryOp op operand')
  | .binOp l op r => do
    let l' ← rewriteExpr m scopes l
    let r' ← rewriteExpr m scopes r
    .ok (.binOp l' op r')
  | .indexE t i => do
    let t' ← rewriteExpr m scopes t
    let i' ← rewriteExpr m scopes i
    .ok (.indexE t' i')
  | .call callee args => do
    let callee' ← rewriteExpr m scopes callee
    let args' ← rewriteExprList m scopes args
    .ok (.call callee' args')
  | .awaitE operand =>
    -- `rewrite_expr` has no `AwaitExpr` case: the final `copy.deepcopy(expr)`
    -- returns the node (operand included) verbatim.
    .ok (.awaitE operand)

def rewriteExprList (m : AliasMaps) (scopes : List (List String)) :
    List Expr → Except String (List Expr)
  | [] => .ok []
  | e :: rest => do
    let e' ← rewriteExpr m scopes e
    let rest' ← rewriteExprList m scopes rest
    .ok (e' :: rest')

def rewriteExprEntries (m : AliasMaps) (scopes : List (List String)) :
    List (Expr × Expr) → Except String (List (Expr × Expr))
  | [] => .ok []
  | (k, v) :: rest => do
    let k' ← rewriteExpr m scopes k
    let v' ← rewriteExpr m scopes v
    let rest' ← rewriteExprEntries m scopes rest
    .ok ((k', v') :: rest')

end

mutual

/-- No member-access node in the expression has a namespace-alias identifier as
its target (`nsKeys` = the alias names installed in `namespace_map`). -/
def exprNoAliasMember (nsKeys : List String) : Expr → Bool
  | .ident _ => true
  | .lit _ _ => true
  | .memberE t _ =>
    (match t with
      | .ident tn => !(decide (tn ∈ nsKeys))
      | _ => true) && exprNoAliasMember nsKeys t
  | .listLit es => exprListNoAliasMember nsKeys es
  | .dictLit entries => exprEntriesNoAliasMember nsKeys entries
  | .unaryOp _ o => exprNoAliasMember nsKeys o
  | .binOp l _ r => exprNoAliasMember nsKeys l && exprNoAliasMember nsKeys r
  | .indexE t i => exprNoAliasMember nsKeys t && exprNoAliasMember nsKeys i
  | .call c args => exprNoAliasMember nsKeys c && exprListNoAliasMember nsKeys args
  | .awaitE o => exprNoAliasMember nsKeys o

def exprListNoAliasMember (nsKeys : List String) : List Expr → Bool
  | [] => true
  | e :: rest => exprNoAliasMember nsKeys e && exprListNoAliasMember nsKeys rest

def exprEntriesNoAliasMember (nsKeys : List String) : List (Expr × Expr) → Bool
  | [] => true
  | (k, v) :: rest =>
    exprNoAliasMember nsKeys k && exprNoAliasMember nsKeys v &&
    exprEntriesNoAliasMember nsKeys rest

end

mutual

/-- The expression contains no `await`: `rewrite_expr` has no `AwaitExpr` case
and deep-copies such nodes verbatim, so member accesses under `await` are not
rewritten at all. -/
def exprAwaitFree : Expr → Bool
  | .ident _ => true
  | .lit _ _ => true
  | .memberE t _ => exprAwaitFree t
  | .listLit es => exprListAwaitFree es
  | .dictLit entries => exprEntriesAwaitFree entries
  | .unaryOp _ o => exprAwaitFree o
  | .binOp l _ r => exprAwaitFree l && exprAwaitFree r
  | .indexE t i => exprAwaitFree t && exprAwaitFree i
  | .call c args => exprAwaitFree c && exprListAwaitFree args
  | .awaitE _ => false

def exprListAwaitFree : List Expr → Bool
  | [] => true
  | e :: rest => exprAwaitFree e && exprListAwaitFree rest

def exprEntriesAwaitFree : List (Expr × Expr) → Bool
  | [] => true
  | (k, v) :: rest => exprAwaitFree k && exprAwaitFree v && exprEntriesAwaitFree rest

end

theorem except_ok_bind {e a b : Type} (x : a) (f : a → Except e b) :
    (Except.ok x : Except e a) >>= f = f x := rfl

theorem except_error_bind {e a b : Type} (msg : e) (f : a → Except e b) :
    (Except.error msg : Except e a) >>= f = Except.error msg := rfl

theorem alookup_eq_none {α : Type} (assoc : List (String × α)) (k : String) :
    alookup assoc k = none ↔ k ∉ assoc.map Prod.fst := by
  induction assoc with
  | nil => simp [alookup]
  | cons p rest ih =>
    by_cases h : p.1 = k
    · have hb : (p.1 == k) = true := by simp [h]
      simp [alookup, List.find?_cons, hb, h]
    · have hb : (p.1 == k) = false := by simp [h]
      simp only [alookup, List.find?_cons, hb] at ih ⊢
      rw [ih]
      simp only [List.map_cons, List.mem_cons, not_or]
      constructor
      · intro hk
        exact ⟨fun he => h he.symm, hk⟩
      · intro hk
        exact hk.2

mutual

theorem rewriteExpr_noAliasMember :
    ∀ (m : AliasMaps) (scopes : List (List String)) (e e' : Expr),
      exprAwaitFree e = true → rewriteExpr m scopes e = .ok e' →
      exprNoAliasMember (m.namespaceMap.map Prod.fst) e' = true
  | m, scopes, .ident name, e', _, h => by
    simp only [rewriteExpr] at h
    split at h
    · split at h <;> (simp only [Except.ok.injEq] at h; subst h; rfl)
    · simp only [Except.ok.injEq] at h; subst h; rfl
  | m, scopes, .lit v k, e', _, h => by
    simp only [rewriteExpr, Except.ok.injEq] at h
    subst h; rfl
  | m, scopes, .awaitE o, e', haf, h => by
    simp [exprAwaitFree] at haf
  | m, scopes, .memberE target member, e', haf, h => by
    simp only [exprAwaitFree] at haf
    simp only [rewriteExpr] at h
    cases ht : rewriteExpr m scopes target with
    | error msg => rw [ht] at h; simp only [except_error_bind] at h; exact Except.noConfusion h
    | ok t =>
      rw [ht] at h
      simp only [except_ok_bind] at h
      have hpt := rewriteExpr_noAliasMember m scopes target t haf ht
      cases t with
      | ident tn =>
        cases hns : alookup m.namespaceMap tn with
        | some ns =>
          cases hm : alookup ns member with
          | none =>
            simp only [rewriteMemberTarget, hns, hm] at h
            exact Except.noConfusion h
          | some mangled =>
            simp only [rewriteMemberTarget, hns, hm, Except.ok.injEq] at h
            subst h; rfl
        | none =>
          simp only [rewriteMemberTarget, hns, Except.ok.injEq] at h
          subst h
          have hmem : tn ∉ m.namespaceMap.map Prod.fst := (alookup_eq_none _ _).mp hns
          simp [exprNoAliasMember, hmem]
      | lit v k =>
        simp only [rewriteMemberTarget, Except.ok.injEq] at h; subst h
        simp [exprNoAliasMember]
      | listLit es =>
        simp only [rewriteMemberTarget, Except.ok.injEq] at h; subst h
        simpa [exprNoAliasMember] using hpt
      | dictLit entries =>
        simp only [rewriteMemberTarget, Except.ok.injEq] at h; subst h
        simpa [exprNoAliasMember] using hpt
      | indexE a b =>
        simp only [rewriteMemberTarget, Except.ok.injEq] at h; subst h
        simpa [exprNoAliasMember] using hpt
      | memberE a b =>
        simp only [rewriteMemberTarget, Except.ok.injEq] at h; subst h
        simpa [exprNoAliasMember] using hpt
      | unaryOp a b =>
        simp only [rewriteMemberTarget, Except.ok.injEq] at h; subst h
        simpa [exprNoAliasMember] using hpt
      | binOp a b c =>
        simp only [rewriteMemberTarget, Except.ok.injEq] at h; subst h
        simpa [exprNoAliasMember] using hpt
      | call a b =>
        simp only [rewriteMemberTarget, Except.ok.injEq] at h; subst h
        simpa [exprNoAliasMember] using hpt
      | awaitE a =>
        simp only [rewriteMemberTarget, Except.ok.injEq] at h; subst h
        simpa [exprNoAliasMember] using hpt
  | m, scopes, .listLit es, e', haf, h => by
    simp only [exprAwaitFree] at haf
    simp only [rewriteExpr] at h
    cases hes : rewriteExprList m scopes es with
    | error msg => rw [hes] at h; simp only [except_error_bind] at h; exact Except.noConfusion h
    | ok es' =>
      rw [hes] at h
      simp only [except_ok_bind, Except.ok.injEq] at h
      subst h
      simpa [exprNoAliasMember] using
        rewriteExprList_noAliasMember m scopes es es' haf hes
  | m, scopes, .dictLit entries, e', haf, h => by
    simp only [exprAwaitFree] at haf
    simp only [rewriteExpr] at h
    cases hes : rewriteExprEntries m scopes entries with
    | error msg => rw [hes] at h; simp only [except_error_bind] at h; exact Except.noConfusion h
    | ok entries' =>
      rw [hes] at h
      simp only [except_ok_bind, Except.ok.injEq] at h
      subst h
      simpa [exprNoAliasMember] using
        rewriteExprEntries_noAliasMember m scopes entries entries' haf hes
  | m, scopes, .unaryOp op operand, e', haf, h => by
    simp only [exprAwaitFree] at haf
    simp only [rewriteExpr] at h
    cases ho : rewriteExpr m scopes operand with
    | error msg => rw [ho] at h; simp only [except_error_bind] at h; exact Except.noConfusion h
    | ok operand' =>
      rw [ho] at h
      simp only [except_ok_bind, Except.ok.injEq] at h
      subst h
      simpa [exprNoAliasMember] using
        rewriteExpr_noAliasMember m scopes operand operand' haf ho
  | m, scopes, .binOp l op r, e', haf, h => by
    simp only [exprAwaitFree, Bool.and_eq_true] at haf
    simp only [rewriteExpr] at h
    cases hl : rewriteExpr m scopes l with
    | error msg => rw [hl] at h; simp only [except_error_bind] at h; exact Except.noConfusion h
    | ok l' =>
      rw [hl] at h
      cases hr : rewriteExpr m scopes r with
      | error msg => rw [hr] at h; simp only [except_error_bind] at h; exact Except.noConfusion h
      | ok r' =>
        rw [hr] at h
        simp only [except_ok_bind, Except.ok.injEq] at h
        subst h
        simp only [exprNoAliasMember, Bool.and_eq_true]
        exact ⟨rewriteExpr_noAliasMember m scopes l l' haf.1 hl,
          rewriteExpr_noAliasMember m scopes r r' haf.2 hr⟩
  | m, scopes, .indexE t i, e', haf, h => by
    simp only [exprAwaitFree, Bool.and_eq_true] at haf
    simp only [rewriteExpr] at h
    cases hl : rewriteExpr m scopes t with
    | error msg => rw [hl] at h; simp only [except_error_bind] at h; exact Except.noConfusion h
    | ok t' =>
      rw [hl] at h
      cases hr : rewriteExpr m scopes i with
      | error msg => rw [hr] at h; simp only [except_error_bind] at h; exact Except.noConfusion h
      | ok i' =>
        rw [hr] at h
        simp only [except_ok_bind, Except.ok.injEq] at h
        subst h
        simp only [exprNoAliasMember, Bool.and_eq_true]
        exact ⟨rewriteExpr_noAliasMember m scopes t t' haf.1 hl,
          rewriteExpr_noAliasMember m scopes i i' haf.2 hr⟩
  | m, scopes, .call callee args, e', haf, h => by
    simp only [exprAwaitFree, Bool.and_eq_true] at haf
    simp only [rewriteExpr] at h
    cases hc : rewriteExpr m scopes callee with
    | error msg => rw [hc] at h; simp only [except_error_bind] at h; exact Except.noConfusion h
    | ok callee' =>
      rw [hc] at h
      cases ha : rewriteExprList m scopes args with
      | error msg => rw [ha] at h; simp only [except_error_bind] at h; exact Except.noConfusion h
      | ok args' =>
        rw [ha] at h
        simp only [except_ok_bind, Except.ok.injEq] at h
        subst h
        simp only [exprNoAliasMember, Bool.and_eq_true]
        exact ⟨rewriteExpr_noAliasMember m scopes callee callee' haf.1 hc,
          rewriteExprList_noAliasMember m scopes args args' haf.2 ha⟩

theorem rewriteExprList_noAliasMember :
    ∀ (m : AliasMaps) (scopes : List (List String)) (es es' : List Expr),
      exprListAwaitFree es = true → rewriteExprList m scopes es = .ok es' →
      exprListNoAliasMember (m.namespaceMap.map Prod.fst) es' = true
  | m, scopes, [], es', _, h => by
    simp only [rewriteExprList, Except.ok.injEq] at h
    subst h; rfl
  | m, scopes, e :: rest, es', haf, h => by
    simp only [exprListAwaitFree, Bool.and_eq_true] at haf
    simp only [rewriteExprList] at h
    cases he : rewriteExpr m scopes e with
    | error msg => rw [he] at h; simp only [except_error_bind] at h; exact Except.noConfusion h
    | ok e' =>
      rw [he] at h
      cases hrest : rewriteExprList m scopes rest with
      | error msg => rw [hrest] at h; simp only [except_error_bind] at h; exact Except.noConfusion h
      | ok rest' =>
        rw [hrest] at h
        simp only [except_ok_bind, Except.ok.injEq] at h
        subst h
        simp only [exprListNoAliasMember, Bool.and_eq_true]
        exact ⟨rewriteExpr_noAliasMember m scopes e e' haf.1 he,
          rewriteExprList_noAliasMember m scopes rest rest' haf.2 hrest⟩

theorem rewriteExprEntries_noAliasMember :
    ∀ (m : AliasMaps) (scopes : List (List String)) (es es' : List (Expr × Expr)),
      exprEntriesAwaitFree es = true → rewriteExprEntries m scopes es = .ok es' →
      exprEntriesNoAliasMember (m.namespaceMap.map Prod.fst) es' = true
  | m, scopes, [], es', _, h => by
    simp only [rewriteExprEntries, Except.ok.injEq] at h
    subst h; rfl
  | m, scopes, (k, v) :: rest, es', haf, h => by
    simp only [exprEntriesAwaitFree, Bool.and_eq_true] at haf
    simp only [rewriteExprEntries] at h
    cases hk : rewriteExpr m scopes k with
    | error msg => rw [hk] at h; simp only [except_error_bind] at h; exact Except.noConfusion h
    | ok k' =>
      rw [hk] at h
      cases hv : rewriteExpr m scopes v with
      | error msg => rw [hv] at h; simp only [except_error_bind] at h; exact Except.noConfusion h
      | ok v' =>
        rw [hv] at h
        cases hrest : rewriteExprEntries m scopes rest with
        | error msg => rw [hrest] at h; simp only [except_error_bind] at h; exact Except.noConfusion h
        | ok rest' =>
          rw [hrest] at h
          simp only [except_ok_bind, Except.ok.injEq] at h
          subst h
          simp only [exprEntriesNoAliasMember, Bool.and_eq_true]
          exact ⟨⟨rewriteExpr_noAliasMember m scopes k k' haf.1.1 hk,
            rewriteExpr_noAliasMember m scopes v v' haf.1.2 hv⟩,
            rewriteExprEntries_noAliasMember m scopes rest rest' haf.2 hrest⟩

end

/-- **C6, counterexample.**  A member access whose target is not a namespace
alias is *not* rejected by the resolver: with no aliases installed,
`x.поле` passes through `_AliasRewriter.rewrite_expr` unchanged and without
error, so resolution succeeds and the type checker does encounter a
`MemberExpr` (checker.py then raises its own error for it).  This refutes
"rejected as a fatal error at the resolver stage ... the type checker never
encounters a MemberExpr node". -/
theorem resolver_member_passthrough_counterexample :
    rewriteExpr ⟨[], []⟩ [] (.memberE (.ident "x") "поле") =
      Except.ok (.memberE (.ident "x") "поле") := rfl

/-- **C6, amended.**  During module resolution, (a) a member access whose
rewritten target is not a namespace-alias identifier is passed through by the
rewriter with the target rewritten — it is not rejected at this stage (the
checker rejects any surviving `MemberExpr` later); (b) a member access on a
namespace alias with an unknown member is a fatal error at the resolver;
(c) on every `await`-free expression the rewriter's successful output contains
no member access on a namespace alias — alias accesses are all resolved to
direct identifiers or fatal. -/
theorem resolver_member_access (m : AliasMaps) (scopes : List (List String)) :
    (∀ (t : Expr) (member : String) (t' : Expr),
      rewriteExpr m scopes t = .ok t' →
      (∀ tn, t' = .ident tn → alookup m.namespaceMap tn = none) →
      rewriteExpr m scopes (.memberE t member) = .ok (.memberE t' member)) ∧
    (∀ (t : Expr) (member : String) (t' : Expr) (tn : String)
        (ns : List (String × String)),
      rewriteExpr m scopes t = .ok t' → t' = .ident tn →
      alookup m.namespaceMap tn = some ns → alookup ns member = none →
      rewriteExpr m scopes (.memberE t member) = .error "Модуль не содержит символ") ∧
    (∀ (e e' : Expr), exprAwaitFree e = true → rewriteExpr m scopes e = .ok e' →
      exprNoAliasMember (m.namespaceMap.map Prod.fst) e' = true) := by
  refine ⟨?_, ?_, fun e e' => rewriteExpr_noAliasMember m scopes e e'⟩
  · intro t member t' ht hno
    simp only [rewriteExpr, ht, except_ok_bind]
    cases t' with
    | ident tn => simp [rewriteMemberTarget, hno tn rfl]
    | lit v k => rfl
    | listLit es => rfl
    | dictLit entries => rfl
    | indexE a b => rfl
    | memberE a b => rfl
    | unaryOp a b => rfl
    | binOp a b c => rfl
    | call a b => rfl
    | awaitE a => rfl
  · intro t member t' tn ns ht ht' hns hm
    subst ht'
    simp only [rewriteExpr, ht, except_ok_bind]
    simp [rewriteMemberTarget, hns, hm]

/-- Witness for `resolver_member_access` at a concrete alias map
(`M.a ↦ m_a`): a non-alias member access passes through, a missing alias
member is fatal, and a resolved alias access leaves no alias member behind. -/
theorem resolver_member_access_witness :
    (rewriteExpr ⟨[], [("M", [("a", "m_a")])]⟩ [] (.memberE (.ident "x") "f") =
      Except.ok (.memberE (.ident "x") "f")) ∧
    (rewriteExpr ⟨[], [("M", [("a", "m_a")])]⟩ [] (.memberE (.ident "M") "b") =
      Except.error "Модуль не содержит символ") ∧
    (exprNoAliasMember ((AliasMaps.mk [] [("M", [("a", "m_a")])]).namespaceMap.map Prod.fst)
      (.ident "m_a") = true) :=
  ⟨(resolver_member_access ⟨[], [("M", [("a", "m_a")])]⟩ []).1 (.ident "x") "f"
      (.ident "x") rfl (fun tn h => by cases h; rfl),
    (resolver_member_access ⟨[], [("M", [("a", "m_a")])]⟩ []).2.1 (.ident "M") "b"
      (.ident "M") "M" [("a", "m_a")] rfl rfl rfl rfl,
    (resolver_member_access ⟨[], [("M", [("a", "m_a")])]⟩ []).2.2
      (.memberE (.ident "M") "a") (.ident "m_a") rfl rfl⟩

/-! ## Optimizer tree-shake and spawn-by-name (src/yasny/optimizer.py
`_tree_shake`, `_collect_calls_in_stmt`, `_collect_calls_in_expr`;
src/yasny/vm.py `_builtin_spawn`) — claim C9

Python sets are modelled as lists with membership semantics (set iteration
order is unspecified and the reachable set is order-independent, so list order
and multiplicities are irrelevant to every statement proved below). -/

mutual

/-- `_collect_calls_in_expr`: the static callee names of an expression.  Only
`Call` nodes with identifier callees contribute a name; `Identifier`,
`Literal` and `AwaitExpr` nodes have no branch in the source and contribute
nothing — in particular a function name appearing as a *string literal*
argument of `запустить` is never collected. -/
def collectCallsInExpr : Expr → List String
  | .call callee args =>
    (match callee with
      | .ident name => [name]
      | c => collectCallsInExpr c) ++ collectCallsInExprList args
  | .unaryOp _ operand => collectCallsInExpr operand
  | .binOp l _ r => collectCallsInExpr l ++ collectCallsInExpr r
  | .listLit es => collectCallsInExprList es
  | .dictLit entries => collectCallsInExprEntries entries
  | .indexE t i => collectCallsInExpr t ++ collectCallsInExpr i
  | .memberE t _ => collectCallsInExpr t
  | .ident _ => []
  | .lit _ _ => []
  | .awaitE _ => []

def collectCallsInExprList : List Expr → List String
  | [] => []
  | e :: rest => collectCallsInExpr e ++ collectCallsInExprList rest

def collectCallsInExprEntries : List (Expr × Expr) → List String
  | [] => []
  | (k, v) :: rest =>
    collectCallsInExpr k ++ collectCallsInExpr v ++ collectCallsInExprEntries rest

end

mutual

/-- `_collect_calls_in_stmt`: recursion into nested blocks; `FuncDecl`,
imports, `break`, `continue` contribute nothing. -/
def collectCallsInStmt : Stmt → List String
  | .varDecl _ _ value _ => collectCallsInExpr value
  | .assign _ value => collectCallsInExpr value
  | .indexAssign t i v =>
    collectCallsInExpr t ++ collectCallsInExpr i ++ collectCallsInExpr v
  | .ifS c thenBody elseBody =>
    collectCallsInExpr c ++ collectCallsInStmtList thenBody ++
      (match elseBody with
        | none => []
        | some els => collectCallsInStmtList els)
  | .whileS c body => collectCallsInExpr c ++ collectCallsInStmtList body
  | .forS _ iterable body =>
    collectCallsInExpr iterable ++ collectCallsInStmtList body
  | .returnS value => collectCallsInExpr value
  | .exprS e => collectCallsInExpr e
  | .funcDecl _ _ _ _ _ _ => []
  | .importAll _ _ => []
  | .importFrom _ _ => []
  | .breakS => []
  | .continueS => []

def collectCallsInStmtList : List Stmt → List String
  | [] => []
  | s :: rest => collectCallsInStmt s ++ collectCallsInStmtList rest

end

/-- `_collect_calls_in_function`: union over the body statements. -/
def collectCallsInFunction : Stmt → List String
  | .funcDecl _ _ _ body _ _ => collectCallsInStmtList body
  | _ => []

def stmtIsFuncDecl : Stmt → Bool
  | .funcDecl _ _ _ _ _ _ => true
  | _ => false

def stmtFuncName : Stmt → Option String
  | .funcDecl n _ _ _ _ _ => some n
  | _ => none

def stmtFuncExported : Stmt → Bool
  | .funcDecl _ _ _ _ ex _ => ex
  | _ => false

/-- Python `dict[k] = v`: replace in place or append. -/
def assocSet (k : String) (v : Stmt) : List (String × Stmt) → List (String × Stmt)
  | [] => [(k, v)]
  | (k', v') :: rest => if k' = k then (k, v) :: rest else (k', v') :: assocSet k v rest

/-- The `functions` dict of `_tree_shake` (declaration order, last declaration
of a name wins). -/
def buildFunctions (statements : List Stmt) : List (String × Stmt) :=
  statements.foldl
    (fun acc s =>
      match stmtFuncName s with
      | some n => assocSet n s acc
      | none => acc)
    []

/-- The worklist loop of `_tree_shake`.  The Python list used as a stack
(`append` then `pop` from the end) is modelled top-first: a push is `cons` and
the pop takes the head, so pops come in the same order.  `fuel` bounds the
number of iterations; `_tree_shake` pushes at most once per function body and
the fuel chosen in `tree_shake` exceeds every possible push, so the fuel case
is never reached on the queue the source builds. -/
def shakeLoop (functions : List (String × Stmt)) :
    Nat → List String → List String → List String
  | 0, _, reachable => reachable
  | _ + 1, [], reachable => reachable
  | fuel + 1, name :: rest, reachable =>
    if name ∈ reachable then shakeLoop functions fuel rest reachable
    else
      let reachable' := reachable ++ [name]
      match alookup functions name with
      | none => shakeLoop functions fuel rest reachable'
      | some fn =>
        let pushes := (collectCallsInFunction fn).filter
          (fun callee => decide (callee ∈ functions.map Prod.fst) &&
            !decide (callee ∈ reachable'))
        shakeLoop functions fuel (pushes.foldl (fun q c => c :: q) rest) reachable'

/-- `_tree_shake`: split declarations from other statements, seed the root set
with `main`, every exported function and every function called from top-level
statements, close over the static call graph, and keep only reachable
functions. -/
def tree_shake (statements : List Stmt) : List Stmt :=
  let functions := buildFunctions statements
  let others := statements.filter (fun s => !stmtIsFuncDecl s)
  if functions.isEmpty then statements
  else
    let keys := functions.map Prod.fst
    -- the Python queue in append order (the `callee not in reachable` seed
    -- check is against the still-empty reachable set)
    let pyQueue : List String :=
      (if "main" ∈ keys then ["main"] else []) ++
      (functions.filter (fun p => stmtFuncExported p.2)).map Prod.fst ++
      others.foldl
        (fun acc s => acc ++ (collectCallsInStmt s).filter
          (fun callee => decide (callee ∈ keys) && !decide (callee ∈ ([] : List String))))
        []
    let fuel := pyQueue.length + 1 +
      functions.length *
        (1 + (functions.map (fun p => (collectCallsInFunction p.2).length)).sum)
    let reachable := shakeLoop functions fuel pyQueue.reverse []
    others ++ (functions.filter (fun p => p.1 ∈ reachable)).map Prod.snd

/-- The names the compiled program's function table is keyed by: the function
declarations surviving in the shaken statement list. -/
def funcNamesOf (statements : List Stmt) : List String :=
  statements.filterMap stmtFuncName

def vmBuiltinNames : List String :=
  ["печать", "длина", "диапазон", "ввод", "пауза", "строка", "число",
   "запустить", "готово", "ожидать", "ожидать_все", "отменить"]

/-- The validation prefix of `_builtin_spawn` (`запустить`): at least one
argument, a non-empty string name, and the name must be a built-in or a
program function — otherwise the unknown-function error. -/
def spawnValidate (args : List PyVal) (functionNames : List String) :
    Except String Unit :=
  match args with
  | [] => .error "запустить требует минимум 1 аргумент"
  | fnNameRaw :: _ =>
    match fnNameRaw with
    | .vStr fnName =>
      if fnName = "" then .error "Первый аргумент запустить должен быть непустой Строка"
      else if fnName ∉ vmBuiltinNames ∧ fnName ∉ functionNames then
        .error "Неизвестная функция"
      else .ok ()
    | _ => .error "Первый аргумент запустить должен быть непустой Строка"

theorem alookup_mem {α : Type} : ∀ (assoc : List (String × α)) (k : String) (v : α),
    alookup assoc k = some v → (k, v) ∈ assoc := by
  intro assoc
  induction assoc with
  | nil => intro k v h; simp [alookup] at h
  | cons p rest ih =>
    intro k v h
    obtain ⟨pk, pv⟩ := p
    by_cases hk : pk = k
    · have hb : (pk == k) = true := by simp [hk]
      simp [alookup, List.find?_cons, hb] at h
      subst hk
      rw [← h]
      exact List.mem_cons_self _ _
    · have hb : (pk == k) = false := by simp [hk]
      simp only [alookup, List.find?_cons, hb] at h
      exact List.mem_cons_of_mem _ (ih k v h)

theorem mem_pushAll (x : String) : ∀ (cs rest : List String),
    x ∈ cs.foldl (fun q c => c :: q) rest ↔ x ∈ cs ∨ x ∈ rest := by
  intro cs
  induction cs with
  | nil => simp
  | cons c cs ih =>
    intro rest
    rw [List.foldl_cons, ih (c :: rest)]
    simp [or_assoc, or_comm, or_left_comm]

/-- A name that is never a collected callee of any function body, is not in
the queue and not yet reachable, is never added to the reachable set. -/
theorem shakeLoop_not_mem (functions : List (String × Stmt)) (f : String)
    (hcall : ∀ p ∈ functions, f ∉ collectCallsInFunction p.2) :
    ∀ (fuel : Nat) (queue reachable : List String),
      f ∉ queue → f ∉ reachable → f ∉ shakeLoop functions fuel queue reachable := by
  intro fuel
  induction fuel with
  | zero =>
    intro queue reachable _ hr
    simpa [shakeLoop] using hr
  | succ n ih =>
    intro queue reachable hq hr
    cases queue with
    | nil => simpa [shakeLoop] using hr
    | cons name rest =>
      have hfname : f ≠ name := fun he => hq (he ▸ List.mem_cons_self _ _)
      have hfrest : f ∉ rest := fun he => hq (List.mem_cons_of_mem _ he)
      by_cases hmem : name ∈ reachable
      · simpa [shakeLoop, hmem] using ih rest reachable hfrest hr
      · have hr' : f ∉ reachable ++ [name] := by
          simp [hfname, hr]
        cases hlk : alookup functions name with
        | none =>
          simpa [shakeLoop, hmem, hlk] using ih rest _ hfrest hr'
        | some fn =>
          have hnotin : f ∉ collectCallsInFunction fn :=
            hcall (name, fn) (alookup_mem functions name fn hlk)
          have hq' : f ∉ ((collectCallsInFunction fn).filter
              (fun callee => decide (callee ∈ functions.map Prod.fst) &&
                !decide (callee ∈ reachable ++ [name]))).foldl
                  (fun q c => c :: q) rest := by
            rw [mem_pushAll]
            rintro (hin | hin)
            · exact hnotin (List.mem_filter.mp hin).1
            · exact hfrest hin
          simpa [shakeLoop, hmem, hlk] using ih _ _ hq' hr'

theorem mem_foldl_append {β : Type} (g : β → List String) (x : String) :
    ∀ (l : List β) (acc : List String),
      x ∈ l.foldl (fun acc s => acc ++ g s) acc ↔ x ∈ acc ∨ ∃ s ∈ l, x ∈ g s := by
  intro l
  induction l with
  | nil => simp
  | cons s l ih =>
    intro acc
    rw [List.foldl_cons, ih (acc ++ g s)]
    simp only [List.mem_append, List.mem_cons]
    constructor
    · rintro ((h | h) | ⟨u, hu, hx⟩)
      · exact Or.inl h
      · exact Or.inr ⟨s, Or.inl rfl, h⟩
      · exact Or.inr ⟨u, Or.inr hu, hx⟩
    · rintro (h | ⟨u, rfl | hu, hx⟩)
      · exact Or.inl (Or.inl h)
      · exact Or.inl (Or.inr hx)
      · exact Or.inr ⟨u, hu, hx⟩

theorem assocSet_mem (k : String) (v : Stmt) :
    ∀ (assoc : List (String × Stmt)) (p : String × Stmt),
      p ∈ assocSet k v assoc → p = (k, v) ∨ p ∈ assoc := by
  intro assoc
  induction assoc with
  | nil => intro p hp; simpa [assocSet] using hp
  | cons q rest ih =>
    intro p hp
    by_cases hk : q.1 = k
    · simp only [assocSet, if_pos hk, List.mem_cons] at hp
      rcases hp with rfl | hp
      · exact Or.inl rfl
      · exact Or.inr (List.mem_cons_of_mem _ hp)
    · simp only [assocSet, if_neg hk, List.mem_cons] at hp
      rcases hp with rfl | hp
      · exact Or.inr (List.mem_cons_self _ _)
      · rcases ih p hp with h | h
        · exact Or.inl h
        · exact Or.inr (List.mem_cons_of_mem _ h)

/-- Every entry of the `functions` dict maps a name to a `FuncDecl` carrying
that very name. -/
theorem buildFunctions_named (statements : List Stmt) :
    ∀ p ∈ buildFunctions statements, stmtFuncName p.2 = some p.1 := by
  have go : ∀ (l : List Stmt) (acc : List (String × Stmt)),
      (∀ p ∈ acc, stmtFuncName p.2 = some p.1) →
      ∀ p ∈ l.foldl
        (fun acc s =>
          match stmtFuncName s with
          | some n => assocSet n s acc
          | none => acc) acc,
        stmtFuncName p.2 = some p.1 := by
    intro l
    induction l with
    | nil => intro acc hacc p hp; exact hacc p hp
    | cons s l ih =>
      intro acc hacc p hp
      rw [List.foldl_cons] at hp
      cases hs : stmtFuncName s with
      | none =>
        rw [hs] at hp
        exact ih acc hacc p hp
      | some n =>
        rw [hs] at hp
        refine ih _ ?_ p hp
        intro q hq
        rcases assocSet_mem n s acc q hq with rfl | hq
        · exact hs
        · exact hacc q hq
  exact go statements [] (by simp)

theorem stmtFuncName_eq_none {s : Stmt} (h : stmtIsFuncDecl s = false) :
    stmtFuncName s = none := by
  cases s <;> simp_all [stmtIsFuncDecl, stmtFuncName]

/-- **C9.**  If a user-declared function `f` other than `main`, not exported,
is never called by identifier anywhere (its only reference being the string
argument of `запустить`, which the call collector does not see), then
`_tree_shake` drops its declaration, and a later `запустить("f", ...)` against
the shaken program's function table fails with the unknown-function error. -/
theorem tree_shake_drops_spawn_only_function
    (statements : List Stmt) (f : String)
    (hmain : f ≠ "main")
    (hempty : f ≠ "")
    (hdecl : f ∈ (buildFunctions statements).map Prod.fst)
    (hexp : ∀ p ∈ buildFunctions statements, p.1 = f → stmtFuncExported p.2 = false)
    (htop : ∀ s ∈ statements, f ∉ collectCallsInStmt s)
    (hfn : ∀ p ∈ buildFunctions statements, f ∉ collectCallsInFunction p.2)
    (hbuiltin : f ∉ vmBuiltinNames) :
    (∀ s ∈ tree_shake statements, stmtFuncName s ≠ some f) ∧
    spawnValidate [.vStr f] (funcNamesOf (tree_shake statements)) =
      .error "Неизвестная функция" := by
  have hnonempty : (buildFunctions statements).isEmpty = false := by
    cases hbf : buildFunctions statements with
    | nil => rw [hbf] at hdecl; simp at hdecl
    | cons p rest => simp [List.isEmpty]
  -- the seed queue does not contain f
  have hqueue : f ∉
      ((if "main" ∈ (buildFunctions statements).map Prod.fst then ["main"] else []) ++
        ((buildFunctions statements).filter (fun p => stmtFuncExported p.2)).map Prod.fst ++
        (statements.filter (fun s => !stmtIsFuncDecl s)).foldl
          (fun acc s => acc ++ (collectCallsInStmt s).filter
            (fun callee => decide (callee ∈ (buildFunctions statements).map Prod.fst) &&
              !decide (callee ∈ ([] : List String))))
          []) := by
    intro hmem
    rw [List.mem_append, List.mem_append] at hmem
    rcases hmem with (hmem | hmem) | hmem
    · split at hmem <;> simp_all
    · rcases List.mem_map.mp hmem with ⟨p, hp, hp1⟩
      have hpfun := List.mem_filter.mp hp
      exact absurd (hpfun.2) (by rw [hexp p hpfun.1 hp1]; simp)
    · rw [mem_foldl_append] at hmem
      rcases hmem with hmem | ⟨s, hs, hmem⟩
      · simp at hmem
      · exact htop s (List.mem_filter.mp hs).1 (List.mem_filter.mp hmem).1
  have hreach : f ∉ shakeLoop (buildFunctions statements)
      (((if "main" ∈ (buildFunctions statements).map Prod.fst then ["main"] else []) ++
        ((buildFunctions statements).filter (fun p => stmtFuncExported p.2)).map Prod.fst ++
        (statements.filter (fun s => !stmtIsFuncDecl s)).foldl
          (fun acc s => acc ++ (collectCallsInStmt s).filter
            (fun callee => decide (callee ∈ (buildFunctions statements).map Prod.fst) &&
              !decide (callee ∈ ([] : List String))))
          []).length + 1 +
        (buildFunctions statements).length *
          (1 + ((buildFunctions statements).map
            (fun p => (collectCallsInFunction p.2).length)).sum))
      ((if "main" ∈ (buildFunctions statements).map Prod.fst then ["main"] else []) ++
        ((buildFunctions statements).filter (fun p => stmtFuncExported p.2)).map Prod.fst ++
        (statements.filter (fun s => !stmtIsFuncDecl s)).foldl
          (fun acc s => acc ++ (collectCallsInStmt s).filter
            (fun callee => decide (callee ∈ (buildFunctions statements).map Prod.fst) &&
              !decide (callee ∈ ([] : List String))))
          []).reverse [] :=
    shakeLoop_not_mem _ f hfn _ _ _ (fun h => hqueue (List.mem_reverse.mp h)) (by simp)
  have hout : ∀ s ∈ tree_shake statements, stmtFuncName s ≠ some f := by
    intro s hs hname
    rw [tree_shake] at hs
    simp only [hnonempty, Bool.false_eq_true, if_false] at hs
    rw [List.mem_append] at hs
    rcases hs with hs | hs
    · have := stmtFuncName_eq_none (by
        have := (List.mem_filter.mp hs).2
        simpa using this)
      rw [this] at hname
      exact Option.noConfusion hname
    · rcases List.mem_map.mp hs with ⟨p, hp, rfl⟩
      have hpfun := List.mem_filter.mp hp
      have hnamed := buildFunctions_named statements p hpfun.1
      rw [hnamed] at hname
      have hp1 : p.1 = f := by injection hname
      have : p.1 ∈ _ := of_decide_eq_true hpfun.2
      rw [hp1] at this
      exact hreach this
  refine ⟨hout, ?_⟩
  have hnames : f ∉ funcNamesOf (tree_shake statements) := by
    intro hmem
    rcases List.mem_filterMap.mp hmem with ⟨s, hs, hname⟩
    exact hout s hs hname
  simp only [spawnValidate, if_neg hempty]
  rw [if_pos ⟨hbuiltin, hnames⟩]

/-- Witness for `tree_shake_drops_spawn_only_function`: the program
`функция main(): запустить("f")` / `функция f(): вернуть 1` — `f` is dropped
by the tree-shake and spawning it fails. -/
theorem tree_shake_drops_spawn_only_function_witness :
    (∀ s ∈ tree_shake
        [Stmt.funcDecl "main" [] (.prim "Пусто")
          [.exprS (.call (.ident "запустить") [.lit (.pcStr "f") "string"])] false false,
         Stmt.funcDecl "f" [] (.prim "Цел")
          [.returnS (.lit (.pcInt 1) "int")] false false],
      stmtFuncName s ≠ some "f") ∧
    spawnValidate [.vStr "f"]
      (funcNamesOf (tree_shake
        [Stmt.funcDecl "main" [] (.prim "Пусто")
          [.exprS (.call (.ident "запустить") [.lit (.pcStr "f") "string"])] false false,
         Stmt.funcDecl "f" [] (.prim "Цел")
          [.returnS (.lit (.pcInt 1) "int")] false false])) =
      .error "Неизвестная функция" :=
  tree_shake_drops_spawn_only_function _ "f"
    (by decide) (by decide) (by decide) (by decide)
    (by decide) (by decide) (by decide)

/-! ## Lexer (src/yasny/lexer.py) — claim C8

`tokenize` normalizes line endings, strips a BOM, splits into lines, tracks
indentation with a stack of column counts, scans each line's tokens and ends
with a NEWLINE per logical line, flushed DEDENTs and EOF.  `Char.isDigit`/
`pyIsAlpha` model Python's `str.isdigit`/`str.isalpha` on the ASCII and
Cyrillic repertoire the language uses; float literal values are carried as
their source text. -/

structure Token where
  kind : String
  value : Option PyConst
  line : Nat
  col : Nat
deriving DecidableEq

def KEYWORDS : List String :=
  ["функция", "вернуть", "если", "иначе", "пока", "для", "в", "и", "или",
   "не", "истина", "ложь", "пусто", "пусть", "подключить", "из", "как",
   "экспорт", "прервать", "продолжить"]

def TWO_CHAR_TOKENS : List String := ["->", "==", "!=", "<=", ">="]

def SINGLE_CHAR_TOKENS : List Char :=
  ['(', ')', ':', ',', '[', ']', Char.ofNat 123, Char.ofNat 125,
   '+', '-', '*', '/', '%', '=', '<', '>', '.', '|', '?']

/-- Python `str.isalpha` on the repertoire the language exercises (ASCII
letters and the Cyrillic block). -/
def pyIsAlpha (c : Char) : Bool :=
  c.isAlpha || (0x400 ≤ c.toNat && c.toNat ≤ 0x4FF)

def _is_ident_start (c : Char) : Bool := c = '_' || pyIsAlpha c

def _is_ident_part (c : Char) : Bool := _is_ident_start c || c.isDigit

/-- Normalize `\r\n` then bare `\r` to `\n`. -/
def normNewlines : List Char → List Char
  | [] => []
  | '\r' :: '\n' :: rest => '\n' :: normNewlines rest
  | '\r' :: rest => '\n' :: normNewlines rest
  | c :: rest => c :: normNewlines rest

def stripBOM : List Char → List Char
  | [] => []
  | c :: rest => if c.toNat = 0xFEFF then rest else c :: rest

/-- `text.split("\n")`. -/
def splitLines : List Char → List (List Char)
  | [] => [[]]
  | '\n' :: rest => [] :: splitLines rest
  | c :: rest =>
    match splitLines rest with
    | [] => [[c]]
    | l :: ls => (c :: l) :: ls

/-- The string-literal subloop of `tokenize` (after the opening quote):
escapes `\n \t \r \" \\`, unknown escapes and an unterminated literal are
fatal. -/
def scanStringLit (lineNo col : Nat) :
    List Char → Nat → Bool → List Char → Except String (Token × List Char × Nat)
  | [], _, _, _ => .error "Незакрытая строка"
  | c :: cs, idx, escaped, acc =>
    if escaped then
      let esc : Option Char :=
        if c = 'n' then some '\n'
        else if c = 't' then some '\t'
        else if c = 'r' then some '\r'
        else if c = '"' then some '"'
        else if c = '\\' then some '\\'
        else none
      match esc with
      | none => .error "Неизвестная escape-последовательность"
      | some e => scanStringLit lineNo col cs (idx + 1) false (acc ++ [e])
    else if c = '\\' then scanStringLit lineNo col cs (idx + 1) true acc
    else if c = '"' then .ok (⟨"STRING", some (.pcStr ⟨acc⟩), lineNo, col⟩, cs, idx + 1)
    else scanStringLit lineNo col cs (idx + 1) false (acc ++ [c])

/-- One step of the main scanning loop of `tokenize`. -/
inductive ScanStep where
  | tok (t : Token) (rest : List Char) (idx : Nat)
  | skip (rest : List Char) (idx : Nat)
  | stop
  | err (msg : String)

def scanStep (lineNo : Nat) (c : Char) (cs : List Char) (idx : Nat) : ScanStep :=
  if c = ' ' then .skip cs (idx + 1)
  else if c = '#' then .stop
  else
    match cs with
    | c2 :: cs2 =>
      if (⟨[c, c2]⟩ : String) ∈ TWO_CHAR_TOKENS then
        .tok ⟨⟨[c, c2]⟩, some (.pcStr ⟨[c, c2]⟩), lineNo, idx + 1⟩ cs2 (idx + 2)
      else scanStepOne lineNo c (c2 :: cs2) idx (idx + 1)
    | [] => scanStepOne lineNo c [] idx (idx + 1)

where
  scanStepOne (lineNo : Nat) (c : Char) (cs : List Char) (idx col : Nat) : ScanStep :=
    if c ∈ SINGLE_CHAR_TOKENS then
      .tok ⟨⟨[c]⟩, some (.pcStr ⟨[c]⟩), lineNo, col⟩ cs (idx + 1)
    else if c = '"' then
      match scanStringLit lineNo col cs (idx + 1) false [] with
      | .error msg => .err msg
      | .ok (t, rest, idx') => .tok t rest idx'
    else if c.isDigit then
      let ds := (c :: cs).takeWhile Char.isDigit
      let rest1 := (c :: cs).dropWhile Char.isDigit
      let idx1 := idx + ds.length
      match rest1 with
      | '.' :: rest2 =>
        match rest2 with
        | d :: _ =>
          if d.isDigit then
            let ds2 := rest2.takeWhile Char.isDigit
            let rest3 := rest2.dropWhile Char.isDigit
            .tok ⟨"FLOAT", some (.pcFloat ⟨ds ++ ['.'] ++ ds2⟩), lineNo, idx + 1⟩
              rest3 (idx1 + 1 + ds2.length)
          else .err "Ожидалась цифра после точки в числе"
        | [] => .err "Ожидалась цифра после точки в числе"
      | _ =>
        .tok ⟨"INT", some (.pcInt (digitsVal ds)), lineNo, idx + 1⟩ rest1 idx1
    else if _is_ident_start c then
      let parts := (c :: cs).takeWhile _is_ident_part
      let rest' := (c :: cs).dropWhile _is_ident_part
      let name : String := ⟨parts⟩
      if name ∈ KEYWORDS then
        .tok ⟨name, some (.pcStr name), lineNo, idx + 1⟩ rest' (idx + parts.length)
      else
        .tok ⟨"IDENT", some (.pcStr name), lineNo, idx + 1⟩ rest' (idx + parts.length)
    else .err "Неизвестный символ"

/-- The token-scanning loop over one line (from the first non-indent column).
Every step consumes at least one character, so the fuel `line length + 1` the
callers pass is never exhausted. -/
def scanTokens (lineNo : Nat) : Nat → List Char → Nat → Except String (List Token)
  | 0, _, _ => .error "внутренний предел лексера"
  | _ + 1, [], _ => .ok []
  | fuel + 1, c :: cs, idx =>
    match scanStep lineNo c cs idx with
    | .skip rest idx' => scanTokens lineNo fuel rest idx'
    | .stop => .ok []
    | .err msg => .error msg
    | .tok t rest idx' => do
      let more ← scanTokens lineNo fuel rest idx'
      .ok (t :: more)

/-- The dedent loop: pop levels greater than the new indentation, one DEDENT
per popped level (stack is top-first). -/
def popDedents (spaceCount lineNo : Nat) : List Nat → List Nat × List Token
  | [] => ([], [])
  | s :: ss =>
    if spaceCount < s then
      let (st, toks) := popDedents spaceCount lineNo ss
      (st, ⟨"DEDENT", none, lineNo, 1⟩ :: toks)
    else (s :: ss, [])

/-- Process one source line: tab rejection, blank/comment skip, indentation
tracking, token scan, NEWLINE. -/
def processLine (lineNo : Nat) (line : List Char) (stack : List Nat) :
    Except String (List Token × List Nat) :=
  match line.findIdx? (fun c => c = '\t') with
  | some _ => .error "Табуляция запрещена, используйте пробелы"
  | none =>
    let spaceCount := (line.takeWhile (fun c => c = ' ')).length
    let rest := line.drop spaceCount
    if rest = [] ∨ rest.head? = some '#' then .ok ([], stack)
    else
      let newlineTok : Token := ⟨"NEWLINE", none, lineNo, line.length + 1⟩
      if stack.headD 0 < spaceCount then do
        let scanned ← scanTokens lineNo (rest.length + 1) rest spaceCount
        .ok (⟨"INDENT", none, lineNo, 1⟩ :: scanned ++ [newlineTok],
          spaceCount :: stack)
      else if spaceCount < stack.headD 0 then
        let (stack', dedents) := popDedents spaceCount lineNo stack
        if spaceCount ≠ stack'.headD 0 then .error "Некорректный уровень отступа"
        else do
          let scanned ← scanTokens lineNo (rest.length + 1) rest spaceCount
          .ok (dedents ++ scanned ++ [newlineTok], stack')
      else do
        let scanned ← scanTokens lineNo (rest.length + 1) rest spaceCount
        .ok (scanned ++ [newlineTok], stack)

def tokenizeLines : List (List Char) → Nat → List Nat → Except String (List Token × List Nat)
  | [], _, stack => .ok ([], stack)
  | line :: rest, lineNo, stack => do
    let (toks, stack') ← processLine lineNo line stack
    let (toksRest, stackFinal) ← tokenizeLines rest (lineNo + 1) stack'
    .ok (toks ++ toksRest, stackFinal)

/-- `tokenize(source)` from lexer.py. -/
def lexTokenize (source : String) : Except String (List Token) := do
  let text := normNewlines (stripBOM source.data)
  let lines := splitLines text
  let (toks, stack) ← tokenizeLines lines 1 [0]
  let eofLine := lines.length + 1
  let toks :=
    if toks ≠ [] ∧ (toks.getLast?.map Token.kind) ≠ some "NEWLINE" then
      toks ++ [⟨"NEWLINE", none, eofLine, 1⟩]
    else toks
  let toks := toks ++ List.replicate (stack.length - 1) ⟨"DEDENT", none, eofLine, 1⟩
  .ok (toks ++ [⟨"EOF", none, eofLine, 1⟩])

def countKind (kind : String) (toks : List Token) : Nat :=
  (toks.filter (fun t => t.kind = kind)).length

theorem countKind_append (kind : String) (a b : List Token) :
    countKind kind (a ++ b) = countKind kind a + countKind kind b := by
  simp [countKind, List.filter_append]

theorem countKind_cons_ne (kind : String) (t : Token) (toks : List Token)
    (h : t.kind ≠ kind) : countKind kind (t :: toks) = countKind kind toks := by
  simp [countKind, List.filter_cons, h]

theorem one_char_string_ne (c : Char) (s : String) (hs : s.length ≠ 1) :
    (⟨[c]⟩ : String) ≠ s := by
  intro heq
  apply hs
  rw [← heq]
  rfl

theorem two_char_string_ne (c c2 : Char) (s : String) (hs : s.length ≠ 2) :
    (⟨[c, c2]⟩ : String) ≠ s := by
  intro heq
  apply hs
  rw [← heq]
  rfl

theorem scanStringLit_kind (lineNo col : Nat) :
    ∀ (cs : List Char) (idx : Nat) (escaped : Bool) (acc : List Char)
      (t : Token) (rest : List Char) (idx' : Nat),
      scanStringLit lineNo col cs idx escaped acc = .ok (t, rest, idx') →
      t.kind = "STRING" := by
  intro cs
  induction cs with
  | nil =>
    intro idx escaped acc t rest idx' h
    simp [scanStringLit] at h
  | cons c cs ih =>
    intro idx escaped acc t rest idx' h
    simp only [scanStringLit] at h
    split at h
    · split at h
      · exact absurd h (by simp)
      · exact ih _ _ _ _ _ _ h
    · split at h
      · exact ih _ _ _ _ _ _ h
      · split at h
        · simp only [Except.ok.injEq, Prod.mk.injEq] at h
          rw [← h.1]
        · exact ih _ _ _ _ _ _ h

theorem keywords_ne_indent : ∀ k ∈ KEYWORDS, k ≠ "INDENT" ∧ k ≠ "DEDENT" := by
  decide

theorem scanStepOne_tok_kind (lineNo : Nat) (c : Char) (cs : List Char)
    (idx col : Nat) {t : Token} {rest : List Char} {idx' : Nat}
    (h : scanStep.scanStepOne lineNo c cs idx col = .tok t rest idx') :
    t.kind ≠ "INDENT" ∧ t.kind ≠ "DEDENT" := by
  simp only [scanStep.scanStepOne] at h
  split at h
  · -- single-character token
    simp only [ScanStep.tok.injEq] at h
    rw [← h.1]
    exact ⟨one_char_string_ne c _ (by decide), one_char_string_ne c _ (by decide)⟩
  · split at h
    · -- string literal
      split at h
      · exact ScanStep.noConfusion h
      · rename_i res t0 rest0 idx0 heq
        simp only [ScanStep.tok.injEq] at h
        rw [← h.1]
        have hk := scanStringLit_kind lineNo col cs (idx + 1) false [] t0 rest0 idx0 heq
        rw [hk]
        exact ⟨by decide, by decide⟩
    · split at h
      · -- number
        split at h
        · split at h
          · split at h
            · simp only [ScanStep.tok.injEq] at h
              rw [← h.1]
              exact ⟨(by decide : ("FLOAT" : String) ≠ "INDENT"),
                (by decide : ("FLOAT" : String) ≠ "DEDENT")⟩
            · exact ScanStep.noConfusion h
          · exact ScanStep.noConfusion h
        · simp only [ScanStep.tok.injEq] at h
          rw [← h.1]
          exact ⟨(by decide : ("INT" : String) ≠ "INDENT"),
            (by decide : ("INT" : String) ≠ "DEDENT")⟩
      · split at h
        · -- identifier or keyword
          split at h
          · rename_i hmem
            simp only [ScanStep.tok.injEq] at h
            rw [← h.1]
            exact keywords_ne_indent _ hmem
          · simp only [ScanStep.tok.injEq] at h
            rw [← h.1]
            exact ⟨(by decide : ("IDENT" : String) ≠ "INDENT"),
              (by decide : ("IDENT" : String) ≠ "DEDENT")⟩
        · exact ScanStep.noConfusion h

theorem scanStep_tok_kind (lineNo : Nat) (c : Char) (cs : List Char) (idx : Nat)
    {t : Token} {rest : List Char} {idx' : Nat}
    (h : scanStep lineNo c cs idx = .tok t rest idx') :
    t.kind ≠ "INDENT" ∧ t.kind ≠ "DEDENT" := by
  simp only [scanStep] at h
  split at h
  · exact ScanStep.noConfusion h
  · split at h
    · exact ScanStep.noConfusion h
    · split at h
      · split at h
        · simp only [ScanStep.tok.injEq] at h
          rw [← h.1]
          exact ⟨two_char_string_ne c _ _ (by decide),
            two_char_string_ne c _ _ (by decide)⟩
        · exact scanStepOne_tok_kind lineNo c _ idx (idx + 1) h
      · exact scanStepOne_tok_kind lineNo c [] idx (idx + 1) h

theorem scanTokens_no_indent (lineNo : Nat) :
    ∀ (fuel : Nat) (cs : List Char) (idx : Nat) (toks : List Token),
      scanTokens lineNo fuel cs idx = .ok toks →
      countKind "INDENT" toks = 0 ∧ countKind "DEDENT" toks = 0 := by
  intro fuel
  induction fuel with
  | zero =>
    intro cs idx toks h
    simp [scanTokens] at h
  | succ n ih =>
    intro cs idx toks h
    cases cs with
    | nil =>
      simp only [scanTokens, Except.ok.injEq] at h
      subst h
      exact ⟨rfl, rfl⟩
    | cons c cs =>
      simp only [scanTokens] at h
      split at h
      · exact ih _ _ _ h
      · simp only [Except.ok.injEq] at h
        subst h
        exact ⟨rfl, rfl⟩
      · exact Except.noConfusion h
      · rename_i t rest' idx' hstep
        cases hmore : scanTokens lineNo n rest' idx' with
        | error msg => rw [hmore] at h; exact Except.noConfusion (by simpa only [except_error_bind] using h)
        | ok more =>
          rw [hmore] at h
          simp only [except_ok_bind, Except.ok.injEq] at h
          subst h
          have hk := scanStep_tok_kind lineNo c cs idx hstep
          have hmore' := ih _ _ _ hmore
          constructor
          · rw [countKind_cons_ne _ _ _ hk.1]
            exact hmore'.1
          · rw [countKind_cons_ne _ _ _ hk.2]
            exact hmore'.2

theorem countKind_cons_eq (kind : String) (t : Token) (toks : List Token)
    (h : t.kind = kind) : countKind kind (t :: toks) = countKind kind toks + 1 := by
  simp [countKind, List.filter_cons, h]

theorem countKind_indent_cons_newline (a b c d : Nat) (l : List Token) :
    countKind "INDENT"
      ((⟨"INDENT", none, a, b⟩ : Token) :: (l ++ [(⟨"NEWLINE", none, c, d⟩ : Token)])) =
      countKind "INDENT" l + 1 := by
  simp [countKind, List.filter_cons, List.filter_append]

theorem countKind_dedent_under_indent_cons_newline (a b c d : Nat) (l : List Token) :
    countKind "DEDENT"
      ((⟨"INDENT", none, a, b⟩ : Token) :: (l ++ [(⟨"NEWLINE", none, c, d⟩ : Token)])) =
      countKind "DEDENT" l := by
  simp [countKind, List.filter_cons, List.filter_append]

theorem popDedents_spec (spaceCount lineNo : Nat) :
    ∀ (stack : List Nat),
      countKind "INDENT" (popDedents spaceCount lineNo stack).2 = 0 ∧
      countKind "DEDENT" (popDedents spaceCount lineNo stack).2 =
        (popDedents spaceCount lineNo stack).2.length ∧
      stack.length = (popDedents spaceCount lineNo stack).1.length +
        (popDedents spaceCount lineNo stack).2.length ∧
      (stack.getLast? = some 0 →
        (popDedents spaceCount lineNo stack).1.getLast? = some 0) := by
  intro stack
  induction stack with
  | nil => simp [popDedents, countKind]
  | cons s ss ih =>
    obtain ⟨hI, hD, hlen, hlast⟩ := ih
    by_cases hlt : spaceCount < s
    · simp only [popDedents, if_pos hlt]
      refine ⟨?_, ?_, ?_, ?_⟩
      · rw [countKind_cons_ne _ _ _ ((by decide : ("DEDENT" : String) ≠ "INDENT"))]
        exact hI
      · rw [countKind_cons_eq "DEDENT" ⟨"DEDENT", none, lineNo, 1⟩
          (popDedents spaceCount lineNo ss).2 rfl]
        simp only [List.length_cons]
        omega
      · simp only [List.length_cons]
        omega
      · intro hlast0
        cases ss with
        | nil =>
          simp only [List.getLast?_singleton, Option.some.injEq] at hlast0
          omega
        | cons t ts =>
          rw [List.getLast?_cons_cons] at hlast0
          exact hlast hlast0
    · simp only [popDedents, if_neg hlt]
      exact ⟨rfl, rfl, by simp, fun h => h⟩

theorem processLine_spec (lineNo : Nat) (line : List Char) (stack : List Nat)
    {toks : List Token} {stack' : List Nat}
    (h : processLine lineNo line stack = .ok (toks, stack'))
    (h0 : stack.getLast? = some 0) :
    countKind "INDENT" toks + stack.length =
      countKind "DEDENT" toks + stack'.length ∧
    stack'.getLast? = some 0 := by
  have hnlI : ∀ (c : Nat), countKind "INDENT" [(⟨"NEWLINE", none, lineNo, c⟩ : Token)] = 0 :=
    fun _ => rfl
  have hnlD : ∀ (c : Nat), countKind "DEDENT" [(⟨"NEWLINE", none, lineNo, c⟩ : Token)] = 0 :=
    fun _ => rfl
  simp only [processLine] at h
  split at h
  · exact Except.noConfusion h
  · split at h
    · simp only [Except.ok.injEq, Prod.mk.injEq] at h
      obtain ⟨rfl, rfl⟩ := h
      exact ⟨by simp [countKind], h0⟩
    · split at h
      · -- INDENT
        cases hscan : scanTokens lineNo (((line.drop
            ((line.takeWhile (fun c => c = ' ')).length)).length) + 1)
            (line.drop ((line.takeWhile (fun c => c = ' ')).length))
            ((line.takeWhile (fun c => c = ' ')).length) with
        | error msg =>
          rw [hscan] at h
          exact Except.noConfusion (by simpa only [except_error_bind] using h)
        | ok scanned =>
          rw [hscan] at h
          simp only [except_ok_bind, Except.ok.injEq, Prod.mk.injEq] at h
          obtain ⟨rfl, rfl⟩ := h
          have hs := scanTokens_no_indent lineNo _ _ _ _ hscan
          constructor
          · rw [List.cons_append, countKind_indent_cons_newline,
              countKind_dedent_under_indent_cons_newline]
            simp only [List.length_cons]
            omega
          · cases stack with
            | nil => simp at h0
            | cons t ts =>
              rw [List.getLast?_cons_cons]
              exact h0
      · split at h
        · -- DEDENT path
          split at h
          · exact Except.noConfusion h
          · cases hscan : scanTokens lineNo (((line.drop
                ((line.takeWhile (fun c => c = ' ')).length)).length) + 1)
                (line.drop ((line.takeWhile (fun c => c = ' ')).length))
                ((line.takeWhile (fun c => c = ' ')).length) with
            | error msg =>
              rw [hscan] at h
              exact Except.noConfusion (by simpa only [except_error_bind] using h)
            | ok scanned =>
              rw [hscan] at h
              simp only [except_ok_bind, Except.ok.injEq, Prod.mk.injEq] at h
              obtain ⟨rfl, rfl⟩ := h
              have hs := scanTokens_no_indent lineNo _ _ _ _ hscan
              have hpd := popDedents_spec
                ((line.takeWhile (fun c => c = ' ')).length) lineNo stack
              constructor
              · rw [countKind_append, countKind_append, countKind_append,
                  countKind_append, hnlI, hnlD]
                omega
              · exact hpd.2.2.2 h0
        · -- equal indentation
          cases hscan : scanTokens lineNo (((line.drop
              ((line.takeWhile (fun c => c = ' ')).length)).length) + 1)
              (line.drop ((line.takeWhile (fun c => c = ' ')).length))
              ((line.takeWhile (fun c => c = ' ')).length) with
          | error msg =>
            rw [hscan] at h
            exact Except.noConfusion (by simpa only [except_error_bind] using h)
          | ok scanned =>
            rw [hscan] at h
            simp only [except_ok_bind, Except.ok.injEq, Prod.mk.injEq] at h
            obtain ⟨rfl, rfl⟩ := h
            have hs := scanTokens_no_indent lineNo _ _ _ _ hscan
            constructor
            · rw [countKind_append, countKind_append, hnlI, hnlD]
              omega
            · exact h0

theorem tokenizeLines_spec :
    ∀ (lines : List (List Char)) (lineNo : Nat) (stack : List Nat)
      (toks : List Token) (stack' : List Nat),
      tokenizeLines lines lineNo stack = .ok (toks, stack') →
      stack.getLast? = some 0 →
      countKind "INDENT" toks + stack.length =
        countKind "DEDENT" toks + stack'.length ∧
      stack'.getLast? = some 0 := by
  intro lines
  induction lines with
  | nil =>
    intro lineNo stack toks stack' h h0
    simp only [tokenizeLines, Except.ok.injEq, Prod.mk.injEq] at h
    obtain ⟨rfl, rfl⟩ := h
    exact ⟨by simp [countKind], h0⟩
  | cons line rest ih =>
    intro lineNo stack toks stack' h h0
    simp only [tokenizeLines] at h
    cases hline : processLine lineNo line stack with
    | error msg =>
      rw [hline] at h
      exact Except.noConfusion (by simpa only [except_error_bind] using h)
    | ok p1 =>
      obtain ⟨toks1, stack1⟩ := p1
      rw [hline] at h
      simp only [except_ok_bind] at h
      cases hrest : tokenizeLines rest (lineNo + 1) stack1 with
      | error msg =>
        rw [hrest] at h
        exact Except.noConfusion (by simpa only [except_error_bind] using h)
      | ok p2 =>
        obtain ⟨toks2, stack2⟩ := p2
        rw [hrest] at h
        simp only [except_ok_bind, Except.ok.injEq, Prod.mk.injEq] at h
        obtain ⟨rfl, rfl⟩ := h
        have h1 := processLine_spec lineNo line stack hline h0
        have h2 := ih _ _ _ _ hrest h1.2
        rw [countKind_append, countKind_append]
        exact ⟨by omega, h2.2⟩

theorem countKind_replicate_dedent (n : Nat) (lineNo col : Nat) :
    countKind "INDENT" (List.replicate n ⟨"DEDENT", none, lineNo, col⟩) = 0 ∧
    countKind "DEDENT" (List.replicate n ⟨"DEDENT", none, lineNo, col⟩) = n := by
  induction n with
  | zero => simp [countKind]
  | succ k ih =>
    rw [List.replicate_succ]
    constructor
    · rw [countKind_cons_ne _ _ _ ((by decide : ("DEDENT" : String) ≠ "INDENT"))]
      exact ih.1
    · rw [countKind_cons_eq "DEDENT" ⟨"DEDENT", none, lineNo, col⟩
        (List.replicate k ⟨"DEDENT", none, lineNo, col⟩) rfl, ih.2]

/-- **C8.**  For every source string on which tokenization succeeds, the
emitted token stream carries exactly as many INDENT as DEDENT tokens: each
indentation increase pushes one level and emits one INDENT, each decrease pops
levels emitting one DEDENT per level, and the end-of-input flush pops all
remaining levels. -/
theorem lexer_indent_dedent_balance (source : String) (toks : List Token)
    (h : lexTokenize source = .ok toks) :
    countKind "INDENT" toks = countKind "DEDENT" toks := by
  simp only [lexTokenize] at h
  cases hl : tokenizeLines (splitLines (normNewlines (stripBOM source.data))) 1 [0] with
  | error msg =>
    rw [hl] at h
    exact Except.noConfusion (by simpa only [except_error_bind] using h)
  | ok p =>
    obtain ⟨ltoks, stackF⟩ := p
    rw [hl] at h
    simp only [except_ok_bind, Except.ok.injEq] at h
    subst h
    have hspec := tokenizeLines_spec _ 1 [0] ltoks stackF hl (by simp)
    have hne : stackF ≠ [] := by
      intro habs
      rw [habs] at hspec
      simp at hspec
    have hlen : 1 ≤ stackF.length := by
      cases stackF with
      | nil => exact absurd rfl hne
      | cons a l => simp
    set eofLine := (splitLines (normNewlines (stripBOM source.data))).length + 1 with heof
    have hrep := countKind_replicate_dedent (stackF.length - 1) eofLine 1
    have heofTok : countKind "INDENT" [(⟨"EOF", none, eofLine, 1⟩ : Token)] = 0 ∧
        countKind "DEDENT" [(⟨"EOF", none, eofLine, 1⟩ : Token)] = 0 := by
      constructor <;> rfl
    have hbase : countKind "INDENT" ltoks + 1 = countKind "DEDENT" ltoks + stackF.length := by
      simpa using hspec.1
    split
    · rw [countKind_append, countKind_append, countKind_append, countKind_append,
        countKind_append, countKind_append]
      have hnl : countKind "INDENT" [(⟨"NEWLINE", none, eofLine, 1⟩ : Token)] = 0 ∧
          countKind "DEDENT" [(⟨"NEWLINE", none, eofLine, 1⟩ : Token)] = 0 := by
        constructor <;> rfl
      omega
    · rw [countKind_append, countKind_append, countKind_append, countKind_append]
      omega

/-- Witness for `lexer_indent_dedent_balance`: a concrete two-line program with
one indented block lexes successfully, and its stream is INDENT/DEDENT
balanced. -/
theorem lexer_indent_dedent_balance_witness :
    (lexTokenize "если истина:\n    печать(1)").isOk = true ∧
    (match lexTokenize "если истина:\n    печать(1)" with
      | .ok toks => countKind "INDENT" toks = countKind "DEDENT" toks
      | .error _ => False) := by
  refine ⟨by decide, ?_⟩
  cases h : lexTokenize "если истина:\n    печать(1)" with
  | error msg =>
    have hok : (lexTokenize "если истина:\n    печать(1)").isOk = true := by decide
    rw [h] at hok
    simp [Except.isOk, Except.toBool] at hok
  | ok toks =>
    exact lexer_indent_dedent_balance _ toks h

/- ===================================================================== -/
/-  The bytecode container (src/yasn/bc.py): encode_program / decode_program -/
/- ===================================================================== -/

/-- Scalar literal values the compiler stores as instruction arguments
(`None`, `bool`, `int`, `float`, `str`).  A float is carried as its `repr`
text, which is exactly the characters `json.dumps` writes for it and
`json.loads` reads back. -/
inductive BCVal where
  | bNull
  | bBool (b : Bool)
  | bInt (n : Int)
  | bFloat (text : String)
  | bStr (s : String)
deriving DecidableEq

/-- `Instruction` of bc.py. -/
structure Instruction where
  op : String
  args : List BCVal
deriving DecidableEq

/-- `FunctionBC` of bc.py. -/
structure FunctionBC where
  name : String
  params : List String
  local_count : Int
  instructions : List Instruction
deriving DecidableEq

/-- `ProgramBC` of bc.py; the `functions` dict is an association list in
insertion order. -/
structure ProgramBC where
  functions : List (String × FunctionBC)
  entry : FunctionBC
  global_count : Int
deriving DecidableEq

def obraceC : Char := Char.ofNat 123

def cbraceC : Char := Char.ofNat 125

def digitChar (d : Nat) : Char := Char.ofNat (48 + d)

def natDigitsAux : Nat → Nat → List Char → List Char
  | 0, _, acc => acc
  | fuel + 1, n, acc =>
    if n < 10 then digitChar n :: acc
    else natDigitsAux fuel (n / 10) (digitChar (n % 10) :: acc)

/-- Decimal digits of a nonnegative integer, most significant first. -/
def natDigits (n : Nat) : List Char := natDigitsAux (n + 1) n []

/-- The text `json.dumps` writes for a Python int. -/
def intDump (i : Int) : List Char :=
  if i < 0 then '-' :: natDigits i.natAbs else natDigits i.natAbs

def hexDigitChar (d : Nat) : Char :=
  if d < 10 then Char.ofNat (48 + d) else Char.ofNat (87 + d)

/-- One character under json's ESCAPE_DCT (`ensure_ascii=False`): quote,
backslash and the five shorthand controls get two-character escapes, the
remaining control characters get `\u00xx`, everything else is literal. -/
def escapeChar (c : Char) : List Char :=
  if c = '"' then ['\\', '"']
  else if c = '\\' then ['\\', '\\']
  else if c = '\x08' then ['\\', 'b']
  else if c = '\x09' then ['\\', 't']
  else if c = '\x0a' then ['\\', 'n']
  else if c = '\x0c' then ['\\', 'f']
  else if c = '\x0d' then ['\\', 'r']
  else if c.toNat < 32 then
    ['\\', 'u', '0', '0', hexDigitChar (c.toNat / 16), hexDigitChar (c.toNat % 16)]
  else [c]

/-- `json.dumps` of a string (`py_encode_basestring`, `ensure_ascii=False`). -/
def jstrDump (s : String) : List Char :=
  '"' :: (s.data.map escapeChar).join ++ ['"']

/-- JSON values as Python's json module builds them, with a float carried as
its source text. -/
inductive JVal where
  | jnull
  | jbool (b : Bool)
  | jint (n : Int)
  | jfloat (text : String)
  | jstr (s : String)
  | jarr (items : List JVal)
  | jobj (entries : List (String × JVal))

mutual
/-- `json.dumps(v, ensure_ascii=False, separators=(",", ":"))`. -/
def jdump : JVal → List Char
  | .jnull => ['n', 'u', 'l', 'l']
  | .jbool true => ['t', 'r', 'u', 'e']
  | .jbool false => ['f', 'a', 'l', 's', 'e']
  | .jint n => intDump n
  | .jfloat text => text.data
  | .jstr s => jstrDump s
  | .jarr items => '[' :: jdumpItems items ++ [']']
  | .jobj entries => obraceC :: jdumpEntries entries ++ [cbraceC]

def jdumpItems : List JVal → List Char
  | [] => []
  | x :: xs => jdump x ++ jdumpItemsRest xs

def jdumpItemsRest : List JVal → List Char
  | [] => []
  | x :: xs => ',' :: (jdump x ++ jdumpItemsRest xs)

def jdumpEntries : List (String × JVal) → List Char
  | [] => []
  | (k, v) :: xs => (jstrDump k ++ ':' :: jdump v) ++ jdumpEntriesRest xs

def jdumpEntriesRest : List (String × JVal) → List Char
  | [] => []
  | (k, v) :: xs => ',' :: ((jstrDump k ++ ':' :: jdump v) ++ jdumpEntriesRest xs)
end

/-- The integer part `(0|[1-9]\d*)` of json's NUMBER_RE, matched at the head:
the digits matched and the rest. -/
def matchIntPart : List Char → Option (List Char × List Char)
  | [] => none
  | c :: t =>
    if c = '0' then some (['0'], t)
    else if c.isDigit then some (c :: t.takeWhile Char.isDigit, t.dropWhile Char.isDigit)
    else none

/-- The optional fraction `(\.\d+)?` of NUMBER_RE. -/
def matchFrac : List Char → List Char × List Char
  | [] => ([], [])
  | c :: t =>
    if c = '.' then
      match t with
      | c2 :: _ =>
        if c2.isDigit then ('.' :: t.takeWhile Char.isDigit, t.dropWhile Char.isDigit)
        else ([], c :: t)
      | [] => ([], c :: t)
    else ([], c :: t)

/-- The optional exponent `([eE][-+]?\d+)?` of NUMBER_RE. -/
def matchExp : List Char → List Char × List Char
  | [] => ([], [])
  | e :: t =>
    if e = 'e' || e = 'E' then
      match t with
      | s :: t2 =>
        if s = '+' || s = '-' then
          match t2 with
          | c :: _ =>
            if c.isDigit then (e :: s :: t2.takeWhile Char.isDigit, t2.dropWhile Char.isDigit)
            else ([], e :: t)
          | [] => ([], e :: t)
        else if s.isDigit then (e :: t.takeWhile Char.isDigit, t.dropWhile Char.isDigit)
        else ([], e :: t)
      | [] => ([], e :: t)
    else ([], e :: t)

/-- The part of NUMBER_RE after the optional sign: integer part, optional
fraction, optional exponent. -/
def matchNumberBody (sgn cs1 : List Char) : Option (List Char × Bool × List Char) :=
  match matchIntPart cs1 with
  | none => none
  | some (ip, r1) =>
    let fr := matchFrac r1
    let ex := matchExp fr.2
    some (sgn ++ ip ++ fr.1 ++ ex.1, !fr.1.isEmpty || !ex.1.isEmpty, ex.2)

/-- json's NUMBER_RE matched at the head of the input: the full matched text,
whether a fraction or exponent made it a float, and the rest. -/
def matchNumber (cs : List Char) : Option (List Char × Bool × List Char) :=
  match cs with
  | [] => matchNumberBody [] []
  | c :: t => if c = '-' then matchNumberBody ['-'] t else matchNumberBody [] (c :: t)

/-- Float texts as `repr` of a Python float produces them and `json` reads
them back: one of the three non-finite constants, or a complete NUMBER_RE
match that carries a fraction or an exponent. -/
def FloatOk (s : String) : Bool :=
  s = "NaN" || s = "Infinity" || s = "-Infinity" ||
    (match matchNumber s.data with
     | some (text, isFloat, rest) => isFloat && rest.isEmpty && decide (text = s.data)
     | none => false)

/-- `int(text)` on an integer NUMBER_RE match (optional minus then digits). -/
def intOfNumText (text : List Char) : Int :=
  match text with
  | [] => (digitsVal [] : Int)
  | c :: t => if c = '-' then -(digitsVal t : Int) else (digitsVal (c :: t) : Int)

def hexVal (c : Char) : Option Nat :=
  if c.isDigit then some (c.toNat - 48)
  else if 'a' ≤ c && c ≤ 'f' then some (c.toNat - 87)
  else if 'A' ≤ c && c ≤ 'F' then some (c.toNat - 55)
  else none

def hex4 (a b c d : Char) : Option Nat := do
  let x ← hexVal a
  let y ← hexVal b
  let z ← hexVal c
  let w ← hexVal d
  pure (((x * 16 + y) * 16 + z) * 16 + w)

/-- `py_scanstring` (strict): the body of a string after its opening quote,
returning the decoded characters and the rest after the closing quote.
Escapes are the eight shorthands and `\uXXXX` with surrogate pairs combined;
a lone surrogate, which CPython would keep as an unpaired code unit, has no
scalar-value representation here and is rejected (the encoder never writes
one). -/
def scanstring : Nat → List Char → Option (List Char × List Char)
  | 0, _ => none
  | fuel + 1, cs =>
    match cs with
    | [] => none
    | c :: rest =>
      if c = '"' then some ([], rest)
      else if c = '\\' then
        match rest with
        | [] => none
        | e :: r2 =>
          if e = 'u' then
            match r2 with
            | a :: b :: c2 :: d :: r3 =>
              match hex4 a b c2 d with
              | none => none
              | some n =>
                if 55296 ≤ n ∧ n ≤ 56319 then
                  match r3 with
                  | u1 :: u2 :: a2 :: b2 :: c3 :: d2 :: r4 =>
                    if u1 = '\\' ∧ u2 = 'u' then
                      match hex4 a2 b2 c3 d2 with
                      | some n2 =>
                        if 56320 ≤ n2 ∧ n2 ≤ 57343 then
                          (scanstring fuel r4).map
                            (fun p =>
                              (Char.ofNat (65536 + (n - 55296) * 1024 + (n2 - 56320)) :: p.1,
                                p.2))
                        else none
                      | none => none
                    else none
                  | _ => none
                else if 56320 ≤ n ∧ n ≤ 57343 then none
                else (scanstring fuel r3).map (fun p => (Char.ofNat n :: p.1, p.2))
            | _ => none
          else
            let c? : Option Char :=
              if e = '"' then some '"'
              else if e = '\\' then some '\\'
              else if e = '/' then some '/'
              else if e = 'b' then some '\x08'
              else if e = 'f' then some '\x0c'
              else if e = 'n' then some '\x0a'
              else if e = 'r' then some '\x0d'
              else if e = 't' then some '\x09'
              else none
            match c? with
            | some cc => (scanstring fuel r2).map (fun p => (cc :: p.1, p.2))
            | none => none
      else if c.toNat < 32 then none
      else (scanstring fuel rest).map (fun p => (c :: p.1, p.2))

def isJsonWs (c : Char) : Bool := c = ' ' || c = '\t' || c = '\n' || c = '\r'

/-- The WHITESPACE regex of json.decoder. -/
def skipWs (cs : List Char) : List Char := cs.dropWhile isJsonWs

/-- One assignment into an insertion-ordered dict. -/
def jsetKey : List (String × JVal) → String → JVal → List (String × JVal)
  | [], k, v => [(k, v)]
  | (k0, v0) :: rest, k, v =>
    if k0 = k then (k0, v) :: rest else (k0, v0) :: jsetKey rest k v

/-- `dict(pairs)`: first occurrence fixes a key's position, the last its
value. -/
def dictOfPairs (ps : List (String × JVal)) : List (String × JVal) :=
  ps.foldl (fun acc kv => jsetKey acc kv.1 kv.2) []

mutual
/-- `_scan_once` of json.scanner (pure-python scanner): dispatch on the head
character to string, object, array, the three literals, a NUMBER_RE number
(int or float), or the three non-finite float constants. -/
def scanOnce : Nat → List Char → Option (JVal × List Char)
  | 0, _ => none
  | fuel + 1, cs =>
    match cs with
    | [] => none
    | c :: t =>
      if c = '"' then (scanstring t.length t).map (fun p => (JVal.jstr ⟨p.1⟩, p.2))
      else if c = obraceC then parseObj fuel t
      else if c = '[' then parseArr fuel t
      else if c = 'n' ∧ t.take 3 = ['u', 'l', 'l'] then some (JVal.jnull, t.drop 3)
      else if c = 't' ∧ t.take 3 = ['r', 'u', 'e'] then some (JVal.jbool true, t.drop 3)
      else if c = 'f' ∧ t.take 4 = ['a', 'l', 's', 'e'] then some (JVal.jbool false, t.drop 4)
      else
        match matchNumber (c :: t) with
        | some (text, isFloat, rest) =>
          if isFloat then some (JVal.jfloat ⟨text⟩, rest)
          else some (JVal.jint (intOfNumText text), rest)
        | none =>
          if c = 'N' ∧ t.take 2 = ['a', 'N'] then some (JVal.jfloat "NaN", t.drop 2)
          else if c = 'I' ∧ t.take 7 = ['n', 'f', 'i', 'n', 'i', 't', 'y'] then
            some (JVal.jfloat "Infinity", t.drop 7)
          else if c = '-' ∧ t.take 8 = ['I', 'n', 'f', 'i', 'n', 'i', 't', 'y'] then
            some (JVal.jfloat "-Infinity", t.drop 8)
          else none

/-- `JSONArray` after the opening bracket. -/
def parseArr : Nat → List Char → Option (JVal × List Char)
  | 0, _ => none
  | fuel + 1, cs =>
    match skipWs cs with
    | [] => parseArrLoop fuel [] []
    | c :: t => if c = ']' then some (JVal.jarr [], t) else parseArrLoop fuel [] (c :: t)

/-- The element loop of `JSONArray`: parse a value, then `]` ends, `,` (with
whitespace skipped) continues, anything else is a delimiter error. -/
def parseArrLoop : Nat → List JVal → List Char → Option (JVal × List Char)
  | 0, _, _ => none
  | fuel + 1, acc, cs =>
    match scanOnce fuel cs with
    | none => none
    | some (v, r1) =>
      match skipWs r1 with
      | ']' :: r2 => some (JVal.jarr (acc ++ [v]), r2)
      | ',' :: r2 => parseArrLoop fuel (acc ++ [v]) (skipWs r2)
      | _ => none

/-- `JSONObject` after the opening brace: `}` makes the empty dict, otherwise
a quote must open the first property name. -/
def parseObj : Nat → List Char → Option (JVal × List Char)
  | 0, _ => none
  | fuel + 1, cs =>
    match skipWs cs with
    | [] => none
    | c :: t =>
      if c = cbraceC then some (JVal.jobj [], t)
      else if c = '"' then parseObjLoop fuel [] t
      else none

/-- The member loop of `JSONObject`, entered just after a property name's
opening quote: scan the key, expect `:`, parse the value, then `}` closes
(building `dict(pairs)`) and `,` continues at the next property name. -/
def parseObjLoop : Nat → List (String × JVal) → List Char → Option (JVal × List Char)
  | 0, _, _ => none
  | fuel + 1, acc, cs =>
    match scanstring cs.length cs with
    | none => none
    | some (kcs, r1) =>
      match skipWs r1 with
      | ':' :: r2 =>
        match scanOnce fuel (skipWs r2) with
        | none => none
        | some (v, r3) =>
          match skipWs r3 with
          | [] => none
          | c :: r4 =>
            if c = cbraceC then
              some (JVal.jobj (dictOfPairs (acc ++ [((⟨kcs⟩ : String), v)])), r4)
            else if c = ',' then
              match skipWs r4 with
              | '"' :: r5 => parseObjLoop fuel (acc ++ [((⟨kcs⟩ : String), v)]) r5
              | _ => none
            else none
      | _ => none
end

/-- `json.loads`: skip leading whitespace, scan one value, and reject any
trailing data after more whitespace.  CPython's scanner recursion is bounded
by the input, so a fuel of twice the length dominates it. -/
def jloads (cs : List Char) : Option JVal :=
  match scanOnce (2 * cs.length + 2) (skipWs cs) with
  | some (v, rest) => if (skipWs rest).isEmpty then some v else none
  | none => none

/-- UTF-8 bytes of one scalar value (`str.encode("utf-8")`, per character). -/
def utf8EncodeChar (c : Char) : List Nat :=
  let n := c.toNat
  if n < 128 then [n]
  else if n < 2048 then [192 + n / 64, 128 + n % 64]
  else if n < 65536 then [224 + n / 4096, 128 + n / 64 % 64, 128 + n % 64]
  else [240 + n / 262144, 128 + n / 4096 % 64, 128 + n / 64 % 64, 128 + n % 64]

def utf8Encode (s : List Char) : List Nat := (s.map utf8EncodeChar).join

/-- Strict UTF-8 decoding (`bytes.decode("utf-8")`): continuation bytes are
range-checked and overlong forms, surrogates and values beyond U+10FFFF are
rejected. -/
def utf8Decode : Nat → List Nat → Option (List Char)
  | _, [] => some []
  | 0, _ => none
  | fuel + 1, b :: bs =>
    if b < 128 then (utf8Decode fuel bs).map (fun l => Char.ofNat b :: l)
    else if b < 194 then none
    else if b < 224 then
      match bs with
      | b2 :: bs2 =>
        if 128 ≤ b2 ∧ b2 < 192 then
          (utf8Decode fuel bs2).map (fun l => Char.ofNat ((b - 192) * 64 + (b2 - 128)) :: l)
        else none
      | [] => none
    else if b < 240 then
      match bs with
      | b2 :: b3 :: bs3 =>
        if (128 ≤ b2 ∧ b2 < 192) ∧ (128 ≤ b3 ∧ b3 < 192) then
          let n := (b - 224) * 4096 + (b2 - 128) * 64 + (b3 - 128)
          if n < 2048 ∨ (55296 ≤ n ∧ n < 57344) then none
          else (utf8Decode fuel bs3).map (fun l => Char.ofNat n :: l)
        else none
      | _ => none
    else if b < 245 then
      match bs with
      | b2 :: b3 :: b4 :: bs4 =>
        if (128 ≤ b2 ∧ b2 < 192) ∧ (128 ≤ b3 ∧ b3 < 192) ∧ (128 ≤ b4 ∧ b4 < 192) then
          let n := (b - 240) * 262144 + (b2 - 128) * 4096 + (b3 - 128) * 64 + (b4 - 128)
          if n < 65536 ∨ 1114112 ≤ n then none
          else (utf8Decode fuel bs4).map (fun l => Char.ofNat n :: l)
        else none
      | _ => none
    else none

/-- `b"YASNYBC1"`. -/
def MAGIC : List Nat := [89, 65, 83, 78, 89, 66, 67, 49]

/-- `struct.pack("<I", n)`; the caller guards the `n < 2^32` range `struct`
enforces. -/
def pack32 (n : Nat) : List Nat :=
  [n % 256, n / 256 % 256, n / 65536 % 256, n / 16777216 % 256]

/-- `struct.unpack("<I", ...)`. -/
def unpack32 (a b c d : Nat) : Nat := a + 256 * b + 65536 * c + 16777216 * d

def bcValToJ : BCVal → JVal
  | .bNull => .jnull
  | .bBool b => .jbool b
  | .bInt n => .jint n
  | .bFloat t => .jfloat t
  | .bStr s => .jstr s

/-- The instruction dicts inside `_encode_function`. -/
def _encode_instruction (i : Instruction) : JVal :=
  .jobj [("op", .jstr i.op), ("args", .jarr (i.args.map bcValToJ))]

/-- `_encode_function` of bc.py. -/
def _encode_function (f : FunctionBC) : JVal :=
  .jobj [("name", .jstr f.name),
         ("params", .jarr (f.params.map JVal.jstr)),
         ("local_count", .jint f.local_count),
         ("instructions", .jarr (f.instructions.map _encode_instruction))]

/-- The payload dict of `encode_program`. -/
def programPayload (p : ProgramBC) : JVal :=
  .jobj [("functions", .jobj (p.functions.map (fun nf => (nf.1, _encode_function nf.2)))),
         ("entry", _encode_function p.entry),
         ("global_count", .jint p.global_count)]

/-- `encode_program`: the MAGIC signature, the payload's byte length packed
little-endian, and the UTF-8 JSON payload.  `struct.pack("<I", ...)` raises
`struct.error` from 2^32 on, so encoding is partial. -/
def encode_program (p : ProgramBC) : Option (List Nat) :=
  let raw := utf8Encode (jdump (programPayload p))
  if raw.length < 4294967296 then some (MAGIC ++ (pack32 raw.length ++ raw)) else none

def jToStr : JVal → Option String
  | .jstr s => some s
  | _ => none

/-- Instruction arguments read back from JSON; an array or object argument,
which no encoded program contains, is rejected. -/
def jToBCVal : JVal → Option BCVal
  | .jnull => some .bNull
  | .jbool b => some (.bBool b)
  | .jint n => some (.bInt n)
  | .jfloat t => some (.bFloat t)
  | .jstr s => some (.bStr s)
  | .jarr _ => none
  | .jobj _ => none

def optMapM {α β : Type} (g : α → Option β) : List α → Option (List β)
  | [] => some []
  | x :: xs => do
    let y ← g x
    let ys ← optMapM g xs
    pure (y :: ys)

/-- One `Instruction(op=i["op"], args=list(i["args"]))` of `_decode_function`. -/
def _decode_instruction (v : JVal) : Option Instruction :=
  match v with
  | .jobj kvs => do
    let opV ← alookup kvs "op"
    let op ← jToStr opV
    let argsV ← alookup kvs "args"
    match argsV with
    | .jarr items => do
      let args ← optMapM jToBCVal items
      pure ⟨op, args⟩
    | _ => none
  | _ => none

/-- `_decode_function` of bc.py.  Shape errors CPython would surface as
uncaught `KeyError`/`TypeError` (impossible on encoder output) are `none`. -/
def _decode_function (v : JVal) : Option FunctionBC :=
  match v with
  | .jobj kvs => do
    let instrsV ← alookup kvs "instructions"
    let instrs ← (match instrsV with
      | .jarr items => optMapM _decode_instruction items
      | _ => none)
    let nameV ← alookup kvs "name"
    let name ← jToStr nameV
    let paramsV ← alookup kvs "params"
    let params ← (match paramsV with
      | .jarr items => optMapM jToStr items
      | _ => none)
    let lcV ← alookup kvs "local_count"
    let lc ← (match lcV with
      | .jint n => some n
      | _ => none)
    pure ⟨name, params, lc, instrs⟩
  | _ => none

/-- The dict-to-`ProgramBC` step of `decode_program` (`obj["functions"]`,
`obj["entry"]`, `obj.get("global_count", 0)`). -/
def decodeProgramObj (v : JVal) : Option ProgramBC :=
  match v with
  | .jobj kvs => do
    let fnsV ← alookup kvs "functions"
    let fns ← (match fnsV with
      | .jobj fkvs =>
        optMapM (fun kv => (_decode_function kv.2).map (fun f => (kv.1, f))) fkvs
      | _ => none)
    let entryV ← alookup kvs "entry"
    let entry ← _decode_function entryV
    let gc ← (match alookup kvs "global_count" with
      | some (.jint n) => some n
      | none => some 0
      | some _ => none)
    pure ⟨fns, entry, gc⟩
  | _ => none

/-- `decode_program` of bc.py: length and MAGIC checks, the packed payload
length against the actual payload, then UTF-8 and JSON decoding. -/
def decode_program (blob : List Nat) : Except String ProgramBC :=
  if blob.length < 12 then .error "Файл байткода слишком короткий"
  else if blob.take 8 ≠ MAGIC then .error "Неверная сигнатура файла .ybc"
  else
    match blob.drop 8 with
    | a :: b :: c :: d :: payload =>
      if unpack32 a b c d ≠ payload.length then
        .error "Некорректная длина полезной нагрузки .ybc"
      else
        match utf8Decode payload.length payload with
        | none => .error "Не удалось разобрать JSON байткода"
        | some text =>
          match jloads text with
          | none => .error "Не удалось разобрать JSON байткода"
          | some obj =>
            match decodeProgramObj obj with
            | some p => .ok p
            | none => .error "Не удалось разобрать JSON байткода"
    | _ => .error "Файл байткода слишком короткий"

mutual
/-- JSON values as the encoder produces them: float texts have `repr` shape
and object keys are distinct (they come from Python dicts). -/
def jwf : JVal → Bool
  | .jfloat t => FloatOk t
  | .jarr xs => jwfList xs
  | .jobj kvs => decide ((kvs.map Prod.fst).Nodup) && jwfEntries kvs
  | _ => true

def jwfList : List JVal → Bool
  | [] => true
  | x :: xs => jwf x && jwfList xs

def jwfEntries : List (String × JVal) → Bool
  | [] => true
  | (_, v) :: xs => jwf v && jwfEntries xs
end

def bcValWF : BCVal → Bool
  | .bFloat t => FloatOk t
  | _ => true

def instrWF (i : Instruction) : Bool := i.args.all bcValWF

def funcWF (f : FunctionBC) : Bool := f.instructions.all instrWF

/-- A program record as the compiler hands it to `encode_program`: the
`functions` dict has distinct keys and every float literal carries its
`repr` text. -/
def programWF (p : ProgramBC) : Bool :=
  decide ((p.functions.map Prod.fst).Nodup) &&
    p.functions.all (fun nf => funcWF nf.2) && funcWF p.entry

mutual
/-- Fuel consumed by the scanner on a value's dump (nesting plus item
count). -/
def jweight : JVal → Nat
  | .jarr xs => jweightList xs + 2
  | .jobj kvs => jweightEntries kvs + 2
  | _ => 1

def jweightList : List JVal → Nat
  | [] => 0
  | x :: xs => jweight x + jweightList xs + 1

def jweightEntries : List (String × JVal) → Nat
  | [] => 0
  | (_, v) :: xs => jweight v + jweightEntries xs + 1
end

theorem digitChar_toNat : ∀ d, d < 10 → (digitChar d).toNat = 48 + d := by decide

theorem digitChar_isDigit : ∀ d, d < 10 → (digitChar d).isDigit = true := by decide

theorem digitChar_ne_zero : ∀ d, d < 10 → 0 < d → digitChar d ≠ '0' := by decide

theorem natDigitsAux_acc : ∀ fuel n acc,
    natDigitsAux fuel n acc = natDigitsAux fuel n [] ++ acc := by
  intro fuel
  induction fuel with
  | zero => intro n acc; simp [natDigitsAux]
  | succ f ih =>
    intro n acc
    by_cases h : n < 10
    · simp [natDigitsAux, h]
    · simp only [natDigitsAux, if_neg h]
      rw [ih (n / 10) (digitChar (n % 10) :: acc), ih (n / 10) [digitChar (n % 10)]]
      simp

theorem natDigitsAux_fuel : ∀ f1 f2 n, n < f1 → n < f2 →
    natDigitsAux f1 n [] = natDigitsAux f2 n [] := by
  intro f1
  induction f1 with
  | zero => intro f2 n h; omega
  | succ f ih =>
    intro f2 n h1 h2
    cases f2 with
    | zero => omega
    | succ f2' =>
      by_cases h : n < 10
      · simp [natDigitsAux, h]
      · simp only [natDigitsAux, if_neg h]
        rw [natDigitsAux_acc f, natDigitsAux_acc f2']
        have hlt : n / 10 < n := Nat.div_lt_self (by omega) (by omega)
        rw [ih f2' (n / 10) (by omega) (by omega)]

theorem natDigits_succ (n : Nat) (h : 10 ≤ n) :
    natDigits n = natDigits (n / 10) ++ [digitChar (n % 10)] := by
  have h1 : natDigits n = natDigitsAux n (n / 10) [digitChar (n % 10)] := by
    simp only [natDigits, natDigitsAux, if_neg (by omega : ¬ n < 10)]
  rw [h1, natDigitsAux_acc,
    natDigitsAux_fuel n (n / 10 + 1) (n / 10)
      (Nat.div_lt_self (by omega) (by omega)) (Nat.lt_succ_self _)]
  rfl

theorem natDigits_spec : ∀ n : Nat,
    natDigits n ≠ [] ∧
    (∀ c ∈ natDigits n, c.isDigit = true) ∧
    (∀ a : Nat,
      (natDigits n).foldl (fun acc c => acc * 10 + (c.toNat - '0'.toNat)) a =
        a * 10 ^ (natDigits n).length + n) ∧
    (n = 0 → natDigits n = ['0']) ∧
    (0 < n → ∃ c cs, natDigits n = c :: cs ∧ c.isDigit = true ∧ c ≠ '0') := by
  intro n
  induction n using Nat.strong_induction_on with
  | _ n ih =>
    by_cases h : n < 10
    · have hd : natDigits n = [digitChar n] := by
        simp [natDigits, natDigitsAux, h]
      refine ⟨by simp [hd], ?_, ?_, ?_, ?_⟩
      · intro c hc
        rw [hd] at hc; simp at hc; subst hc
        exact digitChar_isDigit n h
      · intro a
        rw [hd]
        simp [List.foldl, digitChar_toNat n h] <;> omega
      · intro h0; subst h0; rw [hd]; rfl
      · intro hpos
        exact ⟨digitChar n, [], hd, digitChar_isDigit n h, digitChar_ne_zero n h hpos⟩
    · rw [natDigits_succ n (by omega)]
      obtain ⟨hne, hdig, hfold, _, hpos⟩ := ih (n / 10) (Nat.div_lt_self (by omega) (by omega))
      have hm : n % 10 < 10 := Nat.mod_lt _ (by omega)
      refine ⟨by simp, ?_, ?_, by omega, ?_⟩
      · intro c hc
        rw [List.mem_append] at hc
        rcases hc with hc | hc
        · exact hdig c hc
        · simp at hc; subst hc; exact digitChar_isDigit _ hm
      · intro a
        rw [List.foldl_append, hfold a]
        have h1 : List.foldl (fun acc c => acc * 10 + (c.toNat - '0'.toNat))
            (a * 10 ^ (natDigits (n / 10)).length + n / 10) [digitChar (n % 10)] =
            (a * 10 ^ (natDigits (n / 10)).length + n / 10) * 10 + n % 10 := by
          simp [List.foldl, digitChar_toNat _ hm] <;> omega
        rw [h1]
        have h2 : (natDigits (n / 10) ++ [digitChar (n % 10)]).length =
            (natDigits (n / 10)).length + 1 := by simp
        rw [h2, pow_succ]
        have hdm : n / 10 * 10 + n % 10 = n := by omega
        calc (a * 10 ^ (natDigits (n / 10)).length + n / 10) * 10 + n % 10
            = a * (10 ^ (natDigits (n / 10)).length * 10) + (n / 10 * 10 + n % 10) := by ring
          _ = a * (10 ^ (natDigits (n / 10)).length * 10) + n := by rw [hdm]
      · intro _
        obtain ⟨c, cs, hcs, hcd, hc0⟩ := hpos (Nat.div_pos (by omega) (by omega))
        exact ⟨c, cs ++ [digitChar (n % 10)], by rw [hcs]; rfl, hcd, hc0⟩

theorem digitsVal_natDigits (n : Nat) : digitsVal (natDigits n) = n := by
  have := (natDigits_spec n).2.2.1 0
  simpa [digitsVal] using this

theorem takeWhile_append_all {p : Char → Bool} :
    ∀ (ds rest : List Char), (∀ c ∈ ds, p c = true) →
      (∀ c ∈ rest.head?, p c = false) →
      (ds ++ rest).takeWhile p = ds ∧ (ds ++ rest).dropWhile p = rest := by
  intro ds
  induction ds with
  | nil =>
    intro rest _ hr
    cases rest with
    | nil => simp
    | cons r rs =>
      have hpr : p r = false := hr r (by simp)
      simp [List.takeWhile_cons, List.dropWhile_cons, hpr]
  | cons d ds ih =>
    intro rest hall hr
    have hd : p d = true := hall d (by simp)
    have hih := ih rest (fun c hc => hall c (by simp [hc])) hr
    simp [List.takeWhile_cons, List.dropWhile_cons, hd, hih.1, hih.2]

theorem dropWhile_head_false {p : Char → Bool} :
    ∀ (l : List Char), ∀ c ∈ (l.dropWhile p).head?, p c = false := by
  intro l
  induction l with
  | nil => simp
  | cons a l ih =>
    intro c hc
    by_cases h : p a = true
    · rw [List.dropWhile_cons_of_pos h] at hc; exact ih c hc
    · rw [List.dropWhile_cons_of_neg h] at hc
      simp at hc
      subst hc
      simpa using h

/-- Characters that may legally follow a complete scanned value in the
encoder's output: end of input, an item comma, a closing bracket or a
closing brace. -/
def delimOk (cs : List Char) : Bool :=
  match cs with
  | [] => true
  | c :: _ => c = ',' || c = ']' || c = cbraceC

theorem delim_facts (cs : List Char) (h : delimOk cs = true) :
    skipWs cs = cs ∧
    (∀ c ∈ cs.head?, c.isDigit = false ∧ c ≠ '.' ∧ c ≠ 'e' ∧ c ≠ 'E') ∧
    matchFrac cs = ([], cs) ∧ matchExp cs = ([], cs) := by
  cases cs with
  | nil => exact ⟨rfl, by simp, rfl, rfl⟩
  | cons c t =>
    simp [delimOk, cbraceC] at h
    rcases h with (h | h) | h <;> subst h <;>
      exact ⟨rfl, fun x hx => by simp at hx; subst hx; refine ⟨by decide, by decide, by decide, by decide⟩, rfl, rfl⟩

theorem toNat_ne {c d : Char} (h : c.toNat ≠ d.toNat) : c ≠ d := fun he => h (by rw [he])

theorem isDigit_bounds (c : Char) (h : c.isDigit = true) : 48 ≤ c.toNat ∧ c.toNat ≤ 57 := by
  simp [Char.isDigit] at h
  exact h

theorem natDigits_shape (n : Nat) :
    ∃ c cs, natDigits n = c :: cs ∧ c.isDigit = true ∧ c ≠ '-' ∧
      (0 < n → c ≠ '0') ∧ (∀ x ∈ natDigits n, x.isDigit = true) := by
  obtain ⟨hne, hdig, _, hzero, hpos⟩ := natDigits_spec n
  rcases Nat.eq_zero_or_pos n with h0 | h0
  · refine ⟨'0', [], by rw [hzero h0], by decide, by decide, by intro hn; omega, hdig⟩
  · obtain ⟨c, cs, hcs, hcd, hc0⟩ := hpos h0
    have hb := isDigit_bounds c hcd
    refine ⟨c, cs, hcs, hcd, toNat_ne ?_, fun _ => hc0, hdig⟩
    have h45 : ('-' : Char).toNat = 45 := rfl
    omega

theorem matchIntPart_natDigits (n : Nat) (rest : List Char)
    (hrest : ∀ c ∈ rest.head?, c.isDigit = false) :
    matchIntPart (natDigits n ++ rest) = some (natDigits n, rest) := by
  rcases Nat.eq_zero_or_pos n with h0 | h0
  · rw [(natDigits_spec n).2.2.2.1 h0]
    simp [matchIntPart]
  · obtain ⟨c, cs, hcs, hcd, _, hc0, hall⟩ := natDigits_shape n
    have hcs_dig : ∀ x ∈ cs, x.isDigit = true := fun x hx =>
      hall x (by rw [hcs]; exact List.mem_cons_of_mem _ hx)
    obtain ⟨ht, hd⟩ := takeWhile_append_all cs rest hcs_dig hrest
    rw [hcs, List.cons_append]
    simp [matchIntPart, hc0 h0, hcd, ht, hd]

theorem matchNumber_intDump (i : Int) (rest : List Char) (hrest : delimOk rest = true) :
    matchNumber (intDump i ++ rest) = some (intDump i, false, rest) := by
  obtain ⟨_, hdr, hfr, hex⟩ := delim_facts rest hrest
  have hdr1 : ∀ c ∈ rest.head?, c.isDigit = false := fun c hc => (hdr c hc).1
  by_cases hi : i < 0
  · rw [intDump, if_pos hi, List.cons_append]
    have h1 : matchNumber ('-' :: (natDigits i.natAbs ++ rest)) =
        matchNumberBody ['-'] (natDigits i.natAbs ++ rest) := by
      simp [matchNumber]
    rw [h1, matchNumberBody, matchIntPart_natDigits i.natAbs rest hdr1]
    simp [hfr, hex, intDump, if_pos hi]
  · rw [intDump, if_neg hi]
    obtain ⟨c, cs, hcs, hcd, hcm, _, _⟩ := natDigits_shape i.natAbs
    have h1 : matchNumber (natDigits i.natAbs ++ rest) =
        matchNumberBody [] (natDigits i.natAbs ++ rest) := by
      rw [hcs, List.cons_append]
      simp [matchNumber, hcm]
    rw [h1, matchNumberBody, matchIntPart_natDigits i.natAbs rest hdr1]
    simp [hfr, hex]

theorem intOfNumText_intDump (i : Int) : intOfNumText (intDump i) = i := by
  by_cases hi : i < 0
  · rw [intDump, if_pos hi]
    have h1 : intOfNumText ('-' :: natDigits i.natAbs) =
        -(digitsVal (natDigits i.natAbs) : Int) := by
      simp [intOfNumText]
    rw [h1, digitsVal_natDigits]
    omega
  · rw [intDump, if_neg hi]
    obtain ⟨c, cs, hcs, _, hcm, _, _⟩ := natDigits_shape i.natAbs
    have h1 : intOfNumText (c :: cs) = (digitsVal (c :: cs) : Int) := by
      simp [intOfNumText, hcm]
    rw [hcs, h1, ← hcs, digitsVal_natDigits]
    omega

theorem matchIntPart_inv {cs ip r1 : List Char} (h : matchIntPart cs = some (ip, r1)) :
    (ip = ['0'] ∧ cs = '0' :: r1) ∨
      (∃ c t, cs = c :: t ∧ c ≠ '0' ∧ c.isDigit = true ∧
        ip = c :: t.takeWhile Char.isDigit ∧ r1 = t.dropWhile Char.isDigit) := by
  cases cs with
  | nil => simp [matchIntPart] at h
  | cons c t =>
    by_cases hc : c = '0'
    · subst hc
      simp only [matchIntPart, if_pos rfl, Option.some.injEq, Prod.mk.injEq] at h
      rcases h with ⟨rfl, rfl⟩
      exact Or.inl ⟨rfl, rfl⟩
    · by_cases hd : c.isDigit = true
      · simp only [matchIntPart, if_neg hc, if_pos hd, Option.some.injEq, Prod.mk.injEq] at h
        rcases h with ⟨rfl, rfl⟩
        exact Or.inr ⟨c, t, rfl, hc, hd, rfl, rfl⟩
      · simp [matchIntPart, hc, hd] at h

theorem matchIntPart_replay {cs ip r1 : List Char} (h : matchIntPart cs = some (ip, r1))
    (X : List Char) (hX : ∀ c ∈ X.head?, c.isDigit = false) :
    matchIntPart (ip ++ X) = some (ip, X) := by
  rcases matchIntPart_inv h with ⟨hip, _⟩ | ⟨c, t, _, hc0, hcd, hip, _⟩
  · subst hip
    simp [matchIntPart]
  · subst hip
    have htw : ∀ x ∈ t.takeWhile Char.isDigit, x.isDigit = true := fun x hx =>
      List.mem_takeWhile_imp hx
    obtain ⟨ht, hd⟩ := takeWhile_append_all _ X htw hX
    rw [List.cons_append]
    simp [matchIntPart, hc0, hcd, ht, hd]

theorem matchFrac_inv {r1 fp r2 : List Char} (h : matchFrac r1 = (fp, r2)) :
    (fp = [] ∧ r2 = r1) ∨
      (∃ t, r1 = '.' :: t ∧ (∃ c ∈ t.head?, c.isDigit = true) ∧
        fp = '.' :: t.takeWhile Char.isDigit ∧ r2 = t.dropWhile Char.isDigit) := by
  cases r1 with
  | nil =>
    simp only [matchFrac, Prod.mk.injEq] at h
    rcases h with ⟨rfl, rfl⟩
    exact Or.inl ⟨rfl, rfl⟩
  | cons c t =>
    by_cases hc : c = '.'
    · subst hc
      cases t with
      | nil =>
        simp only [matchFrac, if_pos rfl, Prod.mk.injEq] at h
        rcases h with ⟨rfl, rfl⟩
        exact Or.inl ⟨rfl, rfl⟩
      | cons c2 t2 =>
        by_cases hd : c2.isDigit = true
        · simp only [matchFrac, if_pos rfl, if_pos hd, Prod.mk.injEq] at h
          rcases h with ⟨rfl, rfl⟩
          exact Or.inr ⟨c2 :: t2, rfl, ⟨c2, by simp, hd⟩, rfl, rfl⟩
        · simp only [matchFrac, if_pos rfl, if_neg hd, Prod.mk.injEq] at h
          rcases h with ⟨rfl, rfl⟩
          exact Or.inl ⟨rfl, rfl⟩
    · simp only [matchFrac, if_neg hc, Prod.mk.injEq] at h
      rcases h with ⟨rfl, rfl⟩
      exact Or.inl ⟨rfl, rfl⟩

theorem matchExp_inv {r2 ep r3 : List Char} (h : matchExp r2 = (ep, r3)) :
    (ep = [] ∧ r3 = r2) ∨
      (∃ e t, r2 = e :: t ∧ (e = 'e' ∨ e = 'E') ∧
        ((∃ s t2, t = s :: t2 ∧ (s = '+' ∨ s = '-') ∧ (∃ c ∈ t2.head?, c.isDigit = true) ∧
            ep = e :: s :: t2.takeWhile Char.isDigit ∧ r3 = t2.dropWhile Char.isDigit) ∨
          ((∃ c ∈ t.head?, c.isDigit = true ∧ ¬(c = '+' ∨ c = '-')) ∧
            ep = e :: t.takeWhile Char.isDigit ∧ r3 = t.dropWhile Char.isDigit))) := by
  cases r2 with
  | nil =>
    simp only [matchExp, Prod.mk.injEq] at h
    rcases h with ⟨rfl, rfl⟩
    exact Or.inl ⟨rfl, rfl⟩
  | cons e t =>
    by_cases he : (e = 'e' || e = 'E') = true
    · cases t with
      | nil =>
        simp only [matchExp, if_pos he, Prod.mk.injEq] at h
        rcases h with ⟨rfl, rfl⟩
        exact Or.inl ⟨rfl, rfl⟩
      | cons s t2 =>
        by_cases hs : (s = '+' || s = '-') = true
        · cases t2 with
          | nil =>
            simp only [matchExp, if_pos he, if_pos hs, Prod.mk.injEq] at h
            rcases h with ⟨rfl, rfl⟩
            exact Or.inl ⟨rfl, rfl⟩
          | cons c t3 =>
            by_cases hd : c.isDigit = true
            · simp only [matchExp, if_pos he, if_pos hs, if_pos hd, Prod.mk.injEq] at h
              rcases h with ⟨rfl, rfl⟩
              refine Or.inr ⟨e, s :: c :: t3, rfl, by simpa using he, Or.inl ?_⟩
              exact ⟨s, c :: t3, rfl, by simpa using hs, ⟨c, by simp, hd⟩, rfl, rfl⟩
            · simp only [matchExp, if_pos he, if_pos hs, if_neg hd, Prod.mk.injEq] at h
              rcases h with ⟨rfl, rfl⟩
              exact Or.inl ⟨rfl, rfl⟩
        · by_cases hd : s.isDigit = true
          · simp only [matchExp, if_pos he, if_neg hs, if_pos hd, Prod.mk.injEq] at h
            rcases h with ⟨rfl, rfl⟩
            refine Or.inr ⟨e, s :: t2, rfl, by simpa using he, Or.inr ?_⟩
            exact ⟨⟨s, by simp, hd, by simpa using hs⟩, rfl, rfl⟩
          · simp only [matchExp, if_pos he, if_neg hs, if_neg hd, Prod.mk.injEq] at h
            rcases h with ⟨rfl, rfl⟩
            exact Or.inl ⟨rfl, rfl⟩
    · simp only [matchExp, if_neg he, Prod.mk.injEq] at h
      rcases h with ⟨rfl, rfl⟩
      exact Or.inl ⟨rfl, rfl⟩

theorem matchFrac_replay {r1 fp r2 : List Char} (h : matchFrac r1 = (fp, r2))
    (Y : List Char) (hY : ∀ c ∈ Y.head?, c.isDigit = false ∧ c ≠ '.') :
    matchFrac (fp ++ Y) = (fp, Y) := by
  rcases matchFrac_inv h with ⟨hfp, _⟩ | ⟨t, _, ⟨c0, hc0, hc0d⟩, hfp, _⟩
  · subst hfp
    cases Y with
    | nil => rfl
    | cons c t =>
      obtain ⟨_, hdot⟩ := hY c (by simp)
      simp [matchFrac, hdot]
  · subst hfp
    cases t with
    | nil => simp at hc0
    | cons c1 t1 =>
      simp at hc0
      subst hc0
      have htw : ∀ x ∈ (c1 :: t1).takeWhile Char.isDigit, x.isDigit = true := fun x hx =>
        List.mem_takeWhile_imp hx
      obtain ⟨ht, hd⟩ :=
        takeWhile_append_all _ Y htw (fun c hc => (hY c hc).1)
      rw [List.cons_append, List.takeWhile_cons_of_pos hc0d, List.cons_append]
      have hres := takeWhile_append_all (t1.takeWhile Char.isDigit) Y
        (fun x hx => List.mem_takeWhile_imp hx) (fun c hc => (hY c hc).1)
      simp [matchFrac, hc0d, hres.1, hres.2]

theorem matchExp_replay {r2 ep r3 : List Char} (h : matchExp r2 = (ep, r3))
    (Y : List Char)
    (hY : ∀ c ∈ Y.head?, c.isDigit = false ∧ c ≠ 'e' ∧ c ≠ 'E') :
    matchExp (ep ++ Y) = (ep, Y) := by
  rcases matchExp_inv h with ⟨hep, _⟩ |
    ⟨e, t, _, he, ⟨si, t2, ht, hs, ⟨c0, hc0, hc0d⟩, hep, _⟩ |
      ⟨⟨c0, hc0, hc0d, hc0s⟩, hep, _⟩⟩
  · subst hep
    cases Y with
    | nil => rfl
    | cons c t =>
      obtain ⟨_, hce, hcE⟩ := hY c (by simp)
      simp [matchExp, hce, hcE]
  · subst hep
    cases t2 with
    | nil => simp at hc0
    | cons c1 t1 =>
      simp at hc0
      subst hc0
      have he2 : (e = 'e' || e = 'E') = true := by
        rcases he with he | he <;> simp [he]
      have hs2 : (si = '+' || si = '-') = true := by
        rcases hs with hs | hs <;> simp [hs]
      rw [List.cons_append, List.cons_append, List.takeWhile_cons_of_pos hc0d,
        List.cons_append]
      have hres := takeWhile_append_all (t1.takeWhile Char.isDigit) Y
        (fun x hx => List.mem_takeWhile_imp hx) (fun c hc => (hY c hc).1)
      simp [matchExp, he2, hs2, hc0d, hres.1, hres.2]
  · subst hep
    cases t with
    | nil => simp at hc0
    | cons c1 t1 =>
      simp at hc0
      subst hc0
      have he2 : (e = 'e' || e = 'E') = true := by
        rcases he with he | he <;> simp [he]
      have hs2 : (c1 = '+' || c1 = '-') = false := by
        simpa using hc0s
      rw [List.cons_append, List.takeWhile_cons_of_pos hc0d, List.cons_append]
      have hres := takeWhile_append_all (t1.takeWhile Char.isDigit) Y
        (fun x hx => List.mem_takeWhile_imp hx) (fun c hc => (hY c hc).1)
      simp [matchExp, he2, hs2, hc0d, hres.1, hres.2]

theorem matchNumberBody_replay {sgn cs1 text : List Char}
    (h : matchNumberBody sgn cs1 = some (text, true, []))
    (rest : List Char) (hrest : delimOk rest = true) :
    text = sgn ++ cs1 ∧ matchNumberBody sgn (cs1 ++ rest) = some (text, true, rest) := by
  obtain ⟨_, hdr, _, _⟩ := delim_facts rest hrest
  obtain ⟨ip, r1, hip⟩ : ∃ ip r1, matchIntPart cs1 = some (ip, r1) := by
    cases hip : matchIntPart cs1 with
    | none => rw [matchNumberBody, hip] at h; exact absurd h (by simp)
    | some p =>
      obtain ⟨ip0, r10⟩ := p
      exact ⟨ip0, r10, rfl⟩
  obtain ⟨fp, r2, hfr⟩ : ∃ fp r2, matchFrac r1 = (fp, r2) := ⟨_, _, rfl⟩
  obtain ⟨ep, r3, hex⟩ : ∃ ep r3, matchExp r2 = (ep, r3) := ⟨_, _, rfl⟩
  rw [matchNumberBody, hip] at h
  simp only [hfr, hex, Option.some.injEq, Prod.mk.injEq] at h
  obtain ⟨htext, hflag, hr3⟩ := h
  subst hr3
  have hr2 : r2 = ep := by
    rcases matchExp_inv hex with ⟨hep, hr⟩ | ⟨e, t, hrt, _,
      ⟨si, t2, ht2, _, _, hep, hr⟩ | ⟨_, hep, hr⟩⟩
    · rw [hep, ← hr]
    · rw [hrt, ht2, hep]
      have hsplit : t2.takeWhile Char.isDigit ++ t2.dropWhile Char.isDigit = t2 :=
        List.takeWhile_append_dropWhile _ _
      rw [← hr, List.append_nil] at hsplit
      rw [hsplit]
    · rw [hrt, hep]
      have hsplit : t.takeWhile Char.isDigit ++ t.dropWhile Char.isDigit = t :=
        List.takeWhile_append_dropWhile _ _
      rw [← hr, List.append_nil] at hsplit
      rw [hsplit]
  have hr1 : r1 = fp ++ ep := by
    rcases matchFrac_inv hfr with ⟨hfp, hr⟩ | ⟨t, hrt, _, hfp, hr⟩
    · rw [hfp, ← hr, hr2]
      simp
    · rw [hrt, hfp, List.cons_append]
      have hsplit : t.takeWhile Char.isDigit ++ t.dropWhile Char.isDigit = t :=
        List.takeWhile_append_dropWhile _ _
      rw [← hr, hr2] at hsplit
      nth_rewrite 1 [← hsplit]
      rfl
  have hcs1 : cs1 = ip ++ (fp ++ ep) := by
    rcases matchIntPart_inv hip with ⟨hipv, hcs⟩ | ⟨c, t, hcs, _, _, hipv, hr⟩
    · rw [hcs, hipv, ← hr1]
      rfl
    · rw [hcs, hipv, List.cons_append]
      have hsplit : t.takeWhile Char.isDigit ++ t.dropWhile Char.isDigit = t :=
        List.takeWhile_append_dropWhile _ _
      rw [← hr, hr1] at hsplit
      nth_rewrite 1 [← hsplit]
      rfl
  -- head of what follows the integer part is never a digit
  have hXhead : ∀ c ∈ (fp ++ (ep ++ rest)).head?, c.isDigit = false := by
    rcases matchFrac_inv hfr with ⟨hfp, _⟩ | ⟨t, _, _, hfp, _⟩
    · subst hfp
      simp only [List.nil_append]
      rcases matchExp_inv hex with ⟨hep, _⟩ | ⟨e, t, _, he, hshape⟩
      · subst hep
        simpa using fun c hc => (hdr c hc).1
      · have hepc : ∃ tl, ep = e :: tl := by
          rcases hshape with ⟨si, t2, _, _, _, hep, _⟩ | ⟨_, hep, _⟩ <;>
            exact ⟨_, by rw [hep]⟩
        obtain ⟨tl, hep⟩ := hepc
        subst hep
        intro c hc
        simp at hc
        subst hc
        rcases he with he | he <;> subst he <;> decide
    · subst hfp
      intro c hc
      simp at hc
      subst hc
      decide
  have hYhead : ∀ c ∈ (ep ++ rest).head?, c.isDigit = false ∧ c ≠ '.' := by
    rcases matchExp_inv hex with ⟨hep, _⟩ | ⟨e, t, _, he, hshape⟩
    · subst hep
      simp only [List.nil_append]
      exact fun c hc => ⟨(hdr c hc).1, (hdr c hc).2.1⟩
    · have hepc : ∃ tl, ep = e :: tl := by
        rcases hshape with ⟨si, t2, _, _, _, hep, _⟩ | ⟨_, hep, _⟩ <;>
          exact ⟨_, by rw [hep]⟩
      obtain ⟨tl, hep⟩ := hepc
      subst hep
      intro c hc
      simp at hc
      subst hc
      rcases he with he | he <;> subst he <;> exact ⟨by decide, by decide⟩
  have hrep1 := matchIntPart_replay hip (fp ++ (ep ++ rest)) hXhead
  have hrep2 := matchFrac_replay hfr (ep ++ rest) hYhead
  have hrep3 := matchExp_replay hex rest
    (fun c hc => ⟨(hdr c hc).1, (hdr c hc).2.2.1, (hdr c hc).2.2.2⟩)
  constructor
  · rw [← htext, hcs1]
    simp
  · rw [hcs1]
    have hassoc : ip ++ (fp ++ ep) ++ rest = ip ++ (fp ++ (ep ++ rest)) := by simp
    rw [hassoc, matchNumberBody, hrep1]
    simp only [hrep2, hrep3]
    rw [← htext, hflag]

theorem matchNumber_float_replay {cs0 : List Char}
    (h : matchNumber cs0 = some (cs0, true, [])) (rest : List Char)
    (hrest : delimOk rest = true) :
    matchNumber (cs0 ++ rest) = some (cs0, true, rest) := by
  cases cs0 with
  | nil =>
    rw [matchNumber, matchNumberBody] at h
    simp [matchIntPart] at h
  | cons c t =>
    by_cases hc : c = '-'
    · rw [matchNumber, if_pos hc] at h
      obtain ⟨_, hrep⟩ := matchNumberBody_replay h rest hrest
      rw [List.cons_append, matchNumber, if_pos hc, hrep]
    · rw [matchNumber, if_neg hc] at h
      obtain ⟨_, hrep⟩ := matchNumberBody_replay h rest hrest
      rw [List.cons_append, matchNumber, if_neg hc, ← List.cons_append, hrep]

theorem hexVal_hexDigitChar : ∀ k, k < 16 → hexVal (hexDigitChar k) = some k := by decide

theorem scanstring_shorthand (e cc : Char) (f : Nat) (X : List Char)
    (he : (if e = '"' then some '"'
      else if e = '\\' then some '\\'
      else if e = '/' then some '/'
      else if e = 'b' then some '\x08'
      else if e = 'f' then some '\x0c'
      else if e = 'n' then some '\x0a'
      else if e = 'r' then some '\x0d'
      else if e = 't' then some '\x09'
      else none) = some cc)
    (hne : e ≠ 'u') :
    scanstring (f + 1) ('\\' :: e :: X) =
      (scanstring f X).map (fun p => (cc :: p.1, p.2)) := by
  simp [scanstring, hne, he]

theorem scanstring_u (f : Nat) (a b c2 d : Char) (n : Nat) (X : List Char)
    (hhex : hex4 a b c2 d = some n) (hlow : n < 55296) :
    scanstring (f + 1) ('\\' :: 'u' :: a :: b :: c2 :: d :: X) =
      (scanstring f X).map (fun p => (Char.ofNat n :: p.1, p.2)) := by
  have hn1 : ¬(55296 ≤ n ∧ n ≤ 56319) := by omega
  have hn2 : ¬(56320 ≤ n ∧ n ≤ 57343) := by omega
  simp [scanstring, hhex, hn1, hn2]

theorem scanstring_escape : ∀ (ds rest : List Char) (fuel : Nat),
    ((ds.map escapeChar).join).length + 1 + rest.length ≤ fuel →
    scanstring fuel ((ds.map escapeChar).join ++ ('"' :: rest)) = some (ds, rest) := by
  intro ds
  induction ds with
  | nil =>
    intro rest fuel hf
    cases fuel with
    | zero => simp at hf
    | succ f => simp [scanstring]
  | cons c cs ih =>
    intro rest fuel hf
    have hjoin : ((c :: cs).map escapeChar).join = escapeChar c ++ (cs.map escapeChar).join := by
      simp
    rw [hjoin] at hf ⊢
    by_cases h1 : c = '"'
    · subst h1
      rw [show escapeChar '"' = ['\\', '"'] from rfl] at hf ⊢
      simp only [List.length_append, List.length_cons, List.length_nil] at hf
      cases fuel with
      | zero => omega
      | succ f =>
        simp only [List.cons_append, List.nil_append, List.append_assoc]
        rw [scanstring_shorthand '"' '"' f _ rfl (by decide),
          ih rest f (by omega)]
        rfl
    · by_cases h2 : c = '\\'
      · subst h2
        rw [show escapeChar '\\' = ['\\', '\\'] from rfl] at hf ⊢
        simp only [List.length_append, List.length_cons, List.length_nil] at hf
        cases fuel with
        | zero => omega
        | succ f =>
          simp only [List.cons_append, List.nil_append, List.append_assoc]
          rw [scanstring_shorthand '\\' '\\' f _ rfl (by decide),
            ih rest f (by omega)]
          rfl
      · by_cases h3 : c = '\x08'
        · subst h3
          rw [show escapeChar '\x08' = ['\\', 'b'] from rfl] at hf ⊢
          simp only [List.length_append, List.length_cons, List.length_nil] at hf
          cases fuel with
          | zero => omega
          | succ f =>
            simp only [List.cons_append, List.nil_append, List.append_assoc]
            rw [scanstring_shorthand 'b' '\x08' f _ rfl (by decide),
              ih rest f (by omega)]
            rfl
        · by_cases h4 : c = '\x09'
          · subst h4
            rw [show escapeChar '\x09' = ['\\', 't'] from rfl] at hf ⊢
            simp only [List.length_append, List.length_cons, List.length_nil] at hf
            cases fuel with
            | zero => omega
            | succ f =>
              simp only [List.cons_append, List.nil_append, List.append_assoc]
              rw [scanstring_shorthand 't' '\x09' f _ rfl (by decide),
                ih rest f (by omega)]
              rfl
          · by_cases h5 : c = '\x0a'
            · subst h5
              rw [show escapeChar '\x0a' = ['\\', 'n'] from rfl] at hf ⊢
              simp only [List.length_append, List.length_cons, List.length_nil] at hf
              cases fuel with
              | zero => omega
              | succ f =>
                simp only [List.cons_append, List.nil_append, List.append_assoc]
                rw [scanstring_shorthand 'n' '\x0a' f _ rfl (by decide),
                  ih rest f (by omega)]
                rfl
            · by_cases h6 : c = '\x0c'
              · subst h6
                rw [show escapeChar '\x0c' = ['\\', 'f'] from rfl] at hf ⊢
                simp only [List.length_append, List.length_cons, List.length_nil] at hf
                cases fuel with
                | zero => omega
                | succ f =>
                  simp only [List.cons_append, List.nil_append, List.append_assoc]
                  rw [scanstring_shorthand 'f' '\x0c' f _ rfl (by decide),
                    ih rest f (by omega)]
                  rfl
              · by_cases h7 : c = '\x0d'
                · subst h7
                  rw [show escapeChar '\x0d' = ['\\', 'r'] from rfl] at hf ⊢
                  simp only [List.length_append, List.length_cons, List.length_nil] at hf
                  cases fuel with
                  | zero => omega
                  | succ f =>
                    simp only [List.cons_append, List.nil_append, List.append_assoc]
                    rw [scanstring_shorthand 'r' '\x0d' f _ rfl (by decide),
                      ih rest f (by omega)]
                    rfl
                · by_cases h8 : c.toNat < 32
                  · have hesc : escapeChar c =
                        ['\\', 'u', '0', '0', hexDigitChar (c.toNat / 16),
                          hexDigitChar (c.toNat % 16)] := by
                      rw [escapeChar, if_neg h1, if_neg h2, if_neg h3, if_neg h4, if_neg h5,
                        if_neg h6, if_neg h7, if_pos h8]
                    rw [hesc] at hf ⊢
                    simp only [List.length_append, List.length_cons, List.length_nil] at hf
                    cases fuel with
                    | zero => omega
                    | succ f =>
                      have hhex : hex4 '0' '0' (hexDigitChar (c.toNat / 16))
                          (hexDigitChar (c.toNat % 16)) = some (c.toNat / 16 * 16 + c.toNat % 16) := by
                        have h0 : hexVal '0' = some 0 := by decide
                        simp [hex4, h0, hexVal_hexDigitChar (c.toNat / 16) (by omega),
                          hexVal_hexDigitChar (c.toNat % 16) (by omega)]
                      have hval : c.toNat / 16 * 16 + c.toNat % 16 = c.toNat := by omega
                      rw [hval] at hhex
                      simp only [List.cons_append, List.nil_append, List.append_assoc]
                      rw [scanstring_u f _ _ _ _ c.toNat _ hhex (by omega),
                        ih rest f (by omega)]
                      rw [Char.ofNat_toNat]
                      rfl
                  · have hesc : escapeChar c = [c] := by
                      rw [escapeChar, if_neg h1, if_neg h2, if_neg h3, if_neg h4, if_neg h5,
                        if_neg h6, if_neg h7, if_neg h8]
                    rw [hesc] at hf ⊢
                    simp only [List.length_append, List.length_cons, List.length_nil] at hf
                    cases fuel with
                    | zero => omega
                    | succ f =>
                      simp only [List.cons_append, List.nil_append, List.append_assoc]
                      have hstep : scanstring (f + 1)
                          (c :: ((cs.map escapeChar).join ++ ('"' :: rest))) =
                          (scanstring f ((cs.map escapeChar).join ++ ('"' :: rest))).map
                            (fun p => (c :: p.1, p.2)) := by
                        simp only [scanstring]
                        rw [if_neg h1, if_neg h2, if_neg (by omega : ¬ c.toNat < 32)]
                      rw [hstep, ih rest f (by omega)]
                      rfl

theorem not_jsonWs_of_ge (c : Char) (h : 33 ≤ c.toNat) : isJsonWs c = false := by
  have hsp : (' ' : Char).toNat = 32 := rfl
  have hta : ('\t' : Char).toNat = 9 := rfl
  have hnl : ('\n' : Char).toNat = 10 := rfl
  have hcr : ('\r' : Char).toNat = 13 := rfl
  have c1 : c ≠ ' ' := toNat_ne (by omega)
  have c2 : c ≠ '\t' := toNat_ne (by omega)
  have c3 : c ≠ '\n' := toNat_ne (by omega)
  have c4 : c ≠ '\r' := toNat_ne (by omega)
  simp [isJsonWs, c1, c2, c3, c4]

theorem skipWs_cons {c : Char} (t : List Char) (h : isJsonWs c = false) :
    skipWs (c :: t) = c :: t := by
  simp [skipWs, List.dropWhile_cons, h]

theorem isDigit_dispatch (c : Char) (h : c.isDigit = true) :
    c ≠ '"' ∧ c ≠ obraceC ∧ c ≠ '[' ∧ c ≠ 'n' ∧ c ≠ 't' ∧ c ≠ 'f' ∧ c ≠ ']' ∧
      isJsonWs c = false := by
  have hb := isDigit_bounds c h
  have e1 : ('"' : Char).toNat = 34 := rfl
  have e2 : obraceC.toNat = 123 := rfl
  have e3 : ('[' : Char).toNat = 91 := rfl
  have e4 : ('n' : Char).toNat = 110 := rfl
  have e5 : ('t' : Char).toNat = 116 := rfl
  have e6 : ('f' : Char).toNat = 102 := rfl
  have e7 : (']' : Char).toNat = 93 := rfl
  exact ⟨toNat_ne (by omega), toNat_ne (by omega), toNat_ne (by omega), toNat_ne (by omega),
    toNat_ne (by omega), toNat_ne (by omega), toNat_ne (by omega),
    not_jsonWs_of_ge c (by omega)⟩

theorem floatOk_cases (s : String) (h : FloatOk s = true) :
    s = "NaN" ∨ s = "Infinity" ∨ s = "-Infinity" ∨
      matchNumber s.data = some (s.data, true, []) := by
  rw [FloatOk] at h
  by_cases h1 : s = "NaN"
  · exact Or.inl h1
  by_cases h2 : s = "Infinity"
  · exact Or.inr (Or.inl h2)
  by_cases h3 : s = "-Infinity"
  · exact Or.inr (Or.inr (Or.inl h3))
  refine Or.inr (Or.inr (Or.inr ?_))
  simp [h1, h2, h3] at h
  cases hmn : matchNumber s.data with
  | none => rw [hmn] at h; simp at h
  | some tri =>
    obtain ⟨text, isF, r⟩ := tri
    rw [hmn] at h
    simp only [Bool.and_eq_true, decide_eq_true_eq, List.isEmpty_iff] at h
    obtain ⟨⟨hF, hr⟩, ht⟩ := h
    rw [hF, hr, ht]

theorem matchNumber_self_head {cs0 : List Char} (h : matchNumber cs0 = some (cs0, true, [])) :
    ∃ c t, cs0 = c :: t ∧ (c = '-' ∨ c.isDigit = true) := by
  cases cs0 with
  | nil =>
    rw [matchNumber, matchNumberBody] at h
    simp [matchIntPart] at h
  | cons c t =>
    by_cases hc : c = '-'
    · exact ⟨c, t, rfl, Or.inl hc⟩
    · rw [matchNumber, if_neg hc] at h
      refine ⟨c, t, rfl, Or.inr ?_⟩
      cases hip : matchIntPart (c :: t) with
      | none => rw [matchNumberBody, hip] at h; simp at h
      | some p =>
        rcases matchIntPart_inv hip with ⟨_, hcs⟩ | ⟨c', t', hcs, _, hd, _, _⟩
        · have hc0 : c = '0' := by
            injection hcs with h1 _
          rw [hc0]; decide
        · have hcc : c = c' := by
            injection hcs with h1 _
          rw [hcc]; exact hd

theorem jdump_head_class (v : JVal) (hwf : jwf v = true) :
    ∃ c t, jdump v = c :: t ∧ isJsonWs c = false ∧ c ≠ ']' := by
  cases v with
  | jnull => exact ⟨'n', _, rfl, by decide, by decide⟩
  | jbool b =>
    cases b
    · exact ⟨'f', _, rfl, by decide, by decide⟩
    · exact ⟨'t', _, rfl, by decide, by decide⟩
  | jint i =>
    by_cases hi : i < 0
    · exact ⟨'-', natDigits i.natAbs, by simp [jdump, intDump, hi], by decide, by decide⟩
    · obtain ⟨c, cs, hcs, hcd, _, _, _⟩ := natDigits_shape i.natAbs
      obtain ⟨_, _, _, _, _, _, h7, h8⟩ := isDigit_dispatch c hcd
      exact ⟨c, cs, by simp [jdump, intDump, hi, hcs], h8, h7⟩
  | jfloat s =>
    rcases floatOk_cases s (by simpa [jwf] using hwf) with h | h | h | h
    · subst h; exact ⟨'N', _, rfl, by decide, by decide⟩
    · subst h; exact ⟨'I', _, rfl, by decide, by decide⟩
    · subst h; exact ⟨'-', _, rfl, by decide, by decide⟩
    · obtain ⟨c, t, hcs, hclass⟩ := matchNumber_self_head h
      rcases hclass with hc | hc
      · subst hc; exact ⟨'-', t, hcs, by decide, by decide⟩
      · obtain ⟨_, _, _, _, _, _, h7, h8⟩ := isDigit_dispatch c hc
        exact ⟨c, t, hcs, h8, h7⟩
  | jstr s => exact ⟨'"', _, rfl, by decide, by decide⟩
  | jarr xs => exact ⟨'[', _, rfl, by decide, by decide⟩
  | jobj kvs => exact ⟨obraceC, _, rfl, by decide, by decide⟩

theorem skipWs_jdump (v : JVal) (hwf : jwf v = true) (R : List Char) :
    skipWs (jdump v ++ R) = jdump v ++ R := by
  obtain ⟨c, t, hcs, hws, _⟩ := jdump_head_class v hwf
  rw [hcs, List.cons_append, skipWs_cons _ hws]

theorem delimOk_itemsRest (xs : List JVal) (rest : List Char) :
    delimOk (jdumpItemsRest xs ++ (']' :: rest)) = true := by
  cases xs with
  | nil => rfl
  | cons y ys => rfl

theorem delimOk_entriesRest (kvs : List (String × JVal)) (rest : List Char) :
    delimOk (jdumpEntriesRest kvs ++ (cbraceC :: rest)) = true := by
  cases kvs with
  | nil => simp [jdumpEntriesRest, delimOk, cbraceC]
  | cons kv kvs' => obtain ⟨k, v⟩ := kv; rfl

theorem jsetKey_fresh : ∀ (acc : List (String × JVal)) (k : String) (v : JVal),
    (∀ p ∈ acc, p.1 ≠ k) → jsetKey acc k v = acc ++ [(k, v)] := by
  intro acc
  induction acc with
  | nil => intro k v _; rfl
  | cons p ps ih =>
    intro k v h
    obtain ⟨pk, pv⟩ := p
    have hne : pk ≠ k := h (pk, pv) (by simp)
    simp only [jsetKey, if_neg hne, List.cons_append]
    rw [ih k v (fun q hq => h q (by simp [hq]))]

theorem dictOfPairs_go : ∀ (ps acc : List (String × JVal)),
    ((acc ++ ps).map Prod.fst).Nodup →
    ps.foldl (fun a kv => jsetKey a kv.1 kv.2) acc = acc ++ ps := by
  intro ps
  induction ps with
  | nil => intro acc _; simp
  | cons p ps' ih =>
    intro acc hnd
    obtain ⟨pk, pv⟩ := p
    have hnd' := hnd
    rw [List.map_append, List.nodup_append] at hnd'
    obtain ⟨_, _, hdisj⟩ := hnd'
    have hfresh : ∀ q ∈ acc, q.1 ≠ pk := by
      intro q hq hqe
      have h1 : q.1 ∈ acc.map Prod.fst := List.mem_map_of_mem _ hq
      have h2 : q.1 ∈ (((pk, pv) :: ps').map Prod.fst) := by simp [hqe]
      exact hdisj h1 h2
    rw [List.foldl_cons]
    have hnd2 : (((acc ++ [(pk, pv)]) ++ ps').map Prod.fst).Nodup := by
      simpa using hnd
    calc List.foldl (fun a kv => jsetKey a kv.1 kv.2) (jsetKey acc pk pv) ps'
        = List.foldl (fun a kv => jsetKey a kv.1 kv.2) (acc ++ [(pk, pv)]) ps' := by
          rw [jsetKey_fresh acc pk pv hfresh]
      _ = (acc ++ [(pk, pv)]) ++ ps' := ih (acc ++ [(pk, pv)]) hnd2
      _ = acc ++ (pk, pv) :: ps' := by simp

theorem dictOfPairs_nodup (ps : List (String × JVal)) (h : (ps.map Prod.fst).Nodup) :
    dictOfPairs ps = ps := by
  have hgo := dictOfPairs_go ps [] (by simpa using h)
  simpa [dictOfPairs] using hgo

theorem jweight_pos (v : JVal) : 1 ≤ jweight v := by
  cases v <;> simp [jweight]

/-- On the dump of a well-formed value followed by a legal delimiter, the
scanner returns exactly that value; the two loop statements cover the
element loop of `JSONArray` and the member loop of `JSONObject`. -/
theorem scan_master : ∀ fuel : Nat,
    (∀ v rest, jwf v = true → delimOk rest = true → jweight v < fuel →
      scanOnce fuel (jdump v ++ rest) = some (v, rest)) ∧
    (∀ x xs acc rest, jwf x = true → jwfList xs = true → delimOk rest = true →
      jweight x + jweightList xs + 1 < fuel →
      parseArrLoop fuel acc (jdump x ++ (jdumpItemsRest xs ++ (']' :: rest))) =
        some (JVal.jarr (acc ++ x :: xs), rest)) ∧
    (∀ (k : String) v kvs acc rest, jwf v = true → jwfEntries kvs = true →
      delimOk rest = true → jweight v + jweightEntries kvs + 1 < fuel →
      parseObjLoop fuel acc
        ((k.data.map escapeChar).join ++
          ('"' :: ':' :: (jdump v ++ (jdumpEntriesRest kvs ++ (cbraceC :: rest))))) =
        some (JVal.jobj (dictOfPairs (acc ++ (k, v) :: kvs)), rest)) := by
  intro fuel
  induction fuel using Nat.strong_induction_on with
  | _ fuel ih =>
    refine ⟨?_, ?_, ?_⟩
    · intro v rest hwf hdl hw
      have hp := jweight_pos v
      cases fuel with
      | zero => omega
      | succ f =>
        cases v with
        | jnull => rfl
        | jbool b => cases b <;> rfl
        | jint i =>
          have hmn := matchNumber_intDump i rest hdl
          have hint := intOfNumText_intDump i
          by_cases hi : i < 0
          · have hd0 : intDump i = '-' :: natDigits i.natAbs := by rw [intDump, if_pos hi]
            have hinput : jdump (JVal.jint i) ++ rest = '-' :: (natDigits i.natAbs ++ rest) := by
              rw [show jdump (JVal.jint i) = intDump i from rfl, hd0, List.cons_append]
            rw [hinput]
            have hmn2 : matchNumber ('-' :: (natDigits i.natAbs ++ rest)) =
                some (intDump i, false, rest) := by
              rw [← List.cons_append, ← hd0]; exact hmn
            have hob : ('-' : Char) ≠ obraceC := by decide
            simp [scanOnce, hmn2, hint, hob]
          · obtain ⟨c, cs0, hcs, hcd, hcm, _, _⟩ := natDigits_shape i.natAbs
            have hd0 : intDump i = c :: cs0 := by rw [intDump, if_neg hi, hcs]
            have hinput : jdump (JVal.jint i) ++ rest = c :: (cs0 ++ rest) := by
              rw [show jdump (JVal.jint i) = intDump i from rfl, hd0, List.cons_append]
            rw [hinput]
            obtain ⟨n1, n2, n3, n4, n5, n6, _, _⟩ := isDigit_dispatch c hcd
            have hmn2 : matchNumber (c :: (cs0 ++ rest)) = some (intDump i, false, rest) := by
              rw [← List.cons_append, ← hd0]; exact hmn
            simp [scanOnce, n1, n2, n3, n4, n5, n6, hmn2, hint]
        | jfloat s =>
          have hFO : FloatOk s = true := by simpa [jwf] using hwf
          rcases floatOk_cases s hFO with hs | hs | hs | hs
          · subst hs; rfl
          · subst hs; rfl
          · subst hs; rfl
          · obtain ⟨c, t0, hcs, hclass⟩ := matchNumber_self_head hs
            have hrep := matchNumber_float_replay hs rest hdl
            have hinput : jdump (JVal.jfloat s) ++ rest = c :: (t0 ++ rest) := by
              rw [show jdump (JVal.jfloat s) = s.data from rfl, hcs, List.cons_append]
            rw [hinput]
            have hrep2 : matchNumber (c :: (t0 ++ rest)) = some (s.data, true, rest) := by
              rw [← List.cons_append, ← hcs]; exact hrep
            rcases hclass with hc | hc
            · subst hc
              have hob : ('-' : Char) ≠ obraceC := by decide
              simp [scanOnce, hrep2, hob]
            · obtain ⟨n1, n2, n3, n4, n5, n6, _, _⟩ := isDigit_dispatch c hc
              simp [scanOnce, n1, n2, n3, n4, n5, n6, hrep2]
        | jstr s =>
          have hinput : jdump (JVal.jstr s) ++ rest =
              '"' :: ((s.data.map escapeChar).join ++ ('"' :: rest)) := by
            simp [jdump, jstrDump]
          rw [hinput]
          have hstr := scanstring_escape s.data rest
            ((s.data.map escapeChar).join ++ ('"' :: rest)).length (by simp; omega)
          simp [scanOnce]
          exact ⟨s.data, by simpa using hstr, rfl⟩
        | jarr xs =>
          cases xs with
          | nil =>
            have hwgt : jweight (JVal.jarr []) = 2 := rfl
            cases f with
            | zero => omega
            | succ f2 => rfl
          | cons x xs' =>
            have hwx : jwf x = true ∧ jwfList xs' = true := by
              simp [jwf, jwfList] at hwf
              exact hwf
            obtain ⟨c0, t0, hc0, hws0, hnb0⟩ := jdump_head_class x hwx.1
            have hinput : jdump (JVal.jarr (x :: xs')) ++ rest =
                '[' :: (jdump x ++ (jdumpItemsRest xs' ++ (']' :: rest))) := by
              simp [jdump, jdumpItems]
            rw [hinput]
            have hwgt : jweight (JVal.jarr (x :: xs')) =
                jweight x + jweightList xs' + 1 + 2 := rfl
            cases f with
            | zero => omega
            | succ f2 =>
              obtain ⟨_, hL2, _⟩ := ih f2 (by omega)
              have hjl : jweightList (x :: xs') = jweight x + jweightList xs' + 1 := rfl
              have harg := hL2 x xs' [] rest hwx.1 hwx.2 hdl (by omega)
              have hred : scanOnce (f2 + 1 + 1)
                  ('[' :: (jdump x ++ (jdumpItemsRest xs' ++ (']' :: rest)))) =
                  parseArr (f2 + 1) (jdump x ++ (jdumpItemsRest xs' ++ (']' :: rest))) := rfl
              rw [hred, hc0, List.cons_append]
              have hskip2 : skipWs (c0 :: (t0 ++ (jdumpItemsRest xs' ++ (']' :: rest)))) =
                  c0 :: (t0 ++ (jdumpItemsRest xs' ++ (']' :: rest))) := skipWs_cons _ hws0
              simp only [parseArr, hskip2]
              rw [if_neg hnb0, ← List.cons_append, ← hc0, harg]
              simp
        | jobj kvs =>
          cases kvs with
          | nil =>
            have hwgt : jweight (JVal.jobj []) = 2 := rfl
            cases f with
            | zero => omega
            | succ f2 => rfl
          | cons kv kvs' =>
            obtain ⟨k, v0⟩ := kv
            have hsplit0 : ((((k, v0) :: kvs').map Prod.fst).Nodup) ∧
                jwfEntries ((k, v0) :: kvs') = true := by
              have h' := hwf
              simp only [jwf, Bool.and_eq_true, decide_eq_true_eq] at h'
              exact h'
            have hv0 : jwf v0 = true ∧ jwfEntries kvs' = true := by
              have h' := hsplit0.2
              simp only [jwfEntries, Bool.and_eq_true] at h'
              exact h'
            have hinput : jdump (JVal.jobj ((k, v0) :: kvs')) ++ rest =
                obraceC :: ('"' :: ((k.data.map escapeChar).join ++
                  ('"' :: ':' :: (jdump v0 ++ (jdumpEntriesRest kvs' ++ (cbraceC :: rest)))))) := by
              simp [jdump, jdumpEntries, jstrDump]
            rw [hinput]
            have hwgt : jweight (JVal.jobj ((k, v0) :: kvs')) =
                jweight v0 + jweightEntries kvs' + 1 + 2 := rfl
            cases f with
            | zero => omega
            | succ f2 =>
              obtain ⟨_, _, hL3⟩ := ih f2 (by omega)
              have hje : jweightEntries ((k, v0) :: kvs') =
                  jweight v0 + jweightEntries kvs' + 1 := rfl
              have harg := hL3 k v0 kvs' [] rest hv0.1 hv0.2 hdl (by omega)
              have hred : scanOnce (f2 + 1 + 1)
                  (obraceC :: ('"' :: ((k.data.map escapeChar).join ++
                    ('"' :: ':' :: (jdump v0 ++ (jdumpEntriesRest kvs' ++ (cbraceC :: rest))))))) =
                  parseObjLoop f2 []
                    ((k.data.map escapeChar).join ++
                      ('"' :: ':' :: (jdump v0 ++ (jdumpEntriesRest kvs' ++ (cbraceC :: rest))))) := rfl
              rw [hred, harg]
              rw [dictOfPairs_nodup _ (by simpa using hsplit0.1)]
              simp
    · intro x xs acc rest hwx hwxs hdl hw
      have hpx := jweight_pos x
      cases fuel with
      | zero => omega
      | succ f =>
        obtain ⟨hL1, hL2, _⟩ := ih f (by omega)
        have hdelX := delimOk_itemsRest xs rest
        have hval := hL1 x (jdumpItemsRest xs ++ (']' :: rest)) hwx hdelX (by omega)
        cases xs with
        | nil =>
          simp only [jdumpItemsRest, List.nil_append] at hval ⊢
          have hsk : skipWs (']' :: rest) = ']' :: rest := skipWs_cons _ (by decide)
          simp only [parseArrLoop, hval, hsk]
        | cons y ys =>
          have hwy : jwf y = true ∧ jwfList ys = true := by
            simp [jwfList] at hwxs
            exact hwxs
          have hpy := jweight_pos y
          have hjl : jweightList (y :: ys) = jweight y + jweightList ys + 1 := rfl
          have hX : jdumpItemsRest (y :: ys) ++ (']' :: rest) =
              ',' :: (jdump y ++ (jdumpItemsRest ys ++ (']' :: rest))) := by
            simp [jdumpItemsRest]
          rw [hX] at hval
          have hskip := skipWs_jdump y hwy.1 (jdumpItemsRest ys ++ (']' :: rest))
          have hsk : skipWs (',' :: (jdump y ++ (jdumpItemsRest ys ++ (']' :: rest)))) =
              ',' :: (jdump y ++ (jdumpItemsRest ys ++ (']' :: rest))) :=
            skipWs_cons _ (by decide)
          have hrec := hL2 y ys (acc ++ [x]) rest hwy.1 hwy.2 hdl (by omega)
          rw [hX]
          simp only [parseArrLoop, hval, hsk, hskip, hrec]
          simp
    · intro k v kvs acc rest hwv hwkvs hdl hw
      have hpv := jweight_pos v
      cases fuel with
      | zero => omega
      | succ f =>
        obtain ⟨hL1, _, hL3⟩ := ih f (by omega)
        have hdelX := delimOk_entriesRest kvs rest
        have hval := hL1 v (jdumpEntriesRest kvs ++ (cbraceC :: rest)) hwv hdelX (by omega)
        have hskipv := skipWs_jdump v hwv (jdumpEntriesRest kvs ++ (cbraceC :: rest))
        have hstr := scanstring_escape k.data
          (':' :: (jdump v ++ (jdumpEntriesRest kvs ++ (cbraceC :: rest))))
          ((k.data.map escapeChar).join ++
            ('"' :: ':' :: (jdump v ++ (jdumpEntriesRest kvs ++ (cbraceC :: rest))))).length
          (by simp; omega)
        cases kvs with
        | nil =>
          simp only [jdumpEntriesRest, List.nil_append] at hval hskipv hstr ⊢
          have hcol : skipWs (':' :: (jdump v ++ (cbraceC :: rest))) =
              ':' :: (jdump v ++ (cbraceC :: rest)) := skipWs_cons _ (by decide)
          have hcb : skipWs (cbraceC :: rest) = cbraceC :: rest :=
            skipWs_cons _ (by decide)
          simp only [parseObjLoop, hstr, hcol, hskipv, hval, hcb]
          simp
        | cons kv2 kvs2 =>
          obtain ⟨k2, v2⟩ := kv2
          have hw2 : jwf v2 = true ∧ jwfEntries kvs2 = true := by
            have h' := hwkvs
            simp only [jwfEntries, Bool.and_eq_true] at h'
            exact h'
          have hje : jweightEntries ((k2, v2) :: kvs2) =
              jweight v2 + jweightEntries kvs2 + 1 := rfl
          have hE : jdumpEntriesRest ((k2, v2) :: kvs2) ++ (cbraceC :: rest) =
              ',' :: ('"' :: ((k2.data.map escapeChar).join ++
                ('"' :: ':' :: (jdump v2 ++ (jdumpEntriesRest kvs2 ++ (cbraceC :: rest)))))) := by
            simp [jdumpEntriesRest, jstrDump]
          have hcol : skipWs (':' :: (jdump v ++ (jdumpEntriesRest ((k2, v2) :: kvs2) ++
              (cbraceC :: rest)))) = ':' :: (jdump v ++ (jdumpEntriesRest ((k2, v2) :: kvs2) ++
              (cbraceC :: rest))) := skipWs_cons _ (by decide)
          have hcm : skipWs (',' :: ('"' :: ((k2.data.map escapeChar).join ++
              ('"' :: ':' :: (jdump v2 ++ (jdumpEntriesRest kvs2 ++ (cbraceC :: rest))))))) =
              ',' :: ('"' :: ((k2.data.map escapeChar).join ++
              ('"' :: ':' :: (jdump v2 ++ (jdumpEntriesRest kvs2 ++ (cbraceC :: rest)))))) :=
            skipWs_cons _ (by decide)
          have hqm : skipWs ('"' :: ((k2.data.map escapeChar).join ++
              ('"' :: ':' :: (jdump v2 ++ (jdumpEntriesRest kvs2 ++ (cbraceC :: rest)))))) =
              '"' :: ((k2.data.map escapeChar).join ++
              ('"' :: ':' :: (jdump v2 ++ (jdumpEntriesRest kvs2 ++ (cbraceC :: rest))))) :=
            skipWs_cons _ (by decide)
          have hrec := hL3 k2 v2 kvs2 (acc ++ [(k, v)]) rest hw2.1 hw2.2 hdl (by omega)
          have hketa : (({ data := k.data } : String)) = k := rfl
          have hnecb : (',' : Char) ≠ cbraceC := by decide
          have hXskip : skipWs (jdumpEntriesRest ((k2, v2) :: kvs2) ++ (cbraceC :: rest)) =
              ',' :: ('"' :: ((k2.data.map escapeChar).join ++
                ('"' :: ':' :: (jdump v2 ++ (jdumpEntriesRest kvs2 ++ (cbraceC :: rest)))))) := by
            rw [hE]; exact hcm
          simp only [parseObjLoop]
          rw [hstr]
          simp only [hcol, hskipv, hval, hXskip, hqm, hketa]
          simp [hnecb, hrec, hketa]

theorem jweight_le_bound : ∀ W : Nat,
    (∀ v, jweight v ≤ W → jwf v = true → jweight v + 1 ≤ 2 * (jdump v).length) ∧
    (∀ xs, jweightList xs ≤ W → jwfList xs = true →
      jweightList xs ≤ 2 * (jdumpItemsRest xs).length) ∧
    (∀ kvs, jweightEntries kvs ≤ W → jwfEntries kvs = true →
      jweightEntries kvs ≤ 2 * (jdumpEntriesRest kvs).length) := by
  intro W
  induction W with
  | zero =>
    refine ⟨?_, ?_, ?_⟩
    · intro v hv _
      have := jweight_pos v
      omega
    · intro xs hxs _
      cases xs with
      | nil => simp [jweightList]
      | cons x xs' =>
        simp [jweightList] at hxs
    · intro kvs hkvs _
      cases kvs with
      | nil => simp [jweightEntries]
      | cons kv kvs' =>
        obtain ⟨k, v⟩ := kv
        simp [jweightEntries] at hkvs
  | succ W ihW =>
    obtain ⟨ih1, ih2, ih3⟩ := ihW
    refine ⟨?_, ?_, ?_⟩
    · intro v hv hwf
      cases v with
      | jnull => simp [jweight, jdump]
      | jbool b => cases b <;> simp [jweight, jdump]
      | jint i =>
        have hne : 1 ≤ (intDump i).length := by
          by_cases hi : i < 0
          · simp [intDump, hi]
          · obtain ⟨c, cs, hcs, _, _, _, _⟩ := natDigits_shape i.natAbs
            simp [intDump, hi, hcs]
        have hj : jdump (JVal.jint i) = intDump i := rfl
        have hw : jweight (JVal.jint i) = 1 := rfl
        rw [hj, hw]
        omega
      | jfloat s =>
        have hFO : FloatOk s = true := by simpa [jwf] using hwf
        have hne : s.data ≠ [] := by
          rcases floatOk_cases s hFO with h | h | h | h
          · subst h; simp
          · subst h; simp
          · subst h; simp
          · obtain ⟨c, t, hcs, _⟩ := matchNumber_self_head h
            rw [hcs]; simp
        have hj : jdump (JVal.jfloat s) = s.data := rfl
        have hw : jweight (JVal.jfloat s) = 1 := rfl
        rw [hj, hw]
        have : 1 ≤ s.data.length := by
          cases hd : s.data with
          | nil => exact absurd hd hne
          | cons a l => simp
        omega
      | jstr s =>
        have hw : jweight (JVal.jstr s) = 1 := rfl
        have hj : (jdump (JVal.jstr s)).length =
            ((s.data.map escapeChar).join).length + 2 := by
          simp [jdump, jstrDump]
        rw [hw, hj]
        omega
      | jarr xs =>
        have hwl : jwfList xs = true := by simpa [jwf] using hwf
        have hwe : jweight (JVal.jarr xs) = jweightList xs + 2 := rfl
        cases xs with
        | nil => simp [jweight, jdump, jdumpItems, jweightList]
        | cons x xs' =>
          have hsp : jwf x = true ∧ jwfList xs' = true := by
            simpa [jwfList] using hwl
          have hwcons : jweightList (x :: xs') = jweight x + jweightList xs' + 1 := rfl
          have h1 := ih1 x (by omega) hsp.1
          have h2 := ih2 xs' (by omega) hsp.2
          have hlen : (jdump (JVal.jarr (x :: xs'))).length =
              (jdump x).length + (jdumpItemsRest xs').length + 2 := by
            simp [jdump, jdumpItems]
            omega
          rw [hwe, hwcons, hlen]
          omega
      | jobj kvs =>
        have hsp0 : jwfEntries kvs = true := by
          have h' := hwf
          simp only [jwf, Bool.and_eq_true, decide_eq_true_eq] at h'
          exact h'.2
        have hwe : jweight (JVal.jobj kvs) = jweightEntries kvs + 2 := rfl
        cases kvs with
        | nil => simp [jweight, jdump, jdumpEntries, jweightEntries]
        | cons kv kvs' =>
          obtain ⟨k, v0⟩ := kv
          have hsp : jwf v0 = true ∧ jwfEntries kvs' = true := by
            simpa [jwfEntries] using hsp0
          have hwcons : jweightEntries ((k, v0) :: kvs') =
              jweight v0 + jweightEntries kvs' + 1 := rfl
          have h1 := ih1 v0 (by omega) hsp.1
          have h2 := ih3 kvs' (by omega) hsp.2
          have hlen : (jdump (JVal.jobj ((k, v0) :: kvs'))).length =
              ((k.data.map escapeChar).join).length + (jdump v0).length +
                (jdumpEntriesRest kvs').length + 5 := by
            simp [jdump, jdumpEntries, jstrDump]
            omega
          rw [hwe, hwcons, hlen]
          omega
    · intro xs hxs hwf
      cases xs with
      | nil => simp [jweightList, jdumpItemsRest]
      | cons x xs' =>
        have hsp : jwf x = true ∧ jwfList xs' = true := by simpa [jwfList] using hwf
        have hwcons : jweightList (x :: xs') = jweight x + jweightList xs' + 1 := rfl
        have h1 := ih1 x (by omega) hsp.1
        have h2 := ih2 xs' (by omega) hsp.2
        have hlen : (jdumpItemsRest (x :: xs')).length =
            (jdump x).length + (jdumpItemsRest xs').length + 1 := by
          simp [jdumpItemsRest]
        rw [hwcons, hlen]
        omega
    · intro kvs hkvs hwf
      cases kvs with
      | nil => simp [jweightEntries, jdumpEntriesRest]
      | cons kv kvs' =>
        obtain ⟨k, v0⟩ := kv
        have hsp : jwf v0 = true ∧ jwfEntries kvs' = true := by
          simpa [jwfEntries] using hwf
        have hwcons : jweightEntries ((k, v0) :: kvs') =
            jweight v0 + jweightEntries kvs' + 1 := rfl
        have h1 := ih1 v0 (by omega) hsp.1
        have h2 := ih3 kvs' (by omega) hsp.2
        have hlen : (jdumpEntriesRest ((k, v0) :: kvs')).length =
            ((k.data.map escapeChar).join).length + (jdump v0).length +
              (jdumpEntriesRest kvs').length + 4 := by
          simp [jdumpEntriesRest, jstrDump]
          omega
        rw [hwcons, hlen]
        omega

theorem jweight_lt_fuel (v : JVal) (hwf : jwf v = true) :
    jweight v < 2 * (jdump v).length + 2 := by
  have h := (jweight_le_bound (jweight v)).1 v (le_refl _) hwf
  omega

/-- `json.loads` of the compact dump of a well-formed value returns exactly
that value. -/
theorem jloads_jdump (v : JVal) (hwf : jwf v = true) : jloads (jdump v) = some v := by
  have hsk : skipWs (jdump v) = jdump v := by
    have h := skipWs_jdump v hwf []
    simpa using h
  have hmain := (scan_master (2 * (jdump v).length + 2)).1 v [] hwf rfl
    (jweight_lt_fuel v hwf)
  rw [List.append_nil] at hmain
  rw [jloads, hsk, hmain]
  rfl

theorem char_valid_range (c : Char) :
    c.toNat < 55296 ∨ (57343 < c.toNat ∧ c.toNat < 1114112) := by
  have h := c.valid
  rcases h with h | h
  · left; exact h
  · right; exact ⟨h.1, h.2⟩

theorem utf8DecodeChar_step (c : Char) (bs : List Nat) (fuel : Nat) :
    utf8Decode (fuel + 1) (utf8EncodeChar c ++ bs) =
      (utf8Decode fuel bs).map (fun l => c :: l) := by
  have hv := char_valid_range c
  by_cases h1 : c.toNat < 128
  · have he : utf8EncodeChar c = [c.toNat] := by
      simp [utf8EncodeChar, h1]
    rw [he, List.cons_append]
    simp [utf8Decode, h1, Char.ofNat_toNat]
  · by_cases h2 : c.toNat < 2048
    · have he : utf8EncodeChar c = [192 + c.toNat / 64, 128 + c.toNat % 64] := by
        simp [utf8EncodeChar, h1, h2]
      have hm : c.toNat % 64 < 64 := Nat.mod_lt _ (by omega)
      have hd1 : 2 ≤ c.toNat / 64 := by omega
      have hd2 : c.toNat / 64 < 32 := by omega
      have c1 : ¬(192 + c.toNat / 64 < 128) := by omega
      have c2 : ¬(192 + c.toNat / 64 < 194) := by omega
      have c3 : 192 + c.toNat / 64 < 224 := by omega
      have c4 : 128 ≤ 128 + c.toNat % 64 ∧ 128 + c.toNat % 64 < 192 := by omega
      have hX : (192 + c.toNat / 64 - 192) * 64 + (128 + c.toNat % 64 - 128) = c.toNat := by
        omega
      rw [he, List.cons_append, List.cons_append]
      simp [utf8Decode, c1, c2, c3, c4, hX, Char.ofNat_toNat]
      rw [show c.toNat / 64 * 64 + c.toNat % 64 = c.toNat from by omega, Char.ofNat_toNat]
    · by_cases h3 : c.toNat < 65536
      · have he : utf8EncodeChar c =
            [224 + c.toNat / 4096, 128 + c.toNat / 64 % 64, 128 + c.toNat % 64] := by
          simp [utf8EncodeChar, h1, h2, h3]
        have hm : c.toNat % 64 < 64 := Nat.mod_lt _ (by omega)
        have hm2 : c.toNat / 64 % 64 < 64 := Nat.mod_lt _ (by omega)
        have hd2 : c.toNat / 4096 < 16 := by omega
        have c1 : ¬(224 + c.toNat / 4096 < 128) := by omega
        have c2 : ¬(224 + c.toNat / 4096 < 194) := by omega
        have c3 : ¬(224 + c.toNat / 4096 < 224) := by omega
        have c4 : 224 + c.toNat / 4096 < 240 := by omega
        have c5 : 128 ≤ 128 + c.toNat / 64 % 64 ∧ 128 + c.toNat / 64 % 64 < 192 := by omega
        have c6 : 128 ≤ 128 + c.toNat % 64 ∧ 128 + c.toNat % 64 < 192 := by omega
        have hX : (224 + c.toNat / 4096 - 224) * 4096 + (128 + c.toNat / 64 % 64 - 128) * 64 +
            (128 + c.toNat % 64 - 128) = c.toNat := by omega
        have c7 : ¬(c.toNat < 2048 ∨ (55296 ≤ c.toNat ∧ c.toNat < 57344)) := by omega
        rw [he, List.cons_append, List.cons_append, List.cons_append]
        simp [utf8Decode, c1, c2, c3, c4, c5, c6, hX, c7, Char.ofNat_toNat]
        have hY : c.toNat / 4096 * 4096 + c.toNat / 64 % 64 * 64 + c.toNat % 64 = c.toNat := by
          omega
        rw [hY]
        rw [if_neg (by omega : ¬(c.toNat < 2048 ∨ 55296 ≤ c.toNat ∧ c.toNat < 57344)),
          Char.ofNat_toNat]
      · have he : utf8EncodeChar c =
            [240 + c.toNat / 262144, 128 + c.toNat / 4096 % 64, 128 + c.toNat / 64 % 64,
              128 + c.toNat % 64] := by
          simp [utf8EncodeChar, h1, h2, h3]
        have hm : c.toNat % 64 < 64 := Nat.mod_lt _ (by omega)
        have hm2 : c.toNat / 64 % 64 < 64 := Nat.mod_lt _ (by omega)
        have hm3 : c.toNat / 4096 % 64 < 64 := Nat.mod_lt _ (by omega)
        have hd2 : c.toNat / 262144 < 5 := by omega
        have c1 : ¬(240 + c.toNat / 262144 < 128) := by omega
        have c2 : ¬(240 + c.toNat / 262144 < 194) := by omega
        have c3 : ¬(240 + c.toNat / 262144 < 224) := by omega
        have c4 : ¬(240 + c.toNat / 262144 < 240) := by omega
        have c5 : 240 + c.toNat / 262144 < 245 := by omega
        have c6 : 128 ≤ 128 + c.toNat / 4096 % 64 ∧ 128 + c.toNat / 4096 % 64 < 192 := by omega
        have c7 : 128 ≤ 128 + c.toNat / 64 % 64 ∧ 128 + c.toNat / 64 % 64 < 192 := by omega
        have c8 : 128 ≤ 128 + c.toNat % 64 ∧ 128 + c.toNat % 64 < 192 := by omega
        have hX : (240 + c.toNat / 262144 - 240) * 262144 + (128 + c.toNat / 4096 % 64 - 128) * 4096 +
            (128 + c.toNat / 64 % 64 - 128) * 64 + (128 + c.toNat % 64 - 128) = c.toNat := by omega
        have c9 : ¬(c.toNat < 65536 ∨ 1114112 ≤ c.toNat) := by omega
        rw [he, List.cons_append, List.cons_append, List.cons_append, List.cons_append]
        simp [utf8Decode, c1, c2, c3, c4, c5, c6, c7, c8, hX, c9, Char.ofNat_toNat]
        have hY : c.toNat / 262144 * 262144 + c.toNat / 4096 % 64 * 4096 +
            c.toNat / 64 % 64 * 64 + c.toNat % 64 = c.toNat := by omega
        rw [hY]
        rw [if_neg (by omega : ¬(c.toNat < 65536 ∨ 1114112 ≤ c.toNat)), Char.ofNat_toNat]

theorem utf8Decode_encode : ∀ (s : List Char) (fuel : Nat), s.length ≤ fuel →
    utf8Decode fuel (utf8Encode s) = some s := by
  intro s
  induction s with
  | nil =>
    intro fuel _
    cases fuel <;> rfl
  | cons c s' ih =>
    intro fuel hf
    cases fuel with
    | zero => simp at hf
    | succ f =>
      have he : utf8Encode (c :: s') = utf8EncodeChar c ++ utf8Encode s' := by
        simp [utf8Encode]
      rw [he, utf8DecodeChar_step, ih f (by simp at hf; omega)]
      rfl

theorem utf8Encode_length (s : List Char) : s.length ≤ (utf8Encode s).length := by
  induction s with
  | nil => simp [utf8Encode]
  | cons c s' ih =>
    have he : utf8Encode (c :: s') = utf8EncodeChar c ++ utf8Encode s' := by
      simp [utf8Encode]
    have hc : 1 ≤ (utf8EncodeChar c).length := by
      rw [utf8EncodeChar]
      by_cases h1 : c.toNat < 128
      · simp [h1]
      · by_cases h2 : c.toNat < 2048
        · simp [h1, h2]
        · by_cases h3 : c.toNat < 65536
          · simp [h1, h2, h3]
          · simp [h1, h2, h3]
    rw [he]
    simp only [List.length_append, List.length_cons]
    omega

theorem optMapM_roundtrip {α β : Type} (f : α → β) (g : β → Option α) :
    ∀ (xs : List α), (∀ x ∈ xs, g (f x) = some x) → optMapM g (xs.map f) = some xs := by
  intro xs
  induction xs with
  | nil => intro _; rfl
  | cons x xs' ih =>
    intro h
    simp only [List.map_cons, optMapM, h x (by simp), Option.some_bind]
    rw [ih (fun y hy => h y (by simp [hy]))]
    rfl

theorem jToBCVal_bcValToJ (b : BCVal) : jToBCVal (bcValToJ b) = some b := by
  cases b <;> rfl

theorem decode_encode_instruction (i : Instruction) :
    _decode_instruction (_encode_instruction i) = some i := by
  obtain ⟨op, args⟩ := i
  have hm := optMapM_roundtrip bcValToJ jToBCVal args (fun x _ => jToBCVal_bcValToJ x)
  simp [_encode_instruction, _decode_instruction, alookup, hm, jToStr]

theorem decode_encode_function (f : FunctionBC) :
    _decode_function (_encode_function f) = some f := by
  obtain ⟨name, params, lc, instrs⟩ := f
  have hi := optMapM_roundtrip _encode_instruction _decode_instruction instrs
    (fun x _ => decode_encode_instruction x)
  have hp := optMapM_roundtrip JVal.jstr jToStr params (fun x _ => rfl)
  simp [_encode_function, _decode_function, alookup, hi, hp, jToStr]

theorem decodeProgramObj_payload (p : ProgramBC) :
    decodeProgramObj (programPayload p) = some p := by
  obtain ⟨fns, entry, gc⟩ := p
  have hf := optMapM_roundtrip (fun nf => (nf.1, _encode_function nf.2))
    (fun kv => (_decode_function kv.2).map (fun f => (kv.1, f))) fns
    (fun x _ => by obtain ⟨n, f⟩ := x; simp [decode_encode_function])
  simp [programPayload, decodeProgramObj, alookup, hf, decode_encode_function]

theorem bcValWF_jwf (b : BCVal) (h : bcValWF b = true) : jwf (bcValToJ b) = true := by
  cases b <;> simpa [bcValToJ, jwf, bcValWF] using h

theorem jwfList_map_bcval (args : List BCVal) (h : args.all bcValWF = true) :
    jwfList (args.map bcValToJ) = true := by
  induction args with
  | nil => rfl
  | cons a as ih =>
    simp only [List.all_cons, Bool.and_eq_true] at h
    simp only [List.map_cons, jwfList, Bool.and_eq_true]
    exact ⟨bcValWF_jwf a h.1, ih h.2⟩

theorem instrWF_jwf (i : Instruction) (h : instrWF i = true) :
    jwf (_encode_instruction i) = true := by
  obtain ⟨op, args⟩ := i
  simp only [instrWF] at h
  simp [_encode_instruction, jwf, jwfEntries, jwfList_map_bcval args h]

theorem jwfList_map_jstr (params : List String) :
    jwfList (params.map JVal.jstr) = true := by
  induction params with
  | nil => rfl
  | cons a as ih =>
    simp only [List.map_cons, jwfList, Bool.and_eq_true]
    exact ⟨rfl, ih⟩

theorem jwfList_map_instr (instrs : List Instruction) (h : instrs.all instrWF = true) :
    jwfList (instrs.map _encode_instruction) = true := by
  induction instrs with
  | nil => rfl
  | cons a as ih =>
    simp only [List.all_cons, Bool.and_eq_true] at h
    simp only [List.map_cons, jwfList, Bool.and_eq_true]
    exact ⟨instrWF_jwf a h.1, ih h.2⟩

theorem funcWF_jwf (f : FunctionBC) (h : funcWF f = true) :
    jwf (_encode_function f) = true := by
  obtain ⟨name, params, lc, instrs⟩ := f
  simp only [funcWF] at h
  simp [_encode_function, jwf, jwfEntries, jwfList_map_jstr params,
    jwfList_map_instr instrs h]

theorem jwfEntries_map_func (fns : List (String × FunctionBC))
    (h : fns.all (fun nf => funcWF nf.2) = true) :
    jwfEntries (fns.map (fun nf => (nf.1, _encode_function nf.2))) = true := by
  induction fns with
  | nil => rfl
  | cons a as ih =>
    obtain ⟨n, f⟩ := a
    simp only [List.all_cons, Bool.and_eq_true] at h
    simp only [List.map_cons, jwfEntries, Bool.and_eq_true]
    exact ⟨funcWF_jwf f h.1, ih h.2⟩

theorem programWF_jwf (p : ProgramBC) (h : programWF p = true) :
    jwf (programPayload p) = true := by
  obtain ⟨fns, entry, gc⟩ := p
  simp only [programWF, Bool.and_eq_true, decide_eq_true_eq] at h
  obtain ⟨⟨hnd, hall⟩, hentry⟩ := h
  have hmap : ((fns.map (fun nf => (nf.1, _encode_function nf.2))).map Prod.fst) =
      fns.map Prod.fst := by
    rw [List.map_map]
    rfl
  simp [programPayload, jwf, jwfEntries, hmap, hnd, jwfEntries_map_func fns hall]
  exact funcWF_jwf entry hentry

/-- Decoding the encoded container of a well-formed program of encodable size
recovers the program exactly. -/
theorem decode_encode_program (p : ProgramBC)
    (hwf : jwf (programPayload p) = true)
    (hsize : (utf8Encode (jdump (programPayload p))).length < 4294967296) :
    encode_program p = some (MAGIC ++ (pack32 (utf8Encode (jdump (programPayload p))).length ++
        utf8Encode (jdump (programPayload p)))) ∧
      decode_program (MAGIC ++ (pack32 (utf8Encode (jdump (programPayload p))).length ++
        utf8Encode (jdump (programPayload p)))) = Except.ok p := by
  constructor
  · rw [encode_program]
    simp only [if_pos hsize]
  · set raw := utf8Encode (jdump (programPayload p)) with hraw
    have hlen : (MAGIC ++ (pack32 raw.length ++ raw)).length = 12 + raw.length := by
      simp [MAGIC, pack32]
      omega
    rw [decode_program]
    rw [if_neg (by omega : ¬(MAGIC ++ (pack32 raw.length ++ raw)).length < 12)]
    have htake : (MAGIC ++ (pack32 raw.length ++ raw)).take 8 = MAGIC :=
      List.take_left' rfl
    have hdrop : (MAGIC ++ (pack32 raw.length ++ raw)).drop 8 = pack32 raw.length ++ raw :=
      List.drop_left' rfl
    rw [htake]
    simp only [ne_eq, not_true_eq_false, if_false, ite_false]
    rw [hdrop]
    have hp32 : pack32 raw.length ++ raw =
        raw.length % 256 :: (raw.length / 256 % 256 ::
          (raw.length / 65536 % 256 :: (raw.length / 16777216 % 256 :: raw))) := by
      simp [pack32]
    rw [hp32]
    have hunpack : unpack32 (raw.length % 256) (raw.length / 256 % 256)
        (raw.length / 65536 % 256) (raw.length / 16777216 % 256) = raw.length := by
      rw [unpack32]
      omega
    have hdec : utf8Decode raw.length raw = some (jdump (programPayload p)) := by
      rw [hraw]
      exact utf8Decode_encode _ _ (utf8Encode_length _)
    simp only [hunpack, ne_eq, not_true_eq_false, if_false, ite_false, hdec,
      jloads_jdump (programPayload p) hwf, decodeProgramObj_payload]

/-- **C3.**  For every program record — an insertion-ordered name-to-function
map with distinct keys, an entry function and a global count, where each
instruction carries an opcode string and a list of scalar literal argument
values (floats carried by their `repr` text) — whose JSON payload fits the
container's 4-byte length field, `encode_program` succeeds and
`decode_program` of the encoded container yields the program again
pointwise. -/
theorem bytecode_roundtrip (p : ProgramBC)
    (hwf : programWF p = true)
    (hsize : (utf8Encode (jdump (programPayload p))).length < 4294967296) :
    ∃ blob, encode_program p = some blob ∧ decode_program blob = Except.ok p := by
  obtain ⟨h1, h2⟩ := decode_encode_program p (programWF_jwf p hwf) hsize
  exact ⟨_, h1, h2⟩

/-- A small two-function program exercising every argument shape (ints,
strings, a float text, null, bools). -/
def sampleProgram : ProgramBC :=
  ⟨[("helper", ⟨"helper", ["x"], 1,
      [⟨"LOAD", [.bInt 0]⟩, ⟨"CONST", [.bFloat "1.5", .bNull, .bBool true]⟩,
        ⟨"RET", []⟩]⟩)],
    ⟨"__main__", [], 2, [⟨"CALL", [.bStr "helper", .bInt 1]⟩, ⟨"HALT", []⟩]⟩,
    3⟩

/-- Witness for `bytecode_roundtrip`: the sample program is well formed, its
payload fits the length field, and the round trip through the container
recovers it. -/
theorem bytecode_roundtrip_witness :
    programWF sampleProgram = true ∧
    (utf8Encode (jdump (programPayload sampleProgram))).length < 4294967296 ∧
    (∃ blob, encode_program sampleProgram = some blob ∧
      decode_program blob = Except.ok sampleProgram) :=
  ⟨by decide, by decide, bytecode_roundtrip sampleProgram (by decide) (by decide)⟩

/- ===================================================================== -/
/-  Task spawning and globals isolation (vm.py: _builtin_spawn,           -/
/-  _clone_globals, _clone_value)                                         -/
/- ===================================================================== -/

/-- VM runtime values as CPython holds them: immediates (`None`, bools,
ints, floats, strings) and task handles are immutable or shared, while a
list or dict value is a reference to a mutable object in the heap. -/
inductive HVal where
  | hNone
  | hBool (b : Bool)
  | hInt (n : Int)
  | hFloat (text : String)
  | hStr (s : String)
  | hTask (t : Nat)
  | hRef (a : Nat)
deriving DecidableEq

/-- A mutable heap object: the cells of a list or the entries of a dict. -/
inductive HeapObj where
  | oList (items : List HVal)
  | oDict (entries : List (HVal × HVal))
deriving DecidableEq

def halookup : List (Nat × HeapObj) → Nat → Option HeapObj
  | [], _ => none
  | (a, o) :: rest, b => if a = b then some o else halookup rest b

/-- An in-place mutation of the object at an address (what `INDEX_SET` and
dict assignment do). -/
def hupdate : List (Nat × HeapObj) → Nat → HeapObj → List (Nat × HeapObj)
  | [], _, _ => []
  | (a, o) :: rest, b, o' =>
    if a = b then (a, o') :: rest else (a, o) :: hupdate rest b o'

def valRefs : HVal → List Nat
  | .hRef a => [a]
  | _ => []

def objRefs : HeapObj → List Nat
  | .oList items => (items.map valRefs).join
  | .oDict entries => (entries.map (fun kv => valRefs kv.1 ++ valRefs kv.2)).join

/-- A value's references all predate the allocation counter. -/
def valWFb (ctr : Nat) (v : HVal) : Bool := (valRefs v).all (fun a => a < ctr)

/-- Heap addresses and every reference stored in the heap predate the
allocation counter. -/
def heapWFb (h : List (Nat × HeapObj)) (ctr : Nat) : Bool :=
  h.all (fun ao => decide (ao.1 < ctr) && (objRefs ao.2).all (fun r => r < ctr))

mutual
/-- `VirtualMachine._clone_value`: `None`, bools, ints, floats, strings and
task handles are returned unchanged; a list or dict reference is cloned into
a fresh address with its contents cloned recursively.  The fuel bounds the
recursion depth, as CPython's call stack does on a cyclic object graph. -/
def cloneValue : Nat → List (Nat × HeapObj) → Nat → HVal →
    Option (HVal × List (Nat × HeapObj) × Nat)
  | 0, _, _, _ => none
  | fuel + 1, h, ctr, v =>
    match v with
    | .hRef a =>
      match halookup h a with
      | none => none
      | some (.oList items) =>
        match cloneValList fuel h ctr items with
        | none => none
        | some (items', h', ctr') =>
          some (.hRef ctr', (ctr', .oList items') :: h', ctr' + 1)
      | some (.oDict entries) =>
        match cloneValEntries fuel h ctr entries with
        | none => none
        | some (entries', h', ctr') =>
          some (.hRef ctr', (ctr', .oDict entries') :: h', ctr' + 1)
    | w => some (w, h, ctr)

/-- The element loop shared by list cloning and `_clone_globals`. -/
def cloneValList : Nat → List (Nat × HeapObj) → Nat → List HVal →
    Option (List HVal × List (Nat × HeapObj) × Nat)
  | _, h, ctr, [] => some ([], h, ctr)
  | 0, _, _, _ :: _ => none
  | fuel + 1, h, ctr, v :: vs =>
    match cloneValue fuel h ctr v with
    | none => none
    | some (v', h', ctr') =>
      match cloneValList fuel h' ctr' vs with
      | none => none
      | some (vs', h'', ctr'') => some (v' :: vs', h'', ctr'')

def cloneValEntries : Nat → List (Nat × HeapObj) → Nat → List (HVal × HVal) →
    Option (List (HVal × HVal) × List (Nat × HeapObj) × Nat)
  | _, h, ctr, [] => some ([], h, ctr)
  | 0, _, _, _ :: _ => none
  | fuel + 1, h, ctr, kv :: kvs =>
    match cloneValue fuel h ctr kv.1 with
    | none => none
    | some (k', h', ctr') =>
      match cloneValue fuel h' ctr' kv.2 with
      | none => none
      | some (v', h'', ctr'') =>
        match cloneValEntries fuel h'' ctr'' kvs with
        | none => none
        | some (kvs', h3, ctr3) => some ((k', v') :: kvs', h3, ctr3)
end

/-- The denoted value of a VM value: the tree a task or the spawner actually
observes when it reads through references. -/
inductive VTree where
  | tNone
  | tBool (b : Bool)
  | tInt (n : Int)
  | tFloat (text : String)
  | tStr (s : String)
  | tTask (t : Nat)
  | tList (items : List VTree)
  | tDict (entries : List (VTree × VTree))

mutual
def readVal : Nat → List (Nat × HeapObj) → HVal → Option VTree
  | 0, _, _ => none
  | fuel + 1, h, v =>
    match v with
    | .hNone => some .tNone
    | .hBool b => some (.tBool b)
    | .hInt n => some (.tInt n)
    | .hFloat t => some (.tFloat t)
    | .hStr s => some (.tStr s)
    | .hTask t => some (.tTask t)
    | .hRef a =>
      match halookup h a with
      | none => none
      | some (.oList items) => (readValList fuel h items).map VTree.tList
      | some (.oDict entries) => (readValEntries fuel h entries).map VTree.tDict

def readValList : Nat → List (Nat × HeapObj) → List HVal → Option (List VTree)
  | _, _, [] => some []
  | 0, _, _ :: _ => none
  | fuel + 1, h, v :: vs =>
    match readVal fuel h v with
    | none => none
    | some t =>
      match readValList fuel h vs with
      | none => none
      | some ts => some (t :: ts)

def readValEntries : Nat → List (Nat × HeapObj) → List (HVal × HVal) →
    Option (List (VTree × VTree))
  | _, _, [] => some []
  | 0, _, _ :: _ => none
  | fuel + 1, h, kv :: kvs =>
    match readVal fuel h kv.1 with
    | none => none
    | some tk =>
      match readVal fuel h kv.2 with
      | none => none
      | some tv =>
        match readValEntries fuel h kvs with
        | none => none
        | some ts => some ((tk, tv) :: ts)
end

mutual
/-- The heap addresses a value can lead the interpreter to (up to the given
depth): where its mutations can land. -/
def reachVal : Nat → List (Nat × HeapObj) → HVal → List Nat
  | 0, _, _ => []
  | fuel + 1, h, v =>
    match v with
    | .hRef a =>
      a :: (match halookup h a with
        | none => []
        | some (.oList items) => reachValList fuel h items
        | some (.oDict entries) => reachValEntries fuel h entries)
    | _ => []

def reachValList : Nat → List (Nat × HeapObj) → List HVal → List Nat
  | _, _, [] => []
  | 0, _, _ :: _ => []
  | fuel + 1, h, v :: vs => reachVal fuel h v ++ reachValList fuel h vs

def reachValEntries : Nat → List (Nat × HeapObj) → List (HVal × HVal) → List Nat
  | _, _, [] => []
  | 0, _, _ :: _ => []
  | fuel + 1, h, kv :: kvs =>
    reachVal fuel h kv.1 ++ reachVal fuel h kv.2 ++ reachValEntries fuel h kvs
end

theorem mem_objRefs_oList {r : Nat} {items : List HVal} :
    r ∈ objRefs (.oList items) ↔ ∃ v ∈ items, r ∈ valRefs v := by
  simp [objRefs]

theorem mem_objRefs_oDict {r : Nat} {kvs : List (HVal × HVal)} :
    r ∈ objRefs (.oDict kvs) ↔ ∃ kv ∈ kvs, r ∈ valRefs kv.1 ∨ r ∈ valRefs kv.2 := by
  simp only [objRefs, List.mem_join, List.mem_map]
  constructor
  · rintro ⟨l, ⟨kv, hkv, rfl⟩, hr⟩
    exact ⟨kv, hkv, List.mem_append.mp hr⟩
  · rintro ⟨kv, hkv, hr⟩
    exact ⟨valRefs kv.1 ++ valRefs kv.2, ⟨kv, hkv, rfl⟩, List.mem_append.mpr hr⟩

theorem heapWFb_lookup {h : List (Nat × HeapObj)} {ctr a : Nat} {o : HeapObj}
    (hwf : heapWFb h ctr = true) (hl : halookup h a = some o) :
    a < ctr ∧ ∀ r ∈ objRefs o, r < ctr := by
  induction h with
  | nil => simp [halookup] at hl
  | cons p rest ih =>
    obtain ⟨b, ob⟩ := p
    simp only [heapWFb, List.all_cons, Bool.and_eq_true, decide_eq_true_eq,
      List.all_eq_true] at hwf
    simp only [halookup] at hl
    by_cases hba : b = a
    · rw [if_pos hba] at hl
      obtain rfl := hba
      obtain rfl : ob = o := by injection hl
      exact ⟨hwf.1.1, fun r hr => hwf.1.2 r hr⟩
    · rw [if_neg hba] at hl
      have : heapWFb rest ctr = true := by
        simp only [heapWFb, List.all_eq_true]
        intro x hx
        have := hwf.2 x hx
        simpa using this
      exact ih this hl

theorem valWFb_mono {c c' : Nat} {v : HVal} (hle : c ≤ c')
    (hv : valWFb c v = true) : valWFb c' v = true := by
  simp only [valWFb, List.all_eq_true, decide_eq_true_eq] at hv ⊢
  intro a ha
  exact lt_of_lt_of_le (hv a ha) hle

theorem heapWFb_mono {c c' : Nat} {h : List (Nat × HeapObj)} (hle : c ≤ c')
    (hh : heapWFb h c = true) : heapWFb h c' = true := by
  simp only [heapWFb, List.all_eq_true, Bool.and_eq_true, decide_eq_true_eq] at hh ⊢
  intro x hx
  obtain ⟨h1, h2⟩ := hh x hx
  exact ⟨lt_of_lt_of_le h1 hle, fun r hr => lt_of_lt_of_le (h2 r hr) hle⟩

theorem hupdate_lookup_ne {h : List (Nat × HeapObj)} {a b : Nat} {o : HeapObj}
    (hne : b ≠ a) : halookup (hupdate h a o) b = halookup h b := by
  induction h with
  | nil => rfl
  | cons p rest ih =>
    obtain ⟨c, oc⟩ := p
    simp only [hupdate]
    by_cases hca : c = a
    · rw [if_pos hca]
      obtain rfl := hca
      simp only [halookup]
      rw [if_neg (fun hh => hne hh.symm), if_neg (fun hh => hne hh.symm)]
    · rw [if_neg hca]
      simp only [halookup]
      by_cases hcb : c = b
      · rw [if_pos hcb, if_pos hcb]
      · rw [if_neg hcb, if_neg hcb, ih]

theorem halookup_cons_self {h : List (Nat × HeapObj)} {a : Nat} {o : HeapObj} :
    halookup ((a, o) :: h) a = some o := by
  simp [halookup]

theorem halookup_cons_ne {h : List (Nat × HeapObj)} {a b : Nat} {o : HeapObj}
    (hne : a ≠ b) : halookup ((a, o) :: h) b = halookup h b := by
  simp [halookup, hne]

/-- Reading through references only consults heap addresses inside a predicate
closed under the heap's own references, so two heaps agreeing on those
addresses denote the same trees. -/
theorem read_ext (P : Nat → Prop) (h1 h2 : List (Nat × HeapObj))
    (hclosed : ∀ a, P a → ∀ o, halookup h1 a = some o → ∀ r ∈ objRefs o, P r)
    (hag : ∀ a, P a → halookup h2 a = halookup h1 a) :
    ∀ fuel : Nat,
      (∀ v, (∀ r ∈ valRefs v, P r) → readVal fuel h2 v = readVal fuel h1 v) ∧
      (∀ vs, (∀ v ∈ vs, ∀ r ∈ valRefs v, P r) →
        readValList fuel h2 vs = readValList fuel h1 vs) ∧
      (∀ kvs, (∀ kv ∈ kvs, (∀ r ∈ valRefs kv.1, P r) ∧ (∀ r ∈ valRefs kv.2, P r)) →
        readValEntries fuel h2 kvs = readValEntries fuel h1 kvs) := by
  intro fuel
  induction fuel with
  | zero =>
    refine ⟨fun v _ => rfl, fun vs _ => ?_, fun kvs _ => ?_⟩
    · cases vs <;> rfl
    · cases kvs <;> rfl
  | succ f ih =>
    obtain ⟨ihV, ihL, ihE⟩ := ih
    refine ⟨?_, ?_, ?_⟩
    · intro v hv
      cases v with
      | hRef a =>
        have hPa : P a := hv a (by simp [valRefs])
        have hlag := hag a hPa
        cases hl : halookup h1 a with
        | none => simp only [readVal, hlag, hl]
        | some o =>
          cases o with
          | oList items =>
            have hitems : ∀ w ∈ items, ∀ r ∈ valRefs w, P r := by
              intro w hw r hr
              exact hclosed a hPa _ hl r (mem_objRefs_oList.mpr ⟨w, hw, hr⟩)
            simp only [readVal, hlag, hl, ihL items hitems]
          | oDict kvs =>
            have hkvs : ∀ kv ∈ kvs, (∀ r ∈ valRefs kv.1, P r) ∧ (∀ r ∈ valRefs kv.2, P r) := by
              intro kv hkv
              constructor
              · intro r hr
                exact hclosed a hPa _ hl r (mem_objRefs_oDict.mpr ⟨kv, hkv, Or.inl hr⟩)
              · intro r hr
                exact hclosed a hPa _ hl r (mem_objRefs_oDict.mpr ⟨kv, hkv, Or.inr hr⟩)
            simp only [readVal, hlag, hl, ihE kvs hkvs]
      | hNone => rfl
      | hBool b => rfl
      | hInt n => rfl
      | hFloat t => rfl
      | hStr s => rfl
      | hTask t => rfl
    · intro vs hvs
      cases vs with
      | nil => rfl
      | cons v rest =>
        simp only [readValList]
        rw [ihV v (hvs v (List.mem_cons_self v rest)),
          ihL rest (fun w hw => hvs w (List.mem_cons_of_mem v hw))]
    · intro kvs hkvs
      cases kvs with
      | nil => rfl
      | cons kv rest =>
        simp only [readValEntries]
        rw [(ihV kv.1 (hkvs kv (List.mem_cons_self kv rest)).1),
          (ihV kv.2 (hkvs kv (List.mem_cons_self kv rest)).2),
          ihE rest (fun x hx => hkvs x (List.mem_cons_of_mem kv hx))]

/-- Reachable addresses stay inside a predicate closed under the heap's
references. -/
theorem reach_closed (P : Nat → Prop) (h : List (Nat × HeapObj))
    (hclosed : ∀ a, P a → ∀ o, halookup h a = some o → ∀ r ∈ objRefs o, P r) :
    ∀ fuel : Nat,
      (∀ v, (∀ r ∈ valRefs v, P r) → ∀ r ∈ reachVal fuel h v, P r) ∧
      (∀ vs, (∀ v ∈ vs, ∀ r ∈ valRefs v, P r) →
        ∀ r ∈ reachValList fuel h vs, P r) ∧
      (∀ kvs, (∀ kv ∈ kvs, (∀ r ∈ valRefs kv.1, P r) ∧ (∀ r ∈ valRefs kv.2, P r)) →
        ∀ r ∈ reachValEntries fuel h kvs, P r) := by
  intro fuel
  induction fuel with
  | zero =>
    refine ⟨fun v _ r hr => absurd hr (by simp [reachVal]),
      fun vs _ r hr => ?_, fun kvs _ r hr => ?_⟩
    · cases vs <;> simp [reachValList] at hr
    · cases kvs <;> simp [reachValEntries] at hr
  | succ f ih =>
    obtain ⟨ihV, ihL, ihE⟩ := ih
    refine ⟨?_, ?_, ?_⟩
    · intro v hv r hr
      cases v with
      | hRef a =>
        have hPa : P a := hv a (by simp [valRefs])
        simp only [reachVal] at hr
        rcases List.mem_cons.mp hr with hra | hrm
        · exact hra ▸ hPa
        · cases hl : halookup h a with
          | none => rw [hl] at hrm; simp at hrm
          | some o =>
            rw [hl] at hrm
            cases o with
            | oList items =>
              have hitems : ∀ w ∈ items, ∀ x ∈ valRefs w, P x := by
                intro w hw x hx
                exact hclosed a hPa _ hl x (mem_objRefs_oList.mpr ⟨w, hw, hx⟩)
              exact ihL items hitems r hrm
            | oDict kvs =>
              have hkvs : ∀ kv ∈ kvs, (∀ x ∈ valRefs kv.1, P x) ∧ (∀ x ∈ valRefs kv.2, P x) := by
                intro kv hkv
                exact ⟨fun x hx => hclosed a hPa _ hl x (mem_objRefs_oDict.mpr ⟨kv, hkv, Or.inl hx⟩),
                  fun x hx => hclosed a hPa _ hl x (mem_objRefs_oDict.mpr ⟨kv, hkv, Or.inr hx⟩)⟩
              exact ihE kvs hkvs r hrm
      | hNone => simp [reachVal] at hr
      | hBool b => simp [reachVal] at hr
      | hInt n => simp [reachVal] at hr
      | hFloat t => simp [reachVal] at hr
      | hStr s => simp [reachVal] at hr
      | hTask t => simp [reachVal] at hr
    · intro vs hvs r hr
      cases vs with
      | nil => simp [reachValList] at hr
      | cons v rest =>
        simp only [reachValList, List.mem_append] at hr
        rcases hr with hr | hr
        · exact ihV v (hvs v (List.mem_cons_self v rest)) r hr
        · exact ihL rest (fun w hw => hvs w (List.mem_cons_of_mem v hw)) r hr
    · intro kvs hkvs r hr
      cases kvs with
      | nil => simp [reachValEntries] at hr
      | cons kv rest =>
        simp only [reachValEntries, List.mem_append] at hr
        rcases hr with (hr | hr) | hr
        · exact ihV kv.1 (hkvs kv (List.mem_cons_self kv rest)).1 r hr
        · exact ihV kv.2 (hkvs kv (List.mem_cons_self kv rest)).2 r hr
        · exact ihE rest (fun x hx => hkvs x (List.mem_cons_of_mem kv hx)) r hr

/-- Specialization of read agreement to the addresses below a counter, with
closure supplied by heap well-formedness. -/
theorem readVal_ext_lt (fuel : Nat) (h h2 : List (Nat × HeapObj)) (c : Nat) (v : HVal)
    (hwf : heapWFb h c = true) (hv : valWFb c v = true)
    (hag : ∀ b, b < c → halookup h2 b = halookup h b) :
    readVal fuel h2 v = readVal fuel h v := by
  have hv2 : ∀ r ∈ valRefs v, r < c := by
    simpa [valWFb, List.all_eq_true] using hv
  exact (read_ext (fun a => a < c) h h2
    (fun a ha o hl r hr => (heapWFb_lookup hwf hl).2 r hr)
    (fun a ha => hag a ha) fuel).1 v hv2

theorem readValList_ext_lt (fuel : Nat) (h h2 : List (Nat × HeapObj)) (c : Nat)
    (vs : List HVal) (hwf : heapWFb h c = true)
    (hvs : ∀ v ∈ vs, valWFb c v = true)
    (hag : ∀ b, b < c → halookup h2 b = halookup h b) :
    readValList fuel h2 vs = readValList fuel h vs := by
  have hvs2 : ∀ v ∈ vs, ∀ r ∈ valRefs v, r < c := by
    intro v hv
    simpa [valWFb, List.all_eq_true] using hvs v hv
  exact (read_ext (fun a => a < c) h h2
    (fun a ha o hl r hr => (heapWFb_lookup hwf hl).2 r hr)
    (fun a ha => hag a ha) fuel).2.1 vs hvs2

/-- What a successful `_clone_value` on a well-formed state guarantees: the
allocation counter only grows, the post-state heap is well formed, every
pre-existing address still holds its old object, the clone only refers to
fresh addresses, every object at a fresh address refers only to fresh
addresses, and the clone denotes the same tree as the original. -/
def cloneValuePost (fuel : Nat) (h : List (Nat × HeapObj)) (ctr : Nat)
    (v v' : HVal) (h' : List (Nat × HeapObj)) (ctr' : Nat) : Prop :=
  ctr ≤ ctr' ∧ heapWFb h' ctr' = true ∧
  (∀ b, b < ctr → halookup h' b = halookup h b) ∧
  valWFb ctr' v' = true ∧
  (∀ r ∈ valRefs v', ctr ≤ r) ∧
  (∀ a o, ctr ≤ a → halookup h' a = some o → ∀ r ∈ objRefs o, ctr ≤ r) ∧
  readVal fuel h' v' = readVal fuel h v

def cloneListPost (fuel : Nat) (h : List (Nat × HeapObj)) (ctr : Nat)
    (vs vs' : List HVal) (h' : List (Nat × HeapObj)) (ctr' : Nat) : Prop :=
  ctr ≤ ctr' ∧ heapWFb h' ctr' = true ∧
  (∀ b, b < ctr → halookup h' b = halookup h b) ∧
  (∀ w ∈ vs', valWFb ctr' w = true) ∧
  (∀ w ∈ vs', ∀ r ∈ valRefs w, ctr ≤ r) ∧
  (∀ a o, ctr ≤ a → halookup h' a = some o → ∀ r ∈ objRefs o, ctr ≤ r) ∧
  readValList fuel h' vs' = readValList fuel h vs

def cloneEntriesPost (fuel : Nat) (h : List (Nat × HeapObj)) (ctr : Nat)
    (kvs kvs' : List (HVal × HVal)) (h' : List (Nat × HeapObj)) (ctr' : Nat) : Prop :=
  ctr ≤ ctr' ∧ heapWFb h' ctr' = true ∧
  (∀ b, b < ctr → halookup h' b = halookup h b) ∧
  (∀ kv ∈ kvs', valWFb ctr' kv.1 = true ∧ valWFb ctr' kv.2 = true) ∧
  (∀ kv ∈ kvs', (∀ r ∈ valRefs kv.1, ctr ≤ r) ∧ (∀ r ∈ valRefs kv.2, ctr ≤ r)) ∧
  (∀ a o, ctr ≤ a → halookup h' a = some o → ∀ r ∈ objRefs o, ctr ≤ r) ∧
  readValEntries fuel h' kvs' = readValEntries fuel h kvs

/-- The master invariant of `_clone_value` / `_clone_globals`, by induction on
the fuel across the three mutually recursive clone functions. -/
theorem clone_master :
    ∀ fuel : Nat,
      (∀ h ctr v v' h' ctr', cloneValue fuel h ctr v = some (v', h', ctr') →
        heapWFb h ctr = true → valWFb ctr v = true →
        cloneValuePost fuel h ctr v v' h' ctr') ∧
      (∀ h ctr vs vs' h' ctr', cloneValList fuel h ctr vs = some (vs', h', ctr') →
        heapWFb h ctr = true → (∀ w ∈ vs, valWFb ctr w = true) →
        cloneListPost fuel h ctr vs vs' h' ctr') ∧
      (∀ h ctr kvs kvs' h' ctr', cloneValEntries fuel h ctr kvs = some (kvs', h', ctr') →
        heapWFb h ctr = true →
        (∀ kv ∈ kvs, valWFb ctr kv.1 = true ∧ valWFb ctr kv.2 = true) →
        cloneEntriesPost fuel h ctr kvs kvs' h' ctr') := by
  intro fuel
  induction fuel with
  | zero =>
    refine ⟨fun h ctr v v' h' ctr' hcl => absurd hcl (by simp [cloneValue]),
      fun h ctr vs vs' h' ctr' hcl hwf hvs => ?_,
      fun h ctr kvs kvs' h' ctr' hcl hwf hkvs => ?_⟩
    · cases vs with
      | nil =>
        simp only [cloneValList, Option.some.injEq, Prod.mk.injEq] at hcl
        obtain ⟨rfl, rfl, rfl⟩ := hcl
        exact ⟨le_refl _, hwf, fun b _ => rfl, fun w hw => absurd hw (by simp),
          fun w hw => absurd hw (by simp),
          fun a o ha ho => absurd (heapWFb_lookup hwf ho).1 (by omega), rfl⟩
      | cons v rest => simp [cloneValList] at hcl
    · cases kvs with
      | nil =>
        simp only [cloneValEntries, Option.some.injEq, Prod.mk.injEq] at hcl
        obtain ⟨rfl, rfl, rfl⟩ := hcl
        exact ⟨le_refl _, hwf, fun b _ => rfl, fun kv hkv => absurd hkv (by simp),
          fun kv hkv => absurd hkv (by simp),
          fun a o ha ho => absurd (heapWFb_lookup hwf ho).1 (by omega), rfl⟩
      | cons kv rest => simp [cloneValEntries] at hcl
  | succ f ih =>
    obtain ⟨ihV, ihL, ihE⟩ := ih
    have refCase : ∀ h ctr (a : Nat) v' h' ctr',
        cloneValue (f + 1) h ctr (.hRef a) = some (v', h', ctr') →
        heapWFb h ctr = true → valWFb ctr (.hRef a) = true →
        cloneValuePost (f + 1) h ctr (.hRef a) v' h' ctr' := by
      intro h ctr a v' h' ctr' hcl hwf hv
      simp only [cloneValue] at hcl
      cases hl : halookup h a with
      | none => rw [hl] at hcl; simp at hcl
      | some o =>
        rw [hl] at hcl
        have hrefs := (heapWFb_lookup hwf hl).2
        cases o with
        | oList items =>
          have hcl2 : (match cloneValList f h ctr items with
              | none => none
              | some (items', h1, c1) =>
                some (HVal.hRef c1, (c1, HeapObj.oList items') :: h1, c1 + 1)) =
              some (v', h', ctr') := hcl
          cases hsub : cloneValList f h ctr items with
          | none => rw [hsub] at hcl2; simp at hcl2
          | some res =>
            obtain ⟨items', h1, c1⟩ := res
            rw [hsub] at hcl2
            simp only [Option.some.injEq, Prod.mk.injEq] at hcl2
            obtain ⟨rfl, rfl, rfl⟩ := hcl2
            have hitems : ∀ w ∈ items, valWFb ctr w = true := by
              intro w hw
              simp only [valWFb, List.all_eq_true, decide_eq_true_eq]
              intro r hr
              exact hrefs r (mem_objRefs_oList.mpr ⟨w, hw, hr⟩)
            obtain ⟨B1, B2, B3, B4, B5, B6, B7⟩ := ihL h ctr items items' h1 c1 hsub hwf hitems
            have hitemsLt : ∀ r ∈ objRefs (HeapObj.oList items'), r < c1 := by
              intro r hr
              obtain ⟨w, hw, hrw⟩ := mem_objRefs_oList.mp hr
              have := B4 w hw
              simp only [valWFb, List.all_eq_true, decide_eq_true_eq] at this
              exact this r hrw
            refine ⟨by omega, ?_, ?_, by simp [valWFb, valRefs], ?_, ?_, ?_⟩
            · simp only [heapWFb, List.all_cons, Bool.and_eq_true, decide_eq_true_eq]
              refine ⟨⟨by omega, ?_⟩, ?_⟩
              · simp only [List.all_eq_true, decide_eq_true_eq]
                intro r hr
                exact lt_of_lt_of_le (hitemsLt r hr) (by omega)
              · have := heapWFb_mono (Nat.le_succ c1) B2
                simpa [heapWFb, List.all_eq_true] using this
            · intro b hb
              rw [halookup_cons_ne (by omega), B3 b hb]
            · intro r hr
              simp only [valRefs, List.mem_singleton] at hr
              omega
            · intro a0 o0 ha0 ho0
              by_cases hac : c1 = a0
              · obtain rfl := hac
                rw [halookup_cons_self] at ho0
                obtain rfl : HeapObj.oList items' = o0 := by injection ho0
                intro r hr
                obtain ⟨w, hw, hrw⟩ := mem_objRefs_oList.mp hr
                exact (B5 w hw) r hrw
              · rw [halookup_cons_ne hac] at ho0
                exact B6 a0 o0 ha0 ho0
            · have hread1 : readValList f ((c1, HeapObj.oList items') :: h1) items' =
                  readValList f h1 items' := by
                refine readValList_ext_lt f h1 _ c1 items' B2 B4 ?_
                intro b hb
                exact halookup_cons_ne (by omega)
              simp only [readVal, halookup_cons_self, hl, hread1, B7]
        | oDict entries =>
          have hcl2 : (match cloneValEntries f h ctr entries with
              | none => none
              | some (entries', h1, c1) =>
                some (HVal.hRef c1, (c1, HeapObj.oDict entries') :: h1, c1 + 1)) =
              some (v', h', ctr') := hcl
          cases hsub : cloneValEntries f h ctr entries with
          | none => rw [hsub] at hcl2; simp at hcl2
          | some res =>
            obtain ⟨entries', h1, c1⟩ := res
            rw [hsub] at hcl2
            simp only [Option.some.injEq, Prod.mk.injEq] at hcl2
            obtain ⟨rfl, rfl, rfl⟩ := hcl2
            have hentries : ∀ kv ∈ entries, valWFb ctr kv.1 = true ∧ valWFb ctr kv.2 = true := by
              intro kv hkv
              constructor <;>
                (simp only [valWFb, List.all_eq_true, decide_eq_true_eq]; intro r hr)
              · exact hrefs r (mem_objRefs_oDict.mpr ⟨kv, hkv, Or.inl hr⟩)
              · exact hrefs r (mem_objRefs_oDict.mpr ⟨kv, hkv, Or.inr hr⟩)
            obtain ⟨B1, B2, B3, B4, B5, B6, B7⟩ := ihE h ctr entries entries' h1 c1 hsub hwf hentries
            have hentriesLt : ∀ r ∈ objRefs (HeapObj.oDict entries'), r < c1 := by
              intro r hr
              obtain ⟨kv, hkv, hrw⟩ := mem_objRefs_oDict.mp hr
              obtain ⟨hk, hv2⟩ := B4 kv hkv
              simp only [valWFb, List.all_eq_true, decide_eq_true_eq] at hk hv2
              rcases hrw with hrw | hrw
              · exact hk r hrw
              · exact hv2 r hrw
            refine ⟨by omega, ?_, ?_, by simp [valWFb, valRefs], ?_, ?_, ?_⟩
            · simp only [heapWFb, List.all_cons, Bool.and_eq_true, decide_eq_true_eq]
              refine ⟨⟨by omega, ?_⟩, ?_⟩
              · simp only [List.all_eq_true, decide_eq_true_eq]
                intro r hr
                exact lt_of_lt_of_le (hentriesLt r hr) (by omega)
              · have := heapWFb_mono (Nat.le_succ c1) B2
                simpa [heapWFb, List.all_eq_true] using this
            · intro b hb
              rw [halookup_cons_ne (by omega), B3 b hb]
            · intro r hr
              simp only [valRefs, List.mem_singleton] at hr
              omega
            · intro a0 o0 ha0 ho0
              by_cases hac : c1 = a0
              · obtain rfl := hac
                rw [halookup_cons_self] at ho0
                obtain rfl : HeapObj.oDict entries' = o0 := by injection ho0
                intro r hr
                obtain ⟨kv, hkv, hrw⟩ := mem_objRefs_oDict.mp hr
                rcases hrw with hrw | hrw
                · exact (B5 kv hkv).1 r hrw
                · exact (B5 kv hkv).2 r hrw
              · rw [halookup_cons_ne hac] at ho0
                exact B6 a0 o0 ha0 ho0
            · have hread1 : readValEntries f ((c1, HeapObj.oDict entries') :: h1) entries' =
                  readValEntries f h1 entries' := by
                have hkv2 : ∀ kv ∈ entries', (∀ r ∈ valRefs kv.1, r < c1) ∧
                    (∀ r ∈ valRefs kv.2, r < c1) := by
                  intro kv hkv
                  obtain ⟨hk, hv2⟩ := B4 kv hkv
                  simp only [valWFb, List.all_eq_true, decide_eq_true_eq] at hk hv2
                  exact ⟨hk, hv2⟩
                refine (read_ext (fun x => x < c1) h1 _
                  (fun x hx o2 hl2 r hr => (heapWFb_lookup B2 hl2).2 r hr)
                  (fun x hx => halookup_cons_ne (by omega)) f).2.2 entries' hkv2
              simp only [readVal, halookup_cons_self, hl, hread1, B7]
    refine ⟨?_, ?_, ?_⟩
    · intro h ctr v v' h' ctr' hcl hwf hv
      cases v with
      | hRef a => exact refCase h ctr a v' h' ctr' hcl hwf hv
      | hNone =>
        simp only [cloneValue, Option.some.injEq, Prod.mk.injEq] at hcl
        obtain ⟨rfl, rfl, rfl⟩ := hcl
        exact ⟨le_refl _, hwf, fun b _ => rfl, hv, by simp [valRefs],
          fun a o ha ho => absurd (heapWFb_lookup hwf ho).1 (by omega), rfl⟩
      | hBool b0 =>
        simp only [cloneValue, Option.some.injEq, Prod.mk.injEq] at hcl
        obtain ⟨rfl, rfl, rfl⟩ := hcl
        exact ⟨le_refl _, hwf, fun b _ => rfl, hv, by simp [valRefs],
          fun a o ha ho => absurd (heapWFb_lookup hwf ho).1 (by omega), rfl⟩
      | hInt n =>
        simp only [cloneValue, Option.some.injEq, Prod.mk.injEq] at hcl
        obtain ⟨rfl, rfl, rfl⟩ := hcl
        exact ⟨le_refl _, hwf, fun b _ => rfl, hv, by simp [valRefs],
          fun a o ha ho => absurd (heapWFb_lookup hwf ho).1 (by omega), rfl⟩
      | hFloat t =>
        simp only [cloneValue, Option.some.injEq, Prod.mk.injEq] at hcl
        obtain ⟨rfl, rfl, rfl⟩ := hcl
        exact ⟨le_refl _, hwf, fun b _ => rfl, hv, by simp [valRefs],
          fun a o ha ho => absurd (heapWFb_lookup hwf ho).1 (by omega), rfl⟩
      | hStr s =>
        simp only [cloneValue, Option.some.injEq, Prod.mk.injEq] at hcl
        obtain ⟨rfl, rfl, rfl⟩ := hcl
        exact ⟨le_refl _, hwf, fun b _ => rfl, hv, by simp [valRefs],
          fun a o ha ho => absurd (heapWFb_lookup hwf ho).1 (by omega), rfl⟩
      | hTask t =>
        simp only [cloneValue, Option.some.injEq, Prod.mk.injEq] at hcl
        obtain ⟨rfl, rfl, rfl⟩ := hcl
        exact ⟨le_refl _, hwf, fun b _ => rfl, hv, by simp [valRefs],
          fun a o ha ho => absurd (heapWFb_lookup hwf ho).1 (by omega), rfl⟩
    · intro h ctr vs vs' h' ctr' hcl hwf hvs
      cases vs with
      | nil =>
        simp only [cloneValList, Option.some.injEq, Prod.mk.injEq] at hcl
        obtain ⟨rfl, rfl, rfl⟩ := hcl
        exact ⟨le_refl _, hwf, fun b _ => rfl, fun w hw => absurd hw (by simp),
          fun w hw => absurd hw (by simp),
          fun a o ha ho => absurd (heapWFb_lookup hwf ho).1 (by omega), rfl⟩
      | cons v rest =>
        simp only [cloneValList] at hcl
        cases hc1 : cloneValue f h ctr v with
        | none => rw [hc1] at hcl; simp at hcl
        | some res1 =>
          obtain ⟨v1, h1, c1⟩ := res1
          rw [hc1] at hcl
          have hcl2 : (match cloneValList f h1 c1 rest with
              | none => none
              | some (vs1, h2, c2) => some (v1 :: vs1, h2, c2)) =
              some (vs', h', ctr') := hcl
          cases hc2 : cloneValList f h1 c1 rest with
          | none => rw [hc2] at hcl2; simp at hcl2
          | some res2 =>
            obtain ⟨vs1, h2, c2⟩ := res2
            rw [hc2] at hcl2
            simp only [Option.some.injEq, Prod.mk.injEq] at hcl2
            obtain ⟨rfl, rfl, rfl⟩ := hcl2
            obtain ⟨A1, A2, A3, A4, A5, A6, A7⟩ :=
              ihV h ctr v v1 h1 c1 hc1 hwf (hvs v (List.mem_cons_self v rest))
            have hrest1 : ∀ w ∈ rest, valWFb c1 w = true := by
              intro w hw
              exact valWFb_mono A1 (hvs w (List.mem_cons_of_mem v hw))
            obtain ⟨B1, B2, B3, B4, B5, B6, B7⟩ :=
              ihL h1 c1 rest vs1 h2 c2 hc2 A2 hrest1
            refine ⟨by omega, B2, ?_, ?_, ?_, ?_, ?_⟩
            · intro b hb
              rw [B3 b (by omega), A3 b hb]
            · intro w hw
              rcases List.mem_cons.mp hw with rfl | hw
              · exact valWFb_mono B1 A4
              · exact B4 w hw
            · intro w hw r hr
              rcases List.mem_cons.mp hw with rfl | hw
              · exact A5 r hr
              · exact le_trans A1 (B5 w hw r hr)
            · intro a o ha ho
              by_cases hlt : a < c1
              · rw [B3 a hlt] at ho
                exact A6 a o ha ho
              · intro r hr
                exact le_trans A1 (B6 a o (by omega) ho r hr)
            · have hv1read : readVal f h2 v1 = readVal f h1 v1 :=
                readVal_ext_lt f h1 h2 c1 v1 A2 A4 B3
              have hrestread : readValList f h1 rest = readValList f h rest :=
                readValList_ext_lt f h h1 ctr rest hwf
                  (fun w hw => hvs w (List.mem_cons_of_mem v hw)) A3
              simp only [readValList, hv1read, A7, B7, hrestread]
    · intro h ctr kvs kvs' h' ctr' hcl hwf hkvs
      cases kvs with
      | nil =>
        simp only [cloneValEntries, Option.some.injEq, Prod.mk.injEq] at hcl
        obtain ⟨rfl, rfl, rfl⟩ := hcl
        exact ⟨le_refl _, hwf, fun b _ => rfl, fun kv hkv => absurd hkv (by simp),
          fun kv hkv => absurd hkv (by simp),
          fun a o ha ho => absurd (heapWFb_lookup hwf ho).1 (by omega), rfl⟩
      | cons kv rest =>
        simp only [cloneValEntries] at hcl
        cases hc1 : cloneValue f h ctr kv.1 with
        | none => rw [hc1] at hcl; simp at hcl
        | some res1 =>
          obtain ⟨k1, h1, c1⟩ := res1
          rw [hc1] at hcl
          have hclA : (match cloneValue f h1 c1 kv.2 with
              | none => none
              | some (v1, h2, c2) =>
                match cloneValEntries f h2 c2 rest with
                | none => none
                | some (kvs1, h3, c3) => some ((k1, v1) :: kvs1, h3, c3)) =
              some (kvs', h', ctr') := hcl
          cases hc2 : cloneValue f h1 c1 kv.2 with
          | none => rw [hc2] at hclA; simp at hclA
          | some res2 =>
            obtain ⟨v1, h2, c2⟩ := res2
            rw [hc2] at hclA
            have hclB : (match cloneValEntries f h2 c2 rest with
                | none => none
                | some (kvs1, h3, c3) => some ((k1, v1) :: kvs1, h3, c3)) =
                some (kvs', h', ctr') := hclA
            cases hc3 : cloneValEntries f h2 c2 rest with
            | none => rw [hc3] at hclB; simp at hclB
            | some res3 =>
              obtain ⟨kvs1, h3, c3⟩ := res3
              rw [hc3] at hclB
              simp only [Option.some.injEq, Prod.mk.injEq] at hclB
              obtain ⟨rfl, rfl, rfl⟩ := hclB
              obtain ⟨A1, A2, A3, A4, A5, A6, A7⟩ :=
                ihV h ctr kv.1 k1 h1 c1 hc1 hwf (hkvs kv (List.mem_cons_self kv rest)).1
              have hkv2wf : valWFb c1 kv.2 = true :=
                valWFb_mono A1 (hkvs kv (List.mem_cons_self kv rest)).2
              obtain ⟨C1, C2, C3, C4, C5, C6, C7⟩ :=
                ihV h1 c1 kv.2 v1 h2 c2 hc2 A2 hkv2wf
              have hrest1 : ∀ x ∈ rest, valWFb c2 x.1 = true ∧ valWFb c2 x.2 = true := by
                intro x hx
                obtain ⟨hx1, hx2⟩ := hkvs x (List.mem_cons_of_mem kv hx)
                exact ⟨valWFb_mono (by omega) hx1, valWFb_mono (by omega) hx2⟩
              obtain ⟨B1, B2, B3, B4, B5, B6, B7⟩ :=
                ihE h2 c2 rest kvs1 h3 c3 hc3 C2 hrest1
              refine ⟨by omega, B2, ?_, ?_, ?_, ?_, ?_⟩
              · intro b hb
                rw [B3 b (by omega), C3 b (by omega), A3 b hb]
              · intro x hx
                rcases List.mem_cons.mp hx with rfl | hx
                · exact ⟨valWFb_mono (by omega) A4, valWFb_mono B1 C4⟩
                · exact B4 x hx
              · intro x hx
                rcases List.mem_cons.mp hx with rfl | hx
                · exact ⟨A5, fun r hr => le_trans A1 (C5 r hr)⟩
                · exact ⟨fun r hr => le_trans (by omega) ((B5 x hx).1 r hr),
                    fun r hr => le_trans (by omega) ((B5 x hx).2 r hr)⟩
              · intro a o ha ho
                by_cases hlt1 : a < c1
                · rw [B3 a (by omega), C3 a hlt1] at ho
                  exact A6 a o ha ho
                · by_cases hlt2 : a < c2
                  · rw [B3 a hlt2] at ho
                    intro r hr
                    exact le_trans A1 (C6 a o (by omega) ho r hr)
                  · intro r hr
                    exact le_trans (by omega) (B6 a o (by omega) ho r hr)
              · have hk1read : readVal f h3 k1 = readVal f h1 k1 := by
                  have step1 : readVal f h3 k1 = readVal f h2 k1 :=
                    readVal_ext_lt f h2 h3 c2 k1 C2 (valWFb_mono C1 A4) B3
                  have step2 : readVal f h2 k1 = readVal f h1 k1 :=
                    readVal_ext_lt f h1 h2 c1 k1 A2 A4 C3
                  rw [step1, step2]
                have hv1read : readVal f h3 v1 = readVal f h2 v1 :=
                  readVal_ext_lt f h2 h3 c2 v1 C2 C4 B3
                have hkv2read : readVal f h1 kv.2 = readVal f h kv.2 :=
                  readVal_ext_lt f h h1 ctr kv.2 hwf
                    (hkvs kv (List.mem_cons_self kv rest)).2 A3
                have hrestread : readValEntries f h2 rest = readValEntries f h rest := by
                  have hx : ∀ x ∈ rest, valWFb ctr x.1 = true ∧ valWFb ctr x.2 = true :=
                    fun x hx => hkvs x (List.mem_cons_of_mem kv hx)
                  have hx2 : ∀ x ∈ rest, (∀ r ∈ valRefs x.1, r < ctr) ∧
                      (∀ r ∈ valRefs x.2, r < ctr) := by
                    intro x hxx
                    obtain ⟨h1x, h2x⟩ := hx x hxx
                    simp only [valWFb, List.all_eq_true, decide_eq_true_eq] at h1x h2x
                    exact ⟨h1x, h2x⟩
                  refine (read_ext (fun b => b < ctr) h h2
                    (fun b hb o hlo r hr => (heapWFb_lookup hwf hlo).2 r hr)
                    (fun b hb => by rw [C3 b (by omega), A3 b hb]) f).2.2 rest hx2
                simp only [readValEntries, hk1read, A7, hv1read, C7, hkv2read, B7, hrestread]

/-- **C10.** `_builtin_spawn` captures `snapshot = self._clone_globals(globals_store)`
at spawn time and runs the task body against that snapshot: the snapshot denotes
exactly the entry-state trees of the spawner's globals vector, the snapshot
reaches only heap addresses allocated by the clone while the spawner's globals
reach only pre-spawn addresses, so a task-side mutation (a heap write at any
freshly allocated address) changes nothing read through the spawner's globals
vector, and a spawner-side mutation after the spawn (a heap write at any
pre-spawn address) changes nothing read through the task's snapshot. -/
theorem spawn_globals_isolation (fuel : Nat) (h : List (Nat × HeapObj)) (ctr : Nat)
    (globals snap : List HVal) (h' : List (Nat × HeapObj)) (ctr' : Nat)
    (hwf : heapWFb h ctr = true)
    (hg : ∀ v ∈ globals, valWFb ctr v = true)
    (hclone : cloneValList fuel h ctr globals = some (snap, h', ctr')) :
    readValList fuel h' snap = readValList fuel h globals ∧
    (∀ v ∈ snap, ∀ f2 r, r ∈ reachVal f2 h' v → ctr ≤ r) ∧
    (∀ v ∈ globals, ∀ f2 r, r ∈ reachVal f2 h' v → r < ctr) ∧
    (∀ a o, ctr ≤ a →
      readValList fuel (hupdate h' a o) globals = readValList fuel h' globals) ∧
    (∀ a o, a < ctr →
      readValList fuel (hupdate h' a o) snap = readValList fuel h' snap) := by
  obtain ⟨B1, B2, B3, B4, B5, B6, B7⟩ :=
    (clone_master fuel).2.1 h ctr globals snap h' ctr' hclone hwf hg
  have hcloseLt : ∀ b, b < ctr → ∀ o, halookup h' b = some o → ∀ r ∈ objRefs o, r < ctr := by
    intro b hb o hlo r hr
    rw [B3 b hb] at hlo
    exact (heapWFb_lookup hwf hlo).2 r hr
  have hgrefs : ∀ v ∈ globals, ∀ r ∈ valRefs v, r < ctr := by
    intro v hv
    simpa [valWFb, List.all_eq_true] using hg v hv
  refine ⟨B7, ?_, ?_, ?_, ?_⟩
  · intro v hv f2 r hr
    exact (reach_closed (fun x => ctr ≤ x) h'
      (fun a ha o hlo => B6 a o ha hlo) f2).1 v (B5 v hv) r hr
  · intro v hv f2 r hr
    exact (reach_closed (fun x => x < ctr) h' hcloseLt f2).1 v (hgrefs v hv) r hr
  · intro a o ha
    exact (read_ext (fun x => x < ctr) h' (hupdate h' a o) hcloseLt
      (fun b hb => hupdate_lookup_ne (by omega)) fuel).2.1 globals hgrefs
  · intro a o ha
    exact (read_ext (fun x => ctr ≤ x) h' (hupdate h' a o)
      (fun b hb o2 hlo => B6 b o2 hb hlo)
      (fun b hb => hupdate_lookup_ne (by omega)) fuel).2.1 snap B5

def sampleHeap : List (Nat × HeapObj) := [(0, .oList [.hInt 1, .hStr "a"])]

def sampleGlobals : List HVal := [.hRef 0, .hInt 5]

def sampleSnap : List HVal := [.hRef 1, .hInt 5]

def sampleHeap2 : List (Nat × HeapObj) :=
  [(1, .oList [.hInt 1, .hStr "a"]), (0, .oList [.hInt 1, .hStr "a"])]

theorem spawn_globals_isolation_witness :
    heapWFb sampleHeap 1 = true ∧
    (∀ v ∈ sampleGlobals, valWFb 1 v = true) ∧
    cloneValList 6 sampleHeap 1 sampleGlobals = some (sampleSnap, sampleHeap2, 2) ∧
    (readValList 6 sampleHeap2 sampleSnap = readValList 6 sampleHeap sampleGlobals ∧
     (∀ v ∈ sampleSnap, ∀ f2 r, r ∈ reachVal f2 sampleHeap2 v → 1 ≤ r) ∧
     (∀ v ∈ sampleGlobals, ∀ f2 r, r ∈ reachVal f2 sampleHeap2 v → r < 1) ∧
     (∀ a o, 1 ≤ a → readValList 6 (hupdate sampleHeap2 a o) sampleGlobals =
        readValList 6 sampleHeap2 sampleGlobals) ∧
     (∀ a o, a < 1 → readValList 6 (hupdate sampleHeap2 a o) sampleSnap =
        readValList 6 sampleHeap2 sampleSnap)) :=
  ⟨by decide, by decide, by decide,
    spawn_globals_isolation 6 sampleHeap 1 sampleGlobals sampleSnap sampleHeap2 2
      (by decide) (by decide) (by decide)⟩

end Yasny

